import Mathlib

/-!
# Verification of the `Matrix` linear-algebra engine (`src/demo/lib/matrix.js`)

This file gives a shallow embedding of the dense linear-algebra engine into
Lean 4.  JavaScript numbers are modelled as exact rationals `ℚ` (reals `ℝ`
where the source takes square roots), matrices as functions `ℕ → ℕ → ℚ`
together with explicit dimensions, and the imperative loops as structural
recursions / folds that perform the same sequence of updates.
-/

namespace ILA

/-- A matrix is modelled as a total function on indices; only the entries
`i < m`, `j < n` are meaningful. -/
abbrev Mat := ℕ → ℕ → ℚ

/-- A vector, similarly. -/
abbrev Vec := ℕ → ℚ

/-- Matrix product with inner dimension `k`: the `(i,j)` entry is the dot
product of row `i` of `A` with column `j` of `B` (`Matrix#mult`). -/
def mulMat (k : ℕ) (A B : Mat) : Mat :=
  fun i j => ∑ l ∈ Finset.range k, A i l * B l j

/-- Matrix–vector product with inner dimension `n` (`Matrix#apply`). -/
def mulVec (n : ℕ) (A : Mat) (v : Vec) : Vec :=
  fun i => ∑ j ∈ Finset.range n, A i j * v j

/-- The identity matrix, scaled by `λ` (`Matrix.identity`). -/
def idMat (c : ℚ) : Mat := fun i j => if i = j then c else 0

/-- The permutation matrix whose `i`th row is the `vals i`th unit coordinate
vector (`Matrix.permutation`). -/
def permMat (vals : ℕ → ℕ) : Mat := fun i j => if vals i = j then 1 else 0

/-- Entrywise approximate equality of the `m × n` blocks, within `ε`.
Modelled from the spec: `Vector.equals`/`Matrix.equals` test that each pair
of corresponding entries is within `ε` of each other. -/
def matEqApprox (m n : ℕ) (A B : Mat) (ε : ℚ) : Prop :=
  ∀ i < m, ∀ j < n, |A i j - B i j| ≤ ε

instance (m n : ℕ) (A B : Mat) (ε : ℚ) : Decidable (matEqApprox m n A B ε) := by
  unfold matEqApprox; infer_instance

/-- Build a matrix (total function) from a list of rows, zero elsewhere. -/
def matOfLists (rows : List (List ℚ)) : Mat :=
  fun i j => ((rows.getD i []).getD j 0)

/-! ## Leading entries and echelon predicates (`Matrix#leadingEntries`,
`Matrix#isEchelon`, `Matrix#isRREF`) -/

/-- The column of the first entry of `row` whose absolute value exceeds `ε`,
if any (inner loop of `Matrix#leadingEntries`). -/
def findLeading (n : ℕ) (ε : ℚ) (row : Vec) : Option ℕ :=
  (List.range n).find? (fun j => decide (ε < |row j|))

/-- The list of leading entries, one `(row, column)` pair per row that has an
entry exceeding `ε` in absolute value; other rows are skipped
(`Matrix#leadingEntries`). -/
def leadingEntries (m n : ℕ) (ε : ℚ) (A : Mat) : List (ℕ × ℕ) :=
  (List.range m).filterMap fun i => (findLeading n ε (A i)).map fun j => (i, j)

/-- The walk over leading entries performed by `Matrix#isEchelon`:
each entry must be in the row just after the previous one and in a strictly
later column, starting from the sentinel values `i0 = j0 = -1`. -/
def echWalk : List (ℕ × ℕ) → ℤ → ℤ → Bool
  | [], _, _ => true
  | (i, j) :: rest, i0, j0 =>
    if (i : ℤ) = i0 + 1 ∧ j0 < (j : ℤ) then echWalk rest (i : ℤ) (j : ℤ)
    else false

/-- `Matrix#isEchelon`. -/
def isEchelon (m n : ℕ) (ε : ℚ) (A : Mat) : Bool :=
  echWalk (leadingEntries m n ε A) (-1) (-1)

/-- The walk of `Matrix#isRREF`: as `echWalk`, but each leading entry must
equal `1` exactly and all entries above it must equal `0` exactly. -/
def rrefWalk (A : Mat) : List (ℕ × ℕ) → ℤ → ℤ → Bool
  | [], _, _ => true
  | (i, j) :: rest, i0, j0 =>
    if ((i : ℤ) = i0 + 1 ∧ j0 < (j : ℤ)) ∧ A i j = 1 ∧ ∀ k ∈ Finset.range i, A k j = 0
    then rrefWalk A rest (i : ℤ) (j : ℤ)
    else false

/-- `Matrix#isRREF`. -/
def isRREF (m n : ℕ) (ε : ℚ) (A : Mat) : Bool :=
  rrefWalk A (leadingEntries m n ε A) (-1) (-1)

/-! ## PLU factorization (`Matrix#PLU`) -/

/-- The state threaded through the elimination loop of `Matrix#PLU`. -/
structure PLUState where
  P : ℕ → ℕ
  signP : ℚ
  L : Mat
  U : Mat
  E : Mat
  pivots : List (ℕ × ℕ)
  curRow : ℕ

/-- Maximal-partial-pivot search: scan rows `curRow+1 … m-1` of column `c`,
keeping the first entry of strictly largest absolute value, starting from the
entry in row `curRow` (inner search loop of `Matrix#PLU`). -/
def findPivot (U : Mat) (c curRow m : ℕ) : ℕ × ℚ :=
  (List.range' (curRow + 1) (m - (curRow + 1))).foldl
    (fun best i => if |best.2| < |U i c| then (i, U i c) else best)
    (curRow, U curRow c)

/-- Swap the values of `P` at positions `i1` and `i2`. -/
def swapF (P : ℕ → ℕ) (i1 i2 : ℕ) : ℕ → ℕ :=
  fun i => if i = i1 then P i2 else if i = i2 then P i1 else P i

/-- Swap rows `i1` and `i2` of a matrix (`Matrix#rowSwap`). -/
def rowSwapF (M : Mat) (i1 i2 : ℕ) : Mat :=
  fun i j => if i = i1 then M i2 j else if i = i2 then M i1 j else M i j

/-- The pivot branch of a `Matrix#PLU` iteration: swap the pivot row into
place (tracking the permutation, its sign, and, for the columns before the
current row, the rows of `L`), eliminate the entries below the pivot
(recording multipliers in `L` and the row operations in `E`), record the
pivot position and advance the current row. -/
def pluPivotStep (m : ℕ) (s : PLUState) (curCol row : ℕ) (piv : ℚ) : PLUState :=
  let cr := s.curRow
  let U1 := rowSwapF s.U row cr
  let E1 := rowSwapF s.E row cr
  let L1 : Mat := fun i j => if j < cr then rowSwapF s.L row cr i j else s.L i j
  { P := swapF s.P row cr
    signP := if row = cr then s.signP else -s.signP
    L := fun i j => if cr < i ∧ i < m ∧ j = cr then U1 i curCol / piv else L1 i j
    U := fun i j =>
      if cr < i ∧ i < m then
        if j = curCol then 0
        else if curCol < j then U1 i j - U1 i curCol / piv * U1 cr j
        else U1 i j
      else U1 i j
    E := fun i j =>
      if cr < i ∧ i < m then E1 i j - U1 i curCol / piv * E1 cr j
      else E1 i j
    pivots := s.pivots ++ [(cr, curCol)]
    curRow := cr + 1 }

/-- The branch of a `Matrix#PLU` iteration taken when the whole column
segment at or below the current row is within `ε` of zero: explicitly clear
it (guarding against round-off) and advance only the column. -/
def pluClearStep (m : ℕ) (s : PLUState) (curCol : ℕ) : PLUState :=
  { s with U := fun i j =>
      if j = curCol ∧ s.curRow ≤ i ∧ i < m then 0 else s.U i j }

/-- One iteration of the column loop of `Matrix#PLU` at column `curCol`:
find the maximal pivot candidate at or below the current row; if it exceeds
`ε` run the pivot branch, otherwise clear the column.  A no-op once the rows
are exhausted, matching the loop guard. -/
def pluStep (m : ℕ) (ε : ℚ) (s : PLUState) (curCol : ℕ) : PLUState :=
  if s.curRow < m then
    let fp := findPivot s.U curCol s.curRow m
    if ε < |fp.2| then pluPivotStep m s curCol fp.1 fp.2
    else pluClearStep m s curCol
  else s

/-- The initial state of the elimination: identity permutation with sign `1`,
`L = E = I`, `U` a copy of `A`, no pivots, current row `0`. -/
def pluInit (A : Mat) : PLUState :=
  { P := id, signP := 1, L := idMat 1, U := A, E := idMat 1,
    pivots := [], curRow := 0 }

/-- `Matrix#PLU`: run the column loop over columns `0 … n-1`. -/
def PLU (m n : ℕ) (ε : ℚ) (A : Mat) : PLUState :=
  (List.range n).foldl (pluStep m ε) (pluInit A)

/-- `Matrix#pivots` / `Matrix#rank`: the rank is the number of pivots found
by the elimination. -/
def rankF (m n : ℕ) (ε : ℚ) (A : Mat) : ℕ :=
  (PLU m n ε A).pivots.length

/-! ## Reduced row-echelon form (`Matrix#rref`, `Matrix#rowOps`) -/

/-- One step of the Gauss–Jordan back-elimination of `Matrix#rref` at pivot
`pv`, acting on the pair (working matrix, row-operation matrix): eliminate
the entries above the pivot, then scale the pivot row so the pivot is `1`. -/
def rrefStep (pv : ℕ × ℕ) (RO : Mat × Mat) : Mat × Mat :=
  let R := RO.1
  let O := RO.2
  let row := pv.1
  let col := pv.2
  let piv := R row col
  let R1 : Mat := fun i j =>
    if i < row then
      if j = col then 0
      else if col < j then R i j - R i col / piv * R row j
      else R i j
    else if i = row then
      if j = col then 1
      else if col < j then R i j / piv
      else R i j
    else R i j
  let O1 : Mat := fun i j =>
    if i < row then O i j - R i col / piv * O row j
    else if i = row then O i j / piv
    else O i j
  (R1, O1)

/-- `Matrix#rref` together with its row-operation matrix (`Matrix#rowOps`):
starting from the `U` and `E` of the PLU factorization, process the pivots
from the last to the first. -/
def rrefPair (m n : ℕ) (ε : ℚ) (A : Mat) : Mat × Mat :=
  let s := PLU m n ε A
  s.pivots.foldr rrefStep (s.U, s.E)

/-- `Matrix#rref`. -/
def rrefF (m n : ℕ) (ε : ℚ) (A : Mat) : Mat :=
  (rrefPair m n ε A).1

/-- `Matrix#rowOps`. -/
def rowOpsF (m n : ℕ) (ε : ℚ) (A : Mat) : Mat :=
  (rrefPair m n ε A).2

/-! ## Solving (`Matrix#solve`) and the inverse (`Matrix#inverse`) -/

/-- Forward substitution through the unit-lower-triangular `L`
(the `y` loop of `Matrix#solve`): `y i = b i - ∑_{k<i} L i k * y k`. -/
def fsubV (L : Mat) (b : Vec) : ℕ → ℚ
  | i => b i - ∑ k ∈ (Finset.range i).attach, L i k.1 * fsubV L b k.1
termination_by i => i
decreasing_by exact Finset.mem_range.mp k.2

/-- Back substitution through the pivot columns of `U`
(the `x` loop of `Matrix#solve`), processing the pivot list from the last
pivot to the first; free variables are left at `0`. -/
def bsubV (U : Mat) (y : Vec) : List (ℕ × ℕ) → Vec
  | [] => fun _ => 0
  | pv :: rest =>
    let x := bsubV U y rest
    fun j =>
      if j = pv.2 then
        (y pv.1 - (rest.map fun q => U pv.1 q.2 * x q.2).sum) / U pv.1 pv.2
      else x j

/-- `Matrix#solve`: permute `b`, forward-substitute through `L`, reject if a
residual past the rank exceeds `ε`, otherwise back-substitute through `U`. -/
def solveF (m n : ℕ) (ε : ℚ) (A : Mat) (b : Vec) : Option Vec :=
  let s := PLU m n ε A
  let r := s.pivots.length
  let Pb : Vec := fun i => b (s.P i)
  let y := fsubV s.L Pb
  if ∀ i ∈ Finset.Ico r m, |y i| ≤ ε then some (bsubV s.U y s.pivots)
  else none

/-- `Matrix#isFullRowRank`. -/
def isFullRowRankF (m n : ℕ) (ε : ℚ) (A : Mat) : Bool :=
  if n < m then false else rankF m n ε A == m

/-- `Matrix#isFullColRank`. -/
def isFullColRankF (m n : ℕ) (ε : ℚ) (A : Mat) : Bool :=
  if m < n then false else rankF m n ε A == n

/-- `Matrix#isInvertible`. -/
def isInvertibleF (m n : ℕ) (ε : ℚ) (A : Mat) : Bool :=
  isFullRowRankF m n ε A && isFullColRankF m n ε A

/-- `Matrix#inverse`: error on a non-square or singular matrix, otherwise
the row-operation matrix taking `A` to its reduced row-echelon form. -/
def inverseF (m n : ℕ) (ε : ℚ) (A : Mat) : Except Unit Mat :=
  if m ≠ n then .error ()
  else if isInvertibleF m n ε A then .ok (rowOpsF m n ε A)
  else .error ()

/-! ## Helper lemmas about sums against a Kronecker delta -/

lemma sum_delta_mul {m i : ℕ} (him : i < m) (f : ℕ → ℚ) :
    (∑ k ∈ Finset.range m, (if i = k then (1 : ℚ) else 0) * f k) = f i := by
  rw [Finset.sum_congr rfl fun k _ => by rw [ite_mul, one_mul, zero_mul]]
  rw [Finset.sum_ite_eq (Finset.range m) i f]
  simp [him]

lemma sum_delta_mul_Ico {a b i : ℕ} (f : ℕ → ℚ) :
    (∑ k ∈ Finset.Ico a b, (if i = k then (1 : ℚ) else 0) * f k)
      = if a ≤ i ∧ i < b then f i else 0 := by
  rw [Finset.sum_congr rfl fun k _ => by rw [ite_mul, one_mul, zero_mul]]
  rw [Finset.sum_ite_eq (Finset.Ico a b) i f]
  simp [Finset.mem_Ico]

lemma sum_split_at {m cr : ℕ} (hcr : cr ≤ m) (f : ℕ → ℚ) :
    (∑ k ∈ Finset.range m, f k)
      = (∑ k ∈ Finset.range cr, f k) + ∑ k ∈ Finset.Ico cr m, f k :=
  (Finset.sum_range_add_sum_Ico f hcr).symm

/-! ## Specification of the pivot search -/

lemma findPivot_aux (U : Mat) (c : ℕ) (l : List ℕ) (b : ℕ × ℚ)
    (hb : b.2 = U b.1 c) :
    (l.foldl (fun best i => if |best.2| < |U i c| then (i, U i c) else best) b).2
        = U (l.foldl (fun best i => if |best.2| < |U i c| then (i, U i c) else best) b).1 c ∧
    |b.2| ≤ |(l.foldl (fun best i => if |best.2| < |U i c| then (i, U i c) else best) b).2| ∧
    (∀ i ∈ l, |U i c| ≤ |(l.foldl (fun best i => if |best.2| < |U i c| then (i, U i c) else best) b).2|) ∧
    ((l.foldl (fun best i => if |best.2| < |U i c| then (i, U i c) else best) b).1 = b.1 ∨
      (l.foldl (fun best i => if |best.2| < |U i c| then (i, U i c) else best) b).1 ∈ l) := by
  induction l generalizing b with
  | nil => exact ⟨hb, le_refl _, by simp, Or.inl rfl⟩
  | cons i l ih =>
    simp only [List.foldl_cons]
    by_cases h : |b.2| < |U i c|
    · simp only [if_pos h]
      obtain ⟨h1, h2, h3, h4⟩ := ih (i, U i c) rfl
      refine ⟨h1, le_trans (le_of_lt h) h2, ?_, ?_⟩
      · intro k hk
        rcases List.mem_cons.mp hk with hk | hk
        · subst hk; exact h2
        · exact h3 k hk
      · rcases h4 with h4 | h4
        · exact Or.inr (h4 ▸ List.mem_cons_self i l)
        · exact Or.inr (List.mem_cons_of_mem _ h4)
    · simp only [if_neg h]
      obtain ⟨h1, h2, h3, h4⟩ := ih b hb
      refine ⟨h1, h2, ?_, ?_⟩
      · intro k hk
        rcases List.mem_cons.mp hk with hk | hk
        · subst hk; exact le_trans (le_of_not_lt h) h2
        · exact h3 k hk
      · rcases h4 with h4 | h4
        · exact Or.inl h4
        · exact Or.inr (List.mem_cons_of_mem _ h4)

/-- The columns of the pivots found so far. -/
def pivCols (s : PLUState) : List ℕ := s.pivots.map Prod.snd

/-- The invariant of the `Matrix#PLU` column loop, after processing the
first `cc` columns.  `L·U` differs from the row-permuted `A` only in
already-processed non-pivot columns, and there by at most `ε` per entry
(the entries discarded by the clearing branch); `E·A` agrees with `U`
exactly on pivot columns and on unprocessed columns; `L` is unit lower
triangular with entries bounded by `1`, identity from the current row on;
the pivots sit in consecutive rows with strictly increasing columns, each
holding an entry exceeding `ε` with exact zeros to its left; and the rows
at or below the current row are exactly zero in processed columns. -/
structure PluInv (A : Mat) (m n : ℕ) (ε : ℚ) (cc : ℕ) (s : PLUState) : Prop where
  hrm : s.curRow ≤ m
  hPlt : ∀ i < m, s.P i < m
  hPinj : ∀ i < m, ∀ j < m, s.P i = s.P j → i = j
  hLid : ∀ i k : ℕ, s.curRow ≤ k → s.L i k = if i = k then 1 else 0
  hLlow : ∀ i k : ℕ, i < k → s.L i k = 0
  hLdiag : ∀ i, s.L i i = 1
  hLbnd : ∀ i k, |s.L i k| ≤ 1
  hPivRow : s.pivots.map Prod.fst = List.range s.curRow
  hPivCc : ∀ pv ∈ s.pivots, pv.2 < cc
  hPivCn : ∀ pv ∈ s.pivots, pv.2 < n
  hPivMono : s.pivots.Pairwise fun p q => p.2 < q.2
  hPivVal : ∀ pv ∈ s.pivots, ε < |s.U pv.1 pv.2|
  hPivLeft : ∀ pv ∈ s.pivots, ∀ j < pv.2, s.U pv.1 j = 0
  hBlock : ∀ i, s.curRow ≤ i → i < m → ∀ j < cc, s.U i j = 0
  hDif : ∀ i < m, ∀ j < n,
    |(∑ k ∈ Finset.range m, s.L i k * s.U k j) - A (s.P i) j| ≤ ε
  hDifSupp : ∀ i < m, ∀ j < n, cc ≤ j ∨ j ∈ pivCols s →
    (∑ k ∈ Finset.range m, s.L i k * s.U k j) = A (s.P i) j
  hEA : ∀ i < m, ∀ j < n, cc ≤ j ∨ j ∈ pivCols s →
    (∑ k ∈ Finset.range m, s.E i k * A k j) = s.U i j

lemma pluInv_init {A : Mat} {m n : ℕ} {ε : ℚ} (hε : 0 ≤ ε) :
    PluInv A m n ε 0 (pluInit A) := by
  refine ⟨Nat.zero_le m, fun i hi => hi, fun i hi j hj h => h, ?_, ?_, ?_, ?_,
    rfl, by simp [pluInit], by simp [pluInit], by simp [pluInit],
    by simp [pluInit], by simp [pluInit], ?_, ?_, ?_, ?_⟩
  · intro i k _; rfl
  · intro i k hik
    simp only [pluInit, idMat]
    rw [if_neg (Nat.ne_of_lt hik)]
  · intro i; simp [pluInit, idMat]
  · intro i k
    simp only [pluInit, idMat]
    split_ifs <;> norm_num
  · intro i _ _ j hj; omega
  · intro i hi j _
    simp only [pluInit, idMat, id]
    rw [sum_delta_mul hi (fun k => A k j)]
    simpa using hε
  · intro i hi j _ _
    simp only [pluInit, idMat, id]
    exact sum_delta_mul hi (fun k => A k j)
  · intro i hi j _ _
    simp only [pluInit, idMat]
    exact sum_delta_mul hi (fun k => A k j)

lemma findPivot_spec (U : Mat) (c cr m : ℕ) (h : cr < m) :
    ((findPivot U c cr m).2 = U (findPivot U c cr m).1 c) ∧
    (cr ≤ (findPivot U c cr m).1 ∧ (findPivot U c cr m).1 < m) ∧
    (∀ i, cr ≤ i → i < m → |U i c| ≤ |(findPivot U c cr m).2|) := by
  simp only [findPivot]
  have haux := findPivot_aux U c (List.range' (cr + 1) (m - (cr + 1))) (cr, U cr c) rfl
  obtain ⟨h1, h2, h3, h4⟩ := haux
  have hmem : ∀ i : ℕ, i ∈ List.range' (cr + 1) (m - (cr + 1)) ↔ cr + 1 ≤ i ∧ i < m := by
    intro i
    rw [List.mem_range']
    constructor
    · rintro ⟨k, hk, rfl⟩; omega
    · intro hi; exact ⟨i - (cr + 1), by omega, by omega⟩
  refine ⟨h1, ?_, ?_⟩
  · rcases h4 with h4 | h4
    · rw [h4]
      exact ⟨le_refl _, h⟩
    · have := (hmem _).mp h4
      exact ⟨by omega, this.2⟩
  · intro i hi1 hi2
    rcases eq_or_lt_of_le hi1 with rfl | hlt
    · exact h2
    · exact h3 i ((hmem i).mpr ⟨hlt, hi2⟩)

/-! ## Pointwise facts about swaps -/

lemma swapF_comp (P : ℕ → ℕ) (row cr i : ℕ) :
    swapF P row cr i = P (swapF id row cr i) := by
  unfold swapF; split_ifs <;> rfl

lemma rowSwapF_eq (M : Mat) (row cr i : ℕ) (j : ℕ) :
    rowSwapF M row cr i j = M (swapF id row cr i) j := by
  unfold rowSwapF swapF; split_ifs <;> rfl

lemma swapF_id_invol (row cr i : ℕ) :
    swapF id row cr (swapF id row cr i) = i := by
  unfold swapF id; split_ifs <;> omega

lemma swapF_id_lt {row cr m : ℕ} (hrow : row < m) (hcr : cr < m) {i : ℕ}
    (hi : i < m) : swapF id row cr i < m := by
  unfold swapF id; split_ifs <;> omega

lemma swapF_id_left (row cr : ℕ) : swapF id row cr cr = row := by
  unfold swapF id; split_ifs <;> omega

lemma swapF_id_frozen {row cr i : ℕ} (h1 : cr ≤ row) (h2 : i < cr) :
    swapF id row cr i = i := by
  unfold swapF id; split_ifs <;> omega

lemma swapF_id_seg {row cr m i : ℕ} (h1 : cr ≤ row) (h2 : row < m)
    (h3 : cr ≤ i) (h4 : i < m) :
    cr ≤ swapF id row cr i ∧ swapF id row cr i < m := by
  unfold swapF id; split_ifs <;> omega

/-! ## The two key sum identities of the elimination step -/

/-- Swapping the pivot row into place, together with the partial swap of the
`L` rows before the current column, permutes the rows of the product `L·U`. -/
lemma lu_swap_sum {L U : Mat} {m row cr : ℕ}
    (hLid : ∀ i k, cr ≤ k → L i k = if i = k then (1 : ℚ) else 0)
    (hrow1 : cr ≤ row) (hrow2 : row < m) (hcrm : cr < m)
    (i : ℕ) (him : i < m) (j : ℕ) :
    (∑ k ∈ Finset.range m,
        (if k < cr then rowSwapF L row cr i k else L i k) * rowSwapF U row cr k j)
      = ∑ k ∈ Finset.range m, L (swapF id row cr i) k * U k j := by
  have hcrm' : cr ≤ m := le_of_lt hcrm
  rw [sum_split_at hcrm', sum_split_at hcrm'
    (fun k => L (swapF id row cr i) k * U k j)]
  have hhead : (∑ k ∈ Finset.range cr,
      (if k < cr then rowSwapF L row cr i k else L i k) * rowSwapF U row cr k j)
      = ∑ k ∈ Finset.range cr, L (swapF id row cr i) k * U k j := by
    refine Finset.sum_congr rfl fun k hk => ?_
    have hk' : k < cr := Finset.mem_range.mp hk
    rw [if_pos hk', rowSwapF_eq, rowSwapF_eq, swapF_id_frozen hrow1 hk']
  have htail1 : (∑ k ∈ Finset.Ico cr m,
      (if k < cr then rowSwapF L row cr i k else L i k) * rowSwapF U row cr k j)
      = if cr ≤ i ∧ i < m then rowSwapF U row cr i j else 0 := by
    have hcongr : ∀ k ∈ Finset.Ico cr m,
        (if k < cr then rowSwapF L row cr i k else L i k) * rowSwapF U row cr k j
          = (if i = k then (1 : ℚ) else 0) * rowSwapF U row cr k j := by
      intro k hk
      have hk' := Finset.mem_Ico.mp hk
      rw [if_neg (not_lt.mpr hk'.1), hLid i k hk'.1]
    rw [Finset.sum_congr rfl hcongr, sum_delta_mul_Ico]
  have htail2 : (∑ k ∈ Finset.Ico cr m, L (swapF id row cr i) k * U k j)
      = if cr ≤ swapF id row cr i ∧ swapF id row cr i < m then
          U (swapF id row cr i) j else 0 := by
    have hcongr : ∀ k ∈ Finset.Ico cr m,
        L (swapF id row cr i) k * U k j
          = (if swapF id row cr i = k then (1 : ℚ) else 0) * U k j := by
      intro k hk
      rw [hLid _ k (Finset.mem_Ico.mp hk).1]
    rw [Finset.sum_congr rfl hcongr, sum_delta_mul_Ico]
  rw [hhead, htail1, htail2]
  by_cases hi : cr ≤ i
  · rw [if_pos ⟨hi, him⟩, if_pos (swapF_id_seg hrow1 hrow2 hi him), rowSwapF_eq]
  · have hilt : i < cr := not_le.mp hi
    rw [swapF_id_frozen hrow1 hilt, if_neg (fun h => hi h.1), if_neg (fun h => hi h.1)]

/-- Eliminating the entries below the pivot, while recording the multipliers
in the current column of `L`, leaves the product `L·U` unchanged. -/
lemma lu_elim_sum {L1 U1 : Mat} {m cr cc : ℕ} {piv : ℚ}
    (hLid : ∀ i k, cr ≤ k → L1 i k = if i = k then (1 : ℚ) else 0)
    (hU1cc : U1 cr cc = piv) (hpivne : piv ≠ 0)
    (hU1left : ∀ j, j < cc → U1 cr j = 0)
    (hcrm : cr < m) (i : ℕ) (him : i < m) (j : ℕ) :
    (∑ k ∈ Finset.range m,
      (if cr < i ∧ i < m ∧ k = cr then U1 i cc / piv else L1 i k)
        * (if cr < k ∧ k < m then
             if j = cc then 0
             else if cc < j then U1 k j - U1 k cc / piv * U1 cr j
             else U1 k j
           else U1 k j))
      = ∑ k ∈ Finset.range m, L1 i k * U1 k j := by
  by_cases hi : cr < i
  · have hsplit : cr + 1 ≤ m := hcrm
    rw [sum_split_at hsplit, sum_split_at hsplit (fun k => L1 i k * U1 k j),
      Finset.sum_range_succ, Finset.sum_range_succ (fun k => L1 i k * U1 k j)]
    have hhead : (∑ k ∈ Finset.range cr,
        (if cr < i ∧ i < m ∧ k = cr then U1 i cc / piv else L1 i k)
          * (if cr < k ∧ k < m then
               if j = cc then 0
               else if cc < j then U1 k j - U1 k cc / piv * U1 cr j
               else U1 k j
             else U1 k j))
        = ∑ k ∈ Finset.range cr, L1 i k * U1 k j := by
      refine Finset.sum_congr rfl fun k hk => ?_
      have hk' : k < cr := Finset.mem_range.mp hk
      rw [if_neg (fun h => absurd h.2.2 (Nat.ne_of_lt hk')),
        if_neg (fun h => absurd h.1 (not_lt.mpr (le_of_lt hk')))]
    have hmid1 : (if cr < i ∧ i < m ∧ cr = cr then U1 i cc / piv else L1 i cr)
          * (if cr < cr ∧ cr < m then
               if j = cc then 0
               else if cc < j then U1 cr j - U1 cr cc / piv * U1 cr j
               else U1 cr j
             else U1 cr j)
        = U1 i cc / piv * U1 cr j := by
      have hc1 : cr < i ∧ i < m ∧ cr = cr := ⟨hi, him, rfl⟩
      rw [if_pos hc1, if_neg (fun h => absurd h.1 (lt_irrefl cr))]
    have hmid2 : L1 i cr * U1 cr j = 0 := by
      rw [hLid i cr (le_refl cr), if_neg (Nat.ne_of_gt hi), zero_mul]
    have htail1 : (∑ k ∈ Finset.Ico (cr + 1) m,
        (if cr < i ∧ i < m ∧ k = cr then U1 i cc / piv else L1 i k)
          * (if cr < k ∧ k < m then
               if j = cc then 0
               else if cc < j then U1 k j - U1 k cc / piv * U1 cr j
               else U1 k j
             else U1 k j))
        = if cr + 1 ≤ i ∧ i < m then
            (if j = cc then 0
             else if cc < j then U1 i j - U1 i cc / piv * U1 cr j
             else U1 i j) else 0 := by
      have hcongr : ∀ k ∈ Finset.Ico (cr + 1) m,
          (if cr < i ∧ i < m ∧ k = cr then U1 i cc / piv else L1 i k)
            * (if cr < k ∧ k < m then
                 if j = cc then 0
                 else if cc < j then U1 k j - U1 k cc / piv * U1 cr j
                 else U1 k j
               else U1 k j)
            = (if i = k then (1 : ℚ) else 0)
              * (if j = cc then 0
                 else if cc < j then U1 k j - U1 k cc / piv * U1 cr j
                 else U1 k j) := by
        intro k hk
        have hk' := Finset.mem_Ico.mp hk
        have hco : cr < k ∧ k < m := ⟨hk'.1, hk'.2⟩
        rw [if_neg (fun h => absurd h.2.2 (Nat.ne_of_gt hk'.1)),
          hLid i k (le_of_lt hk'.1), if_pos hco]
      rw [Finset.sum_congr rfl hcongr, sum_delta_mul_Ico]
    have htail2 : (∑ k ∈ Finset.Ico (cr + 1) m, L1 i k * U1 k j)
        = if cr + 1 ≤ i ∧ i < m then U1 i j else 0 := by
      have hcongr : ∀ k ∈ Finset.Ico (cr + 1) m,
          L1 i k * U1 k j = (if i = k then (1 : ℚ) else 0) * U1 k j := by
        intro k hk
        rw [hLid i k (le_of_lt (Finset.mem_Ico.mp hk).1)]
      rw [Finset.sum_congr rfl hcongr, sum_delta_mul_Ico]
    have hcond : cr + 1 ≤ i ∧ i < m := ⟨hi, him⟩
    rw [hhead, hmid1, hmid2, htail1, htail2, if_pos hcond, if_pos hcond]
    rcases lt_trichotomy j cc with hj | hj | hj
    · rw [if_neg (Nat.ne_of_lt hj), if_neg (not_lt.mpr (le_of_lt hj)),
        hU1left j hj, mul_zero]
    · rw [if_pos hj, hj, hU1cc, div_mul_cancel₀ _ hpivne]
      ring
    · rw [if_neg (Nat.ne_of_gt hj), if_pos hj]
      ring
  · refine Finset.sum_congr rfl fun k hk => ?_
    have hkm : k < m := Finset.mem_range.mp hk
    rw [if_neg (fun h => absurd h.1 hi)]
    by_cases hkcr : cr < k
    · have : L1 i k = 0 := by
        rw [hLid i k (le_of_lt hkcr)]
        exact if_neg (fun h => absurd (h ▸ hkcr) (not_lt.mpr (le_of_not_lt hi)))
      rw [this, zero_mul, zero_mul]
    · rw [if_neg (fun h => absurd h.1 hkcr)]

/-! ## Preservation of the invariant by the pivot branch -/

lemma pluPivotStep_P_apply (m : ℕ) (s : PLUState) (curCol row : ℕ) (piv : ℚ)
    (i : ℕ) :
    (pluPivotStep m s curCol row piv).P i = swapF s.P row s.curRow i := rfl

lemma pluPivotStep_L_apply (m : ℕ) (s : PLUState) (curCol row : ℕ) (piv : ℚ)
    (i j : ℕ) :
    (pluPivotStep m s curCol row piv).L i j =
      if s.curRow < i ∧ i < m ∧ j = s.curRow then
        rowSwapF s.U row s.curRow i curCol / piv
      else if j < s.curRow then rowSwapF s.L row s.curRow i j
      else s.L i j := rfl

lemma pluPivotStep_U_apply (m : ℕ) (s : PLUState) (curCol row : ℕ) (piv : ℚ)
    (i j : ℕ) :
    (pluPivotStep m s curCol row piv).U i j =
      if s.curRow < i ∧ i < m then
        if j = curCol then 0
        else if curCol < j then
          rowSwapF s.U row s.curRow i j
            - rowSwapF s.U row s.curRow i curCol / piv * rowSwapF s.U row s.curRow s.curRow j
        else rowSwapF s.U row s.curRow i j
      else rowSwapF s.U row s.curRow i j := rfl

lemma pluPivotStep_E_apply (m : ℕ) (s : PLUState) (curCol row : ℕ) (piv : ℚ)
    (i j : ℕ) :
    (pluPivotStep m s curCol row piv).E i j =
      if s.curRow < i ∧ i < m then
        rowSwapF s.E row s.curRow i j
          - rowSwapF s.U row s.curRow i curCol / piv * rowSwapF s.E row s.curRow s.curRow j
      else rowSwapF s.E row s.curRow i j := rfl

lemma pluPivotStep_pivots (m : ℕ) (s : PLUState) (curCol row : ℕ) (piv : ℚ) :
    (pluPivotStep m s curCol row piv).pivots = s.pivots ++ [(s.curRow, curCol)] := rfl

lemma pluPivotStep_curRow (m : ℕ) (s : PLUState) (curCol row : ℕ) (piv : ℚ) :
    (pluPivotStep m s curCol row piv).curRow = s.curRow + 1 := rfl

lemma pivCols_pivotStep (m : ℕ) (s : PLUState) (curCol row : ℕ) (piv : ℚ) :
    pivCols (pluPivotStep m s curCol row piv) = pivCols s ++ [curCol] := by
  unfold pivCols
  rw [pluPivotStep_pivots, List.map_append]
  rfl

lemma pluInv_pivotStep {A : Mat} {m n : ℕ} {ε : ℚ} {cc : ℕ} {s : PLUState}
    (hε : 0 ≤ ε) (hccn : cc < n) (inv : PluInv A m n ε cc s)
    (hcrm : s.curRow < m) {row : ℕ} {piv : ℚ}
    (hrow1 : s.curRow ≤ row) (hrow2 : row < m)
    (hpv : piv = s.U row cc)
    (hmax : ∀ i, s.curRow ≤ i → i < m → |s.U i cc| ≤ |piv|)
    (hpiv : ε < |piv|) :
    PluInv A m n ε (cc + 1) (pluPivotStep m s cc row piv) := by
  obtain ⟨hrm, hPlt, hPinj, hLid, hLlow, hLdiag, hLbnd, hPivRow, hPivCc, hPivCn,
    hPivMono, hPivVal, hPivLeft, hBlock, hDif, hDifSupp, hEA⟩ := inv
  have hpivne : piv ≠ 0 := by
    intro h
    rw [h, abs_zero] at hpiv
    exact absurd hpiv (not_lt.mpr hε)
  have hU1 : ∀ i j, rowSwapF s.U row s.curRow i j = s.U (swapF id row s.curRow i) j :=
    rowSwapF_eq s.U row s.curRow
  have hE1 : ∀ i j, rowSwapF s.E row s.curRow i j = s.E (swapF id row s.curRow i) j :=
    rowSwapF_eq s.E row s.curRow
  have hU1cc : rowSwapF s.U row s.curRow s.curRow cc = piv := by
    rw [hU1, swapF_id_left, hpv]
  have hU1left : ∀ j, j < cc → rowSwapF s.U row s.curRow s.curRow j = 0 := by
    intro j hj
    rw [hU1, swapF_id_left]
    exact hBlock row hrow1 hrow2 j hj
  have hswp_lt : ∀ i, i < m → swapF id row s.curRow i < m :=
    fun i hi => swapF_id_lt hrow2 hcrm hi
  have hPivRowLt : ∀ pv ∈ s.pivots, pv.1 < s.curRow := by
    intro pv hpv'
    have h1 : pv.1 ∈ s.pivots.map Prod.fst := List.mem_map_of_mem _ hpv'
    rw [hPivRow] at h1
    exact List.mem_range.mp h1
  have hUfrozen : ∀ i, i < s.curRow → ∀ j,
      (pluPivotStep m s cc row piv).U i j = s.U i j := by
    intro i hi j
    rw [pluPivotStep_U_apply,
      if_neg (fun h => absurd h.1 (not_lt.mpr (le_of_lt hi))), hU1,
      swapF_id_frozen hrow1 hi]
  -- the product L·U of the new state, rewritten through the two sum identities
  have hLidFun : ∀ i k : ℕ, s.curRow ≤ k →
      (if k < s.curRow then rowSwapF s.L row s.curRow i k else s.L i k)
        = if i = k then (1 : ℚ) else 0 := by
    intro i k hk
    rw [if_neg (not_lt.mpr hk)]
    exact hLid i k hk
  have hLU : ∀ i, i < m → ∀ j,
      (∑ k ∈ Finset.range m,
        (pluPivotStep m s cc row piv).L i k * (pluPivotStep m s cc row piv).U k j)
        = ∑ k ∈ Finset.range m, s.L (swapF id row s.curRow i) k * s.U k j := by
    intro i him j
    have hstep : ∀ k, (pluPivotStep m s cc row piv).L i k
          * (pluPivotStep m s cc row piv).U k j
        = (if s.curRow < i ∧ i < m ∧ k = s.curRow then
             rowSwapF s.U row s.curRow i cc / piv
           else (fun a b => if b < s.curRow then rowSwapF s.L row s.curRow a b
                 else s.L a b) i k)
          * (if s.curRow < k ∧ k < m then
               if j = cc then 0
               else if cc < j then
                 rowSwapF s.U row s.curRow k j
                   - rowSwapF s.U row s.curRow k cc / piv * rowSwapF s.U row s.curRow s.curRow j
               else rowSwapF s.U row s.curRow k j
             else rowSwapF s.U row s.curRow k j) := by
      intro k
      rw [pluPivotStep_L_apply, pluPivotStep_U_apply]
    rw [Finset.sum_congr rfl fun k _ => hstep k]
    rw [@lu_elim_sum (fun a b => if b < s.curRow then rowSwapF s.L row s.curRow a b
          else s.L a b) (rowSwapF s.U row s.curRow) m s.curRow cc piv
        hLidFun hU1cc hpivne hU1left hcrm i him j]
    exact lu_swap_sum hLid hrow1 hrow2 hcrm i him j
  refine ⟨hcrm, ?_, ?_, ?_, ?_, ?_, ?_, ?_, ?_, ?_, ?_, ?_, ?_, ?_, ?_, ?_, ?_⟩
  · -- hPlt
    intro i hi
    rw [pluPivotStep_P_apply, swapF_comp]
    exact hPlt _ (hswp_lt i hi)
  · -- hPinj
    intro i hi j hj h
    rw [pluPivotStep_P_apply, pluPivotStep_P_apply, swapF_comp s.P row s.curRow i,
      swapF_comp s.P row s.curRow j] at h
    have h2 := hPinj _ (hswp_lt i hi) _ (hswp_lt j hj) h
    have h3 := congrArg (swapF id row s.curRow) h2
    rwa [swapF_id_invol, swapF_id_invol] at h3
  · -- hLid
    intro i k hk
    rw [pluPivotStep_curRow] at hk
    rw [pluPivotStep_L_apply,
      if_neg (fun h => absurd h.2.2 (by omega)),
      if_neg (by omega)]
    exact hLid i k (by omega)
  · -- hLlow
    intro i k hik
    rw [pluPivotStep_L_apply,
      if_neg (fun h => by omega)]
    by_cases hk : k < s.curRow
    · rw [if_pos hk, rowSwapF_eq, swapF_id_frozen hrow1 (by omega)]
      exact hLlow i k hik
    · rw [if_neg hk]
      exact hLlow i k hik
  · -- hLdiag
    intro i
    rw [pluPivotStep_L_apply, if_neg (fun h => by omega)]
    by_cases hk : i < s.curRow
    · rw [if_pos hk, rowSwapF_eq, swapF_id_frozen hrow1 hk]
      exact hLdiag i
    · rw [if_neg hk]
      exact hLdiag i
  · -- hLbnd
    intro i k
    rw [pluPivotStep_L_apply]
    by_cases h1 : s.curRow < i ∧ i < m ∧ k = s.curRow
    · rw [if_pos h1, abs_div]
      have hseg := swapF_id_seg hrow1 hrow2 (le_of_lt h1.1) h1.2.1
      have hle : |rowSwapF s.U row s.curRow i cc| ≤ |piv| := by
        rw [hU1]
        exact hmax _ hseg.1 hseg.2
      exact div_le_one_of_le₀ hle (abs_nonneg piv)
    · rw [if_neg h1]
      by_cases hk : k < s.curRow
      · rw [if_pos hk, rowSwapF_eq]
        exact hLbnd _ k
      · rw [if_neg hk]
        exact hLbnd i k
  · -- hPivRow
    rw [pluPivotStep_pivots, pluPivotStep_curRow, List.map_append, hPivRow,
      List.range_succ]
    rfl
  · -- hPivCc
    intro pv hpv'
    rw [pluPivotStep_pivots] at hpv'
    rcases List.mem_append.mp hpv' with h | h
    · exact lt_trans (hPivCc pv h) (Nat.lt_succ_self cc)
    · rw [List.mem_singleton.mp h]
      exact Nat.lt_succ_self cc
  · -- hPivCn
    intro pv hpv'
    rw [pluPivotStep_pivots] at hpv'
    rcases List.mem_append.mp hpv' with h | h
    · exact hPivCn pv h
    · rw [List.mem_singleton.mp h]
      exact hccn
  · -- hPivMono
    rw [pluPivotStep_pivots]
    rw [List.pairwise_append]
    refine ⟨hPivMono, List.pairwise_singleton _ _, ?_⟩
    intro p hp q hq
    rw [List.mem_singleton.mp hq]
    exact hPivCc p hp
  · -- hPivVal
    intro pv hpv'
    rw [pluPivotStep_pivots] at hpv'
    rcases List.mem_append.mp hpv' with h | h
    · rw [hUfrozen pv.1 (hPivRowLt pv h) pv.2]
      exact hPivVal pv h
    · rw [List.mem_singleton.mp h]
      rw [pluPivotStep_U_apply, if_neg (fun h' => absurd h'.1 (lt_irrefl _)), hU1cc]
      exact hpiv
  · -- hPivLeft
    intro pv hpv' j hj
    rw [pluPivotStep_pivots] at hpv'
    rcases List.mem_append.mp hpv' with h | h
    · rw [hUfrozen pv.1 (hPivRowLt pv h) j]
      exact hPivLeft pv h j hj
    · rw [List.mem_singleton.mp h] at hj ⊢
      rw [pluPivotStep_U_apply, if_neg (fun h' => absurd h'.1 (lt_irrefl _))]
      exact hU1left j hj
  · -- hBlock
    intro i hi him j hj
    rw [pluPivotStep_curRow] at hi
    rw [pluPivotStep_U_apply, if_pos ⟨by omega, him⟩]
    by_cases hjcc : j = cc
    · rw [if_pos hjcc]
    · have hjlt : j < cc := by omega
      rw [if_neg hjcc, if_neg (by omega), hU1]
      have hseg := swapF_id_seg hrow1 hrow2 (by omega : s.curRow ≤ i) him
      exact hBlock _ hseg.1 hseg.2 j hjlt
  · -- hDif
    intro i hi j hj
    rw [hLU i hi j, pluPivotStep_P_apply, swapF_comp s.P row s.curRow i]
    exact hDif _ (hswp_lt i hi) j hj
  · -- hDifSupp
    intro i hi j hj hcond
    rw [hLU i hi j, pluPivotStep_P_apply, swapF_comp s.P row s.curRow i]
    refine hDifSupp _ (hswp_lt i hi) j hj ?_
    rcases hcond with h | h
    · exact Or.inl (by omega)
    · rw [pivCols_pivotStep] at h
      rcases List.mem_append.mp h with h | h
      · exact Or.inr h
      · rw [List.mem_singleton.mp h]
        exact Or.inl (le_refl cc)
  · -- hEA
    intro i hi j hj hcond
    have hcond' : cc ≤ j ∨ j ∈ pivCols s := by
      rcases hcond with h | h
      · exact Or.inl (by omega)
      · rw [pivCols_pivotStep] at h
        rcases List.mem_append.mp h with h | h
        · exact Or.inr h
        · rw [List.mem_singleton.mp h]
          exact Or.inl (le_refl cc)
    have hjpc : j ≠ cc → ¬ (cc < j) → j < cc := by omega
    have hEsum : ∀ i', i' < m →
        (∑ k ∈ Finset.range m, rowSwapF s.E row s.curRow i' k * A k j)
          = s.U (swapF id row s.curRow i') j := by
      intro i' hi'
      rw [Finset.sum_congr rfl fun k _ => by rw [hE1]]
      exact hEA _ (hswp_lt i' hi') j hj hcond'
    rw [pluPivotStep_U_apply]
    by_cases hcri : s.curRow < i
    · have hc : s.curRow < i ∧ i < m := ⟨hcri, hi⟩
      have hsum : (∑ k ∈ Finset.range m,
          (pluPivotStep m s cc row piv).E i k * A k j)
          = (∑ k ∈ Finset.range m, rowSwapF s.E row s.curRow i k * A k j)
            - rowSwapF s.U row s.curRow i cc / piv
              * ∑ k ∈ Finset.range m, rowSwapF s.E row s.curRow s.curRow k * A k j := by
        rw [Finset.sum_congr rfl fun k _ => by
          rw [pluPivotStep_E_apply, if_pos hc, sub_mul, mul_assoc]]
        rw [Finset.sum_sub_distrib, Finset.mul_sum]
      rw [hsum, hEsum i hi, hEsum s.curRow hcrm,
        show swapF id row s.curRow s.curRow = row from swapF_id_left row s.curRow,
        if_pos hc]
      by_cases hjcc : j = cc
      · rw [if_pos hjcc, hjcc, hU1 i cc, ← hpv, div_mul_cancel₀ _ hpivne]
        ring
      · by_cases hjgt : cc < j
        · rw [if_neg hjcc, if_pos hjgt, hU1 i j, hU1 i cc, hU1 s.curRow j,
            show swapF id row s.curRow s.curRow = row from swapF_id_left row s.curRow]
        · have hjlt := hjpc hjcc hjgt
          rw [if_neg hjcc, if_neg hjgt, hBlock row hrow1 hrow2 j hjlt,
            mul_zero, sub_zero, hU1 i j]
    · rw [if_neg (fun h => absurd h.1 hcri)]
      have hsum : (∑ k ∈ Finset.range m,
          (pluPivotStep m s cc row piv).E i k * A k j)
          = ∑ k ∈ Finset.range m, rowSwapF s.E row s.curRow i k * A k j := by
        refine Finset.sum_congr rfl fun k _ => ?_
        rw [pluPivotStep_E_apply, if_neg (fun h => absurd h.1 hcri)]
      rw [hsum, hEsum i hi, hU1]

/-! ## Preservation of the invariant by the clearing branch,
stalling, and the loop itself -/

lemma pivRow_lt {s : PLUState}
    (hPivRow : s.pivots.map Prod.fst = List.range s.curRow) :
    ∀ pv ∈ s.pivots, pv.1 < s.curRow := by
  intro pv hpv'
  have h1 : pv.1 ∈ s.pivots.map Prod.fst := List.mem_map_of_mem _ hpv'
  rw [hPivRow] at h1
  exact List.mem_range.mp h1

lemma pivCols_lt {s : PLUState} {cc : ℕ} (hPivCc : ∀ pv ∈ s.pivots, pv.2 < cc) :
    ∀ j ∈ pivCols s, j < cc := by
  intro j hj
  obtain ⟨pv, hpv', rfl⟩ := List.mem_map.mp hj
  exact hPivCc pv hpv'

lemma pluClearStep_U_apply (m : ℕ) (s : PLUState) (curCol i j : ℕ) :
    (pluClearStep m s curCol).U i j =
      if j = curCol ∧ s.curRow ≤ i ∧ i < m then 0 else s.U i j := rfl

lemma pluInv_clearStep {A : Mat} {m n : ℕ} {ε : ℚ} {cc : ℕ} {s : PLUState}
    (hε : 0 ≤ ε) (hccn : cc < n) (inv : PluInv A m n ε cc s)
    (hsmall : ∀ i, s.curRow ≤ i → i < m → |s.U i cc| ≤ ε) :
    PluInv A m n ε (cc + 1) (pluClearStep m s cc) := by
  obtain ⟨hrm, hPlt, hPinj, hLid, hLlow, hLdiag, hLbnd, hPivRow, hPivCc, hPivCn,
    hPivMono, hPivVal, hPivLeft, hBlock, hDif, hDifSupp, hEA⟩ := inv
  have hrowlt := pivRow_lt hPivRow
  have hcollt := pivCols_lt hPivCc
  have hfrozen : ∀ i, i < s.curRow → ∀ j, (pluClearStep m s cc).U i j = s.U i j := by
    intro i hi j
    rw [pluClearStep_U_apply, if_neg (fun h => absurd h.2.1 (not_le.mpr hi))]
  have hother : ∀ j, j ≠ cc → ∀ i, (pluClearStep m s cc).U i j = s.U i j := by
    intro j hj i
    rw [pluClearStep_U_apply, if_neg (fun h => absurd h.1 hj)]
  refine ⟨hrm, hPlt, hPinj, hLid, hLlow, hLdiag, hLbnd, hPivRow, ?_, hPivCn,
    hPivMono, ?_, ?_, ?_, ?_, ?_, ?_⟩
  · intro pv hpv'
    exact lt_trans (hPivCc pv hpv') (Nat.lt_succ_self cc)
  · intro pv hpv'
    rw [hfrozen pv.1 (hrowlt pv hpv') pv.2]
    exact hPivVal pv hpv'
  · intro pv hpv' j hj
    rw [hfrozen pv.1 (hrowlt pv hpv') j]
    exact hPivLeft pv hpv' j hj
  · intro i hi him j hj
    rw [pluClearStep_U_apply]
    by_cases hjcc : j = cc
    · rw [if_pos ⟨hjcc, hi, him⟩]
    · rw [if_neg (fun h => absurd h.1 hjcc)]
      exact hBlock i hi him j (by omega)
  · intro i hi j hj
    show |(∑ k ∈ Finset.range m, s.L i k * (pluClearStep m s cc).U k j) - A (s.P i) j| ≤ ε
    by_cases hjcc : j = cc
    · have hS' : (∑ k ∈ Finset.range m, s.L i k * (pluClearStep m s cc).U k j)
          = ∑ k ∈ Finset.range s.curRow, s.L i k * s.U k j := by
        rw [sum_split_at hrm (fun k => s.L i k * (pluClearStep m s cc).U k j)]
        have h1 : (∑ k ∈ Finset.range s.curRow, s.L i k * (pluClearStep m s cc).U k j)
            = ∑ k ∈ Finset.range s.curRow, s.L i k * s.U k j :=
          Finset.sum_congr rfl fun k hk => by
            rw [hfrozen k (Finset.mem_range.mp hk) j]
        have h2 : (∑ k ∈ Finset.Ico s.curRow m, s.L i k * (pluClearStep m s cc).U k j) = 0 := by
          refine Finset.sum_eq_zero fun k hk => ?_
          have hk' := Finset.mem_Ico.mp hk
          rw [pluClearStep_U_apply, if_pos ⟨hjcc, hk'.1, hk'.2⟩, mul_zero]
        rw [h1, h2, add_zero]
      have hS : (∑ k ∈ Finset.range m, s.L i k * s.U k j) = A (s.P i) j :=
        hDifSupp i hi j hj (Or.inl (le_of_eq hjcc.symm))
      have hsplit : (∑ k ∈ Finset.range m, s.L i k * s.U k j)
          = (∑ k ∈ Finset.range s.curRow, s.L i k * s.U k j)
            + if s.curRow ≤ i ∧ i < m then s.U i j else 0 := by
        rw [sum_split_at hrm (fun k => s.L i k * s.U k j)]
        congr 1
        have hcongr : ∀ k ∈ Finset.Ico s.curRow m,
            s.L i k * s.U k j = (if i = k then (1 : ℚ) else 0) * s.U k j := by
          intro k hk
          rw [hLid i k (Finset.mem_Ico.mp hk).1]
        rw [Finset.sum_congr rfl hcongr, sum_delta_mul_Ico]
      have hhead : (∑ k ∈ Finset.range s.curRow, s.L i k * s.U k j)
          = A (s.P i) j - if s.curRow ≤ i ∧ i < m then s.U i j else 0 := by
        rw [← hS, hsplit]
        ring
      rw [hS', hhead, show A (s.P i) j - (if s.curRow ≤ i ∧ i < m then s.U i j else 0)
          - A (s.P i) j = -(if s.curRow ≤ i ∧ i < m then s.U i j else 0) from by ring,
        abs_neg]
      by_cases hc : s.curRow ≤ i ∧ i < m
      · rw [if_pos hc, hjcc]
        exact hsmall i hc.1 hc.2
      · rw [if_neg hc, abs_zero]
        exact hε
    · have hsame : (∑ k ∈ Finset.range m, s.L i k * (pluClearStep m s cc).U k j)
          = ∑ k ∈ Finset.range m, s.L i k * s.U k j :=
        Finset.sum_congr rfl fun k _ => by rw [hother j hjcc k]
      rw [hsame]
      exact hDif i hi j hj
  · intro i hi j hj hcond
    show (∑ k ∈ Finset.range m, s.L i k * (pluClearStep m s cc).U k j) = A (s.P i) j
    have hcond' : cc ≤ j ∨ j ∈ pivCols s := by
      rcases hcond with h | h
      · exact Or.inl (by omega)
      · exact Or.inr h
    have hjcc : j ≠ cc := by
      rcases hcond with h | h
      · omega
      · have h' : j ∈ pivCols s := h
        have := hcollt j h'
        omega
    have hsame : (∑ k ∈ Finset.range m, s.L i k * (pluClearStep m s cc).U k j)
        = ∑ k ∈ Finset.range m, s.L i k * s.U k j :=
      Finset.sum_congr rfl fun k _ => by rw [hother j hjcc k]
    rw [hsame]
    exact hDifSupp i hi j hj hcond'
  · intro i hi j hj hcond
    show (∑ k ∈ Finset.range m, s.E i k * A k j) = (pluClearStep m s cc).U i j
    have hcond' : cc ≤ j ∨ j ∈ pivCols s := by
      rcases hcond with h | h
      · exact Or.inl (by omega)
      · exact Or.inr h
    have hjcc : j ≠ cc := by
      rcases hcond with h | h
      · omega
      · have h' : j ∈ pivCols s := h
        have := hcollt j h'
        omega
    rw [hother j hjcc i]
    exact hEA i hi j hj hcond'

lemma pluInv_stall {A : Mat} {m n : ℕ} {ε : ℚ} {cc : ℕ} {s : PLUState}
    (hcr : m ≤ s.curRow) (inv : PluInv A m n ε cc s) :
    PluInv A m n ε (cc + 1) s := by
  obtain ⟨hrm, hPlt, hPinj, hLid, hLlow, hLdiag, hLbnd, hPivRow, hPivCc, hPivCn,
    hPivMono, hPivVal, hPivLeft, hBlock, hDif, hDifSupp, hEA⟩ := inv
  refine ⟨hrm, hPlt, hPinj, hLid, hLlow, hLdiag, hLbnd, hPivRow, ?_, hPivCn,
    hPivMono, hPivVal, hPivLeft, ?_, hDif, ?_, ?_⟩
  · intro pv hpv'
    exact lt_trans (hPivCc pv hpv') (Nat.lt_succ_self cc)
  · intro i hi him j hj
    omega
  · intro i hi j hj hcond
    refine hDifSupp i hi j hj ?_
    rcases hcond with h | h
    · exact Or.inl (by omega)
    · exact Or.inr h
  · intro i hi j hj hcond
    refine hEA i hi j hj ?_
    rcases hcond with h | h
    · exact Or.inl (by omega)
    · exact Or.inr h

lemma pluInv_step {A : Mat} {m n : ℕ} {ε : ℚ} {cc : ℕ} {s : PLUState}
    (hε : 0 ≤ ε) (hccn : cc < n) (inv : PluInv A m n ε cc s) :
    PluInv A m n ε (cc + 1) (pluStep m ε s cc) := by
  unfold pluStep
  by_cases hcr : s.curRow < m
  · rw [if_pos hcr]
    show PluInv A m n ε (cc + 1)
      (if ε < |(findPivot s.U cc s.curRow m).2| then
        pluPivotStep m s cc (findPivot s.U cc s.curRow m).1 (findPivot s.U cc s.curRow m).2
      else pluClearStep m s cc)
    obtain ⟨hfp1, ⟨hfp2, hfp3⟩, hfp4⟩ := findPivot_spec s.U cc s.curRow m hcr
    by_cases hpiv : ε < |(findPivot s.U cc s.curRow m).2|
    · rw [if_pos hpiv]
      exact pluInv_pivotStep hε hccn inv hcr hfp2 hfp3 hfp1 hfp4 hpiv
    · rw [if_neg hpiv]
      exact pluInv_clearStep hε hccn inv
        (fun i h1 h2 => le_trans (hfp4 i h1 h2) (not_lt.mp hpiv))
  · rw [if_neg hcr]
    exact pluInv_stall (not_lt.mp hcr) inv

/-- The master invariant holds of the final state of `Matrix#PLU`. -/
lemma pluInv_final {m n : ℕ} {ε : ℚ} (hε : 0 ≤ ε) (A : Mat) :
    PluInv A m n ε n (PLU m n ε A) := by
  suffices h : ∀ k, k ≤ n →
      PluInv A m n ε k ((List.range k).foldl (pluStep m ε) (pluInit A)) from
    h n (le_refl n)
  intro k
  induction k with
  | zero => exact fun _ => pluInv_init hε
  | succ k ih =>
    intro hk
    rw [List.range_succ, List.foldl_append, List.foldl_cons, List.foldl_nil]
    exact pluInv_step hε (by omega) (ih (by omega))

/-! ## Leading entries of a matrix with a known pivot structure -/

lemma find?_range'_eq_some {p : ℕ → Bool} {c : ℕ} :
    ∀ (st len : ℕ), st ≤ c → c < st + len →
    (∀ j, st ≤ j → j < c → p j = false) → p c = true →
    (List.range' st len).find? p = some c := by
  intro st len
  induction len generalizing st with
  | zero => intro h1 h2; omega
  | succ len ih =>
    intro h1 h2 hbefore hc
    rw [List.range'_succ, List.find?_cons]
    by_cases hst : st = c
    · subst hst
      rw [hc]
    · have hlt : st < c := by omega
      rw [hbefore st (le_refl st) hlt]
      exact ih (st + 1) hlt (by omega) (fun j hj1 hj2 => hbefore j (by omega) hj2) hc

lemma findLeading_eq_some {n : ℕ} {ε : ℚ} {r : Vec} {c : ℕ}
    (hc : c < n) (hval : ε < |r c|) (hleft : ∀ j, j < c → ¬ ε < |r j|) :
    findLeading n ε r = some c := by
  unfold findLeading
  rw [show List.range n = List.range' 0 n from (List.range_eq_range' n)]
  refine find?_range'_eq_some 0 n (Nat.zero_le c) (by omega) ?_ (by simpa using hval)
  intro j _ hj
  simpa using hleft j hj

lemma findLeading_eq_none {n : ℕ} {ε : ℚ} {r : Vec}
    (hz : ∀ j, j < n → ¬ ε < |r j|) : findLeading n ε r = none := by
  unfold findLeading
  rw [List.find?_eq_none]
  intro j hj
  simpa using hz j (List.mem_range.mp hj)

lemma filterMap_range_eq {α : Type} (f : ℕ → Option α) (g : ℕ → α) :
    ∀ (m r : ℕ), r ≤ m →
    (∀ i, i < r → f i = some (g i)) →
    (∀ i, r ≤ i → i < m → f i = none) →
    (List.range m).filterMap f = (List.range r).map g := by
  intro m
  induction m with
  | zero =>
    intro r hr _ _
    interval_cases r
    rfl
  | succ m ih =>
    intro r hr h1 h2
    rw [List.range_succ, List.filterMap_append]
    by_cases hrm : r = m + 1
    · subst hrm
      rw [List.range_succ, List.map_append]
      rw [ih m (le_refl m) (fun i hi => h1 i (by omega)) (fun i hi1 hi2 => by omega)]
      simp [h1 m (by omega)]
    · have hrm' : r ≤ m := by omega
      rw [ih r hrm' h1 (fun i hi1 hi2 => h2 i hi1 (by omega))]
      simp [h2 m hrm' (by omega)]

/-- A pivot list whose first components enumerate `0, 1, …` is determined by
its length and its columns. -/
lemma pivots_eq_map {pvs : List (ℕ × ℕ)}
    (hrows : pvs.map Prod.fst = List.range pvs.length) :
    pvs = (List.range pvs.length).map
      (fun i => (i, (pvs.getD i (0, 0)).2)) := by
  apply List.ext_getElem
  · simp
  · intro idx h1 h2
    have hlen : idx < pvs.length := h1
    have hfst : pvs[idx].1 = idx := by
      have := congrArg (fun l => l[idx]?) hrows
      simp only [List.getElem?_map] at this
      rw [List.getElem?_eq_getElem hlen] at this
      rw [List.getElem?_range hlen] at this
      simpa using this
    have hgetD : pvs.getD idx (0, 0) = pvs[idx] := List.getD_eq_getElem pvs (0, 0) hlen
    simp only [List.getElem_map, List.getElem_range]
    rw [hgetD]
    exact Prod.ext hfst rfl

lemma leadingEntries_of_pivots {m n : ℕ} {M : Mat} {pvs : List (ℕ × ℕ)}
    (hrows : pvs.map Prod.fst = List.range pvs.length)
    (hrm : pvs.length ≤ m)
    (hcn : ∀ pv ∈ pvs, pv.2 < n)
    (hval : ∀ pv ∈ pvs, 0 < |M pv.1 pv.2|)
    (hleft : ∀ pv ∈ pvs, ∀ j < pv.2, M pv.1 j = 0)
    (htail : ∀ i, pvs.length ≤ i → i < m → ∀ j < n, M i j = 0) :
    leadingEntries m n 0 M = pvs := by
  have hmem : ∀ idx, idx < pvs.length → pvs[idx]! ∈ pvs := by
    intro idx h
    rw [getElem!_pos pvs idx h]
    exact List.getElem_mem h
  have hfst : ∀ idx (h : idx < pvs.length), pvs[idx].1 = idx := by
    intro idx h
    have := congrArg (fun l => l[idx]?) hrows
    simp only [List.getElem?_map] at this
    rw [List.getElem?_eq_getElem h, List.getElem?_range h] at this
    simpa using this
  unfold leadingEntries
  rw [filterMap_range_eq _ (fun i => (i, (pvs.getD i (0, 0)).2)) m pvs.length hrm ?_ ?_]
  · exact (pivots_eq_map hrows).symm
  · intro i hi
    have hgetD : pvs.getD i (0, 0) = pvs[i] := List.getD_eq_getElem pvs (0, 0) hi
    have hmem' : pvs[i] ∈ pvs := List.getElem_mem hi
    have h1 : findLeading n 0 (M i) = some pvs[i].2 := by
      refine findLeading_eq_some (hcn _ hmem') ?_ ?_
      · have := hval _ hmem'
        rwa [hfst i hi] at this
      · intro j hj
        rw [not_lt, ← hfst i hi]
        rw [hleft _ hmem' j hj, abs_zero]
    rw [h1]
    simp [hgetD, List.getElem?_eq_getElem hi]
  · intro i hi1 hi2
    have h0 : findLeading n 0 (M i) = none :=
      findLeading_eq_none fun j hj => by rw [not_lt, htail i hi1 hi2 j hj, abs_zero]
    rw [h0]
    rfl

/-! ## The walk of `isEchelon`, characterized -/

/-- The condition `echWalk` checks, written as a predicate: each leading
entry is in the row one past the previous one and in a strictly later
column. -/
def echSpec : List (ℕ × ℕ) → ℤ → ℤ → Prop
  | [], _, _ => True
  | (i, j) :: rest, i0, j0 => (i : ℤ) = i0 + 1 ∧ j0 < (j : ℤ) ∧ echSpec rest (i : ℤ) (j : ℤ)

lemma echWalk_iff_echSpec : ∀ (l : List (ℕ × ℕ)) (i0 j0 : ℤ),
    echWalk l i0 j0 = true ↔ echSpec l i0 j0 := by
  intro l
  induction l with
  | nil => intro i0 j0; simp [echWalk, echSpec]
  | cons p rest ih =>
    intro i0 j0
    obtain ⟨i, j⟩ := p
    rw [show echWalk ((i, j) :: rest) i0 j0
        = if (i : ℤ) = i0 + 1 ∧ j0 < (j : ℤ) then echWalk rest (i : ℤ) (j : ℤ)
          else false from rfl]
    show _ ↔ ((i : ℤ) = i0 + 1 ∧ j0 < (j : ℤ) ∧ echSpec rest (i : ℤ) (j : ℤ))
    by_cases h : (i : ℤ) = i0 + 1 ∧ j0 < (j : ℤ)
    · rw [if_pos h, ih]
      constructor
      · exact fun hs => ⟨h.1, h.2, hs⟩
      · exact fun hs => hs.2.2
    · rw [if_neg h]
      constructor
      · intro hf; exact absurd hf (by simp)
      · intro hs; exact absurd ⟨hs.1, hs.2.1⟩ h

lemma permMat_mulMat {m : ℕ} {P : ℕ → ℕ} {A : Mat} {i : ℕ} (hP : P i < m) (j : ℕ) :
    mulMat m (permMat P) A i j = A (P i) j := by
  unfold mulMat permMat
  exact sum_delta_mul hP fun k => A k j

lemma pivots_length_eq_curRow {s : PLUState}
    (hPivRow : s.pivots.map Prod.fst = List.range s.curRow) :
    s.pivots.length = s.curRow := by
  have := congrArg List.length hPivRow
  simpa using this

lemma echSpec_of_map_range {coln : ℕ → ℕ} :
    ∀ (r st : ℕ) (j0 : ℤ),
    (∀ a b, st ≤ a → a < b → b < st + r → coln a < coln b) →
    (0 < r → j0 < (coln st : ℤ)) →
    echSpec ((List.range' st r).map fun i => (i, coln i)) ((st : ℤ) - 1) j0 := by
  intro r
  induction r with
  | zero => intro st j0 _ _; exact trivial
  | succ r ih =>
    intro st j0 hmono hfirst
    rw [List.range'_succ, List.map_cons]
    refine ⟨by ring, hfirst (by omega), ?_⟩
    have hnext := ih (st + 1) (coln st : ℤ)
      (fun a b ha hab hb => hmono a b (by omega) hab (by omega)) ?_
    · have : ((st : ℤ)) = ((st + 1 : ℕ) : ℤ) - 1 := by push_cast; ring
      rwa [this]
    · intro hr
      have := hmono st (st + 1) (le_refl st) (by omega) (by omega)
      exact_mod_cast this

lemma echWalk_of_pivlist {pvs : List (ℕ × ℕ)}
    (hrows : pvs.map Prod.fst = List.range pvs.length)
    (hmono : pvs.Pairwise fun p q => p.2 < q.2) :
    echWalk pvs (-1) (-1) = true := by
  rw [echWalk_iff_echSpec]
  have hmono' : ∀ a b, 0 ≤ a → a < b → b < 0 + pvs.length →
      (pvs.getD a (0, 0)).2 < (pvs.getD b (0, 0)).2 := by
    intro a b _ hab hb
    have ha' : a < pvs.length := by omega
    have hb' : b < pvs.length := by omega
    rw [List.getD_eq_getElem pvs (0, 0) ha', List.getD_eq_getElem pvs (0, 0) hb']
    exact List.pairwise_iff_getElem.mp hmono a b ha' hb' hab
  have hspec := echSpec_of_map_range pvs.length 0 (-1) hmono'
    (fun _ => by omega)
  rw [show ((0 : ℕ) : ℤ) - 1 = -1 from by norm_num] at hspec
  rw [pivots_eq_map hrows, show List.range pvs.length = List.range' 0 pvs.length
    from List.range_eq_range' pvs.length]
  exact hspec

/-- The leading entries of the echelon matrix `U` produced by `Matrix#PLU`
are exactly its pivots. -/
lemma U_leadingEntries {m n : ℕ} {ε : ℚ} (hε : 0 ≤ ε) (A : Mat) :
    leadingEntries m n 0 (PLU m n ε A).U = (PLU m n ε A).pivots := by
  have hinv : PluInv A m n ε n (PLU m n ε A) := pluInv_final hε A
  have hlen := pivots_length_eq_curRow hinv.hPivRow
  have hrows' : (PLU m n ε A).pivots.map Prod.fst
      = List.range (PLU m n ε A).pivots.length := by
    rw [hlen]
    exact hinv.hPivRow
  refine leadingEntries_of_pivots hrows' ?_ hinv.hPivCn ?_ hinv.hPivLeft ?_
  · rw [hlen]
    exact hinv.hrm
  · intro pv hpv
    exact lt_of_le_of_lt hε (hinv.hPivVal pv hpv)
  · intro i hi1 hi2 j hj
    exact hinv.hBlock i (by omega) hi2 j hj

/-- The `U` of `Matrix#PLU` passes `isEchelon(0)`. -/
lemma U_isEchelon {m n : ℕ} {ε : ℚ} (hε : 0 ≤ ε) (A : Mat) :
    isEchelon m n 0 (PLU m n ε A).U = true := by
  unfold isEchelon
  rw [U_leadingEntries hε A]
  have hinv : PluInv A m n ε n (PLU m n ε A) := pluInv_final hε A
  have hlen := pivots_length_eq_curRow hinv.hPivRow
  exact echWalk_of_pivlist (by rw [hinv.hPivRow, hlen]) hinv.hPivMono

/-- C1: for every matrix `A`, with `{P, L, U}` the result of `A.PLU(ε)` at
the default `ε = 1e-10`, the matrix whose `i`-th row is row `P[i]` of `A`
(that is, `Matrix.permutation(P).mult(A)`) equals `L.mult(U)` within
`1e-8`. -/
theorem plu_permuted_rows_eq_LU (m n : ℕ) (A : Mat) :
    matEqApprox m n
      (mulMat m (permMat (PLU m n (1 / 10 ^ 10) A).P) A)
      (mulMat m (PLU m n (1 / 10 ^ 10) A).L (PLU m n (1 / 10 ^ 10) A).U)
      (1 / 10 ^ 8) := by
  intro i hi j hj
  have hinv : PluInv A m n (1 / 10 ^ 10) n (PLU m n (1 / 10 ^ 10) A) :=
    pluInv_final (by norm_num) A
  rw [permMat_mulMat (hinv.hPlt i hi) j, abs_sub_comm]
  have h1 := hinv.hDif i hi j hj
  have h2 : (1 / 10 ^ 10 : ℚ) ≤ 1 / 10 ^ 8 := by norm_num
  exact le_trans h1 h2

/-! ## Structure of the Gauss–Jordan back-elimination (`Matrix#rref`) -/

/-- The column of the `idx`-th pivot. -/
def colOf (s : PLUState) (idx : ℕ) : ℕ := (s.pivots.getD idx (0, 0)).2

/-- The invariant of the backwards pivot loop of `Matrix#rref` after the
pivots `k, k+1, …` have been processed, for the pair `RO = (rref, rowOps)`:
rows past the rank are still zero; rows of unprocessed pivots are unchanged
up to their pivot column; processed pivot rows hold a `1` at their pivot and
zeros to its left; entries above processed pivots are zero; and `rowOps·A`
agrees with the working matrix on every pivot column. -/
structure RrefInv (A : Mat) (m n : ℕ) (s : PLUState) (k : ℕ) (RO : Mat × Mat) : Prop where
  ha : ∀ i, s.pivots.length ≤ i → i < m → ∀ j < n, RO.1 i j = 0
  hb : ∀ idx, idx < k → ∀ j, j ≤ colOf s idx → RO.1 idx j = s.U idx j
  hc1 : ∀ idx, k ≤ idx → idx < s.pivots.length → RO.1 idx (colOf s idx) = 1
  hc2 : ∀ idx, k ≤ idx → idx < s.pivots.length → ∀ j < colOf s idx, RO.1 idx j = 0
  hd : ∀ idx, k ≤ idx → idx < s.pivots.length → ∀ i < idx, RO.1 i (colOf s idx) = 0
  he : ∀ i < m, ∀ idx < s.pivots.length,
    (∑ kk ∈ Finset.range m, RO.2 i kk * A kk (colOf s idx)) = RO.1 i (colOf s idx)

lemma rrefStep_R_apply (row col : ℕ) (RO : Mat × Mat) (i j : ℕ) :
    (rrefStep (row, col) RO).1 i j =
      if i < row then
        if j = col then 0
        else if col < j then RO.1 i j - RO.1 i col / RO.1 row col * RO.1 row j
        else RO.1 i j
      else if i = row then
        if j = col then 1
        else if col < j then RO.1 i j / RO.1 row col
        else RO.1 i j
      else RO.1 i j := rfl

lemma rrefStep_O_apply (row col : ℕ) (RO : Mat × Mat) (i j : ℕ) :
    (rrefStep (row, col) RO).2 i j =
      if i < row then RO.2 i j - RO.1 i col / RO.1 row col * RO.2 row j
      else if i = row then RO.2 i j / RO.1 row col
      else RO.2 i j := rfl

/-- Facts about the final PLU state needed by the `rref` development,
distilled from `PluInv` at `cc = n`. -/
structure PivFacts (A : Mat) (m n : ℕ) (ε : ℚ) (s : PLUState) : Prop where
  hεnn : 0 ≤ ε
  hrm : s.pivots.length ≤ m
  hfst : ∀ idx, idx < s.pivots.length → (s.pivots.getD idx (0, 0)).1 = idx
  hcn : ∀ idx, idx < s.pivots.length → colOf s idx < n
  hmono : ∀ a b, a < b → b < s.pivots.length → colOf s a < colOf s b
  hval : ∀ idx, idx < s.pivots.length → ε < |s.U idx (colOf s idx)|
  hleft : ∀ idx, idx < s.pivots.length → ∀ j < colOf s idx, s.U idx j = 0
  htail : ∀ i, s.pivots.length ≤ i → i < m → ∀ j < n, s.U i j = 0
  hEA : ∀ i < m, ∀ idx < s.pivots.length,
    (∑ kk ∈ Finset.range m, s.E i kk * A kk (colOf s idx)) = s.U i (colOf s idx)

lemma pivFacts_of_pluInv {A : Mat} {m n : ℕ} {ε : ℚ}
    (hε : 0 ≤ ε) (hinv : PluInv A m n ε n (PLU m n ε A)) :
    PivFacts A m n ε (PLU m n ε A) := by
  set s := PLU m n ε A with hs
  have hlen := pivots_length_eq_curRow hinv.hPivRow
  have hmemD : ∀ idx, idx < s.pivots.length → s.pivots.getD idx (0, 0) ∈ s.pivots := by
    intro idx h
    rw [List.getD_eq_getElem s.pivots (0, 0) h]
    exact List.getElem_mem h
  have hfst : ∀ idx, idx < s.pivots.length → (s.pivots.getD idx (0, 0)).1 = idx := by
    intro idx h
    rw [List.getD_eq_getElem s.pivots (0, 0) h]
    have := congrArg (fun l => l[idx]?) hinv.hPivRow
    simp only [List.getElem?_map] at this
    rw [List.getElem?_eq_getElem h, List.getElem?_range (by omega : idx < s.curRow)] at this
    simpa using this
  refine ⟨hε, by rw [hlen]; exact hinv.hrm, hfst, ?_, ?_, ?_, ?_, ?_, ?_⟩
  · intro idx h
    exact hinv.hPivCn _ (hmemD idx h)
  · intro a b hab hb
    unfold colOf
    rw [List.getD_eq_getElem s.pivots (0, 0) (by omega : a < s.pivots.length),
      List.getD_eq_getElem s.pivots (0, 0) hb]
    exact List.pairwise_iff_getElem.mp hinv.hPivMono a b (by omega) hb hab
  · intro idx h
    have := hinv.hPivVal _ (hmemD idx h)
    rwa [hfst idx h] at this
  · intro idx h j hj
    have := hinv.hPivLeft _ (hmemD idx h) j hj
    rwa [hfst idx h] at this
  · intro i hi1 hi2 j hj
    exact hinv.hBlock i (by omega) hi2 j hj
  · intro i hi idx hidx
    refine hinv.hEA i hi _ (hinv.hPivCn _ (hmemD idx hidx)) (Or.inr ?_)
    unfold pivCols
    exact List.mem_map_of_mem Prod.snd (hmemD idx hidx)

lemma rrefInv_base {A : Mat} {m n : ℕ} {ε : ℚ} {s : PLUState}
    (pf : PivFacts A m n ε s) :
    RrefInv A m n s s.pivots.length (s.U, s.E) := by
  refine ⟨pf.htail, fun idx _ j _ => rfl, ?_, ?_, ?_, ?_⟩
  · intro idx h1 h2; omega
  · intro idx h1 h2; omega
  · intro idx h1 h2; omega
  · exact pf.hEA

lemma rrefInv_step {A : Mat} {m n : ℕ} {ε : ℚ} {s : PLUState} {k : ℕ}
    {RO : Mat × Mat}
    (pf : PivFacts A m n ε s) (hk : k < s.pivots.length)
    (inv : RrefInv A m n s (k + 1) RO) :
    RrefInv A m n s k (rrefStep (k, colOf s k) RO) := by
  obtain ⟨ha, hb, hc1, hc2, hd, he⟩ := inv
  have hkm : k < m := lt_of_lt_of_le hk pf.hrm
  have hRk : ∀ j, j ≤ colOf s k → RO.1 k j = s.U k j := hb k (by omega)
  have hpivne : RO.1 k (colOf s k) ≠ 0 := by
    rw [hRk _ (le_refl _)]
    intro h
    have habs := pf.hval k hk
    rw [h, abs_zero] at habs
    exact absurd habs (not_lt.mpr pf.hεnn)
  have hRk_early : ∀ idx, idx < k → RO.1 k (colOf s idx) = 0 := by
    intro idx hidx
    rw [hRk _ (le_of_lt (pf.hmono idx k hidx hk))]
    exact pf.hleft k hk _ (pf.hmono idx k hidx hk)
  have hRk_late : ∀ idx, k < idx → idx < s.pivots.length → RO.1 k (colOf s idx) = 0 :=
    fun idx h1 h2 => hd idx (by omega) h2 k h1
  refine ⟨?_, ?_, ?_, ?_, ?_, ?_⟩
  · -- ha: rows past the rank are unchanged
    intro i hi1 hi2 j hj
    rw [rrefStep_R_apply, if_neg (by omega), if_neg (by omega)]
    exact ha i hi1 hi2 j hj
  · -- hb: unprocessed rows unchanged up to their pivot column
    intro idx hidx j hj
    have hclt : colOf s idx < colOf s k := pf.hmono idx k hidx hk
    rw [rrefStep_R_apply, if_pos (by omega : idx < k),
      if_neg (by omega : ¬ j = colOf s k), if_neg (by omega : ¬ colOf s k < j)]
    exact hb idx (by omega) j hj
  · -- hc1: processed pivots hold a 1
    intro idx h1 h2
    rcases eq_or_lt_of_le h1 with heq | hlt
    · have hceq : colOf s idx = colOf s k := by rw [heq]
      rw [rrefStep_R_apply, if_neg (by omega : ¬ idx < k),
        if_pos (by omega : idx = k), if_pos hceq]
    · rw [rrefStep_R_apply, if_neg (by omega), if_neg (by omega)]
      exact hc1 idx (by omega) h2
  · -- hc2: zeros to the left of processed pivots
    intro idx h1 h2 j hj
    rcases eq_or_lt_of_le h1 with heq | hlt
    · have hceq : colOf s idx = colOf s k := by rw [heq]
      rw [rrefStep_R_apply, if_neg (by omega : ¬ idx < k),
        if_pos (by omega : idx = k), if_neg (by omega : ¬ j = colOf s k),
        if_neg (by omega : ¬ colOf s k < j), show idx = k from by omega]
      rw [hRk j (by omega)]
      exact pf.hleft k hk j (by omega)
    · rw [rrefStep_R_apply, if_neg (by omega), if_neg (by omega)]
      exact hc2 idx (by omega) h2 j hj
  · -- hd: zeros above processed pivots
    intro idx h1 h2 i hi
    rcases eq_or_lt_of_le h1 with heq | hlt
    · have hceq : colOf s idx = colOf s k := by rw [heq]
      rw [rrefStep_R_apply, if_pos (by omega : i < k), if_pos hceq]
    · have hclt : colOf s k < colOf s idx := pf.hmono k idx hlt h2
      rcases lt_trichotomy i k with hik | hik | hik
      · rw [rrefStep_R_apply, if_pos (by omega : i < k),
          if_neg (by omega : ¬ colOf s idx = colOf s k), if_pos hclt]
        rw [hd idx (by omega) h2 i (by omega), hRk_late idx hlt h2, mul_zero, sub_zero]
      · rw [rrefStep_R_apply, if_neg (by omega : ¬ i < k), if_pos (by omega : i = k),
          if_neg (by omega : ¬ colOf s idx = colOf s k), if_pos hclt,
          show i = k from by omega]
        rw [hRk_late idx hlt h2, zero_div]
      · rw [rrefStep_R_apply, if_neg (by omega), if_neg (by omega)]
        exact hd idx (by omega) h2 i hi
  · -- he: rowOps·A tracks the working matrix on pivot columns
    intro i hi idx hidx
    rcases lt_trichotomy i k with hik | hik | hik
    · have hsum : (∑ kk ∈ Finset.range m,
          (rrefStep (k, colOf s k) RO).2 i kk * A kk (colOf s idx))
          = (∑ kk ∈ Finset.range m, RO.2 i kk * A kk (colOf s idx))
            - RO.1 i (colOf s k) / RO.1 k (colOf s k)
              * ∑ kk ∈ Finset.range m, RO.2 k kk * A kk (colOf s idx) := by
        rw [Finset.sum_congr rfl fun kk _ => by
          rw [rrefStep_O_apply, if_pos hik, sub_mul, mul_assoc]]
        rw [Finset.sum_sub_distrib, Finset.mul_sum]
      rw [hsum, he i hi idx hidx, he k hkm idx hidx]
      rcases lt_trichotomy idx k with hx | hx | hx
      · have hm1 := pf.hmono idx k hx hk
        rw [hRk_early idx hx, mul_zero, sub_zero, rrefStep_R_apply,
          if_pos hik, if_neg (by omega : ¬ colOf s idx = colOf s k),
          if_neg (by omega : ¬ colOf s k < colOf s idx)]
      · rw [show idx = k from hx] at hidx ⊢
        rw [rrefStep_R_apply, if_pos hik, if_pos rfl, div_mul_cancel₀ _ hpivne, sub_self]
      · have hm1 := pf.hmono k idx hx hidx
        rw [rrefStep_R_apply, if_pos hik,
          if_neg (by omega : ¬ colOf s idx = colOf s k), if_pos hm1]
    · rw [hik]
      have hsum : (∑ kk ∈ Finset.range m,
          (rrefStep (k, colOf s k) RO).2 k kk * A kk (colOf s idx))
          = (∑ kk ∈ Finset.range m, RO.2 k kk * A kk (colOf s idx)) / RO.1 k (colOf s k) := by
        rw [Finset.sum_congr rfl fun kk _ => by
          rw [rrefStep_O_apply, if_neg (lt_irrefl k), if_pos rfl, div_mul_eq_mul_div]]
        rw [← Finset.sum_div]
      rw [hsum, he k hkm idx hidx]
      rcases lt_trichotomy idx k with hx | hx | hx
      · have hm1 := pf.hmono idx k hx hk
        rw [hRk_early idx hx, zero_div, rrefStep_R_apply, if_neg (lt_irrefl k),
          if_pos rfl, if_neg (by omega : ¬ colOf s idx = colOf s k),
          if_neg (by omega : ¬ colOf s k < colOf s idx)]
        exact (hRk_early idx hx).symm
      · rw [show idx = k from hx]
        rw [rrefStep_R_apply, if_neg (lt_irrefl k), if_pos rfl, if_pos rfl,
          div_self hpivne]
      · have hm1 := pf.hmono k idx hx hidx
        rw [rrefStep_R_apply, if_neg (lt_irrefl k), if_pos rfl,
          if_neg (by omega : ¬ colOf s idx = colOf s k), if_pos hm1]
    · have hsum : (∑ kk ∈ Finset.range m,
          (rrefStep (k, colOf s k) RO).2 i kk * A kk (colOf s idx))
          = ∑ kk ∈ Finset.range m, RO.2 i kk * A kk (colOf s idx) := by
        refine Finset.sum_congr rfl fun kk _ => ?_
        rw [rrefStep_O_apply, if_neg (by omega), if_neg (by omega)]
      rw [hsum, he i hi idx hidx, rrefStep_R_apply, if_neg (by omega), if_neg (by omega)]

/-- Running the whole backwards loop establishes the invariant at `k = 0`. -/
lemma rrefInv_final {A : Mat} {m n : ℕ} {ε : ℚ} {s : PLUState}
    (pf : PivFacts A m n ε s) :
    RrefInv A m n s 0 (s.pivots.foldr rrefStep (s.U, s.E)) := by
  suffices h : ∀ t, t ≤ s.pivots.length →
      RrefInv A m n s (s.pivots.length - t)
        ((s.pivots.drop (s.pivots.length - t)).foldr rrefStep (s.U, s.E)) by
    have h2 := h s.pivots.length (le_refl _)
    rw [Nat.sub_self, List.drop_zero] at h2
    exact h2
  intro t
  induction t with
  | zero =>
    intro _
    rw [Nat.sub_zero, List.drop_length]
    exact rrefInv_base pf
  | succ t ih =>
    intro ht
    have hk : s.pivots.length - (t + 1) < s.pivots.length := by omega
    have harith : s.pivots.length - t = s.pivots.length - (t + 1) + 1 := by omega
    have hget : s.pivots[s.pivots.length - (t + 1)]
        = (s.pivots.length - (t + 1), colOf s (s.pivots.length - (t + 1))) := by
      refine Prod.ext ?_ ?_
      · have := pf.hfst (s.pivots.length - (t + 1)) hk
        rwa [List.getD_eq_getElem s.pivots (0, 0) hk] at this
      · unfold colOf
        rw [List.getD_eq_getElem s.pivots (0, 0) hk]
    have hdrop : s.pivots.drop (s.pivots.length - (t + 1))
        = (s.pivots.length - (t + 1), colOf s (s.pivots.length - (t + 1)))
          :: s.pivots.drop (s.pivots.length - (t + 1) + 1) := by
      rw [List.drop_eq_getElem_cons hk, hget]
    rw [hdrop, List.foldr_cons]
    exact rrefInv_step pf hk (harith ▸ ih (by omega))

/-- Every member of the pivot list is `(idx, colOf idx)` for its index. -/
lemma pivmem_decomp {A : Mat} {m n : ℕ} {ε : ℚ} {s : PLUState}
    (pf : PivFacts A m n ε s) {pv : ℕ × ℕ} (hpv : pv ∈ s.pivots) :
    ∃ idx, idx < s.pivots.length ∧ pv = (idx, colOf s idx) := by
  obtain ⟨idx, hidx, heq⟩ := List.mem_iff_getElem.mp hpv
  refine ⟨idx, hidx, ?_⟩
  rw [← heq]
  refine Prod.ext ?_ ?_
  · have := pf.hfst idx hidx
    rwa [List.getD_eq_getElem s.pivots (0, 0) hidx] at this
  · unfold colOf
    rw [List.getD_eq_getElem s.pivots (0, 0) hidx]

lemma plu_pivots_rows {A : Mat} {m n : ℕ} {ε : ℚ}
    (hinv : PluInv A m n ε n (PLU m n ε A)) :
    (PLU m n ε A).pivots.map Prod.fst = List.range (PLU m n ε A).pivots.length := by
  rw [pivots_length_eq_curRow hinv.hPivRow]
  exact hinv.hPivRow

/-- `rrefWalk` agrees with `echWalk` on a list whose entries are exact `1`s
of the matrix with exact zeros above them. -/
lemma rrefWalk_eq_echWalk {M : Mat} : ∀ (l : List (ℕ × ℕ)) (i0 j0 : ℤ),
    (∀ p ∈ l, M p.1 p.2 = 1 ∧ ∀ kk ∈ Finset.range p.1, M kk p.2 = 0) →
    rrefWalk M l i0 j0 = echWalk l i0 j0 := by
  intro l
  induction l with
  | nil => intro i0 j0 _; rfl
  | cons p rest ih =>
    intro i0 j0 h
    obtain ⟨i, j⟩ := p
    have hp := h (i, j) (List.mem_cons_self (i, j) rest)
    show (if ((i : ℤ) = i0 + 1 ∧ j0 < (j : ℤ)) ∧ M i j = 1
          ∧ ∀ kk ∈ Finset.range i, M kk j = 0
        then rrefWalk M rest (i : ℤ) (j : ℤ) else false)
      = (if (i : ℤ) = i0 + 1 ∧ j0 < (j : ℤ) then echWalk rest (i : ℤ) (j : ℤ) else false)
    by_cases hc : (i : ℤ) = i0 + 1 ∧ j0 < (j : ℤ)
    · rw [if_pos ⟨hc, hp.1, hp.2⟩, if_pos hc]
      exact ih (i : ℤ) (j : ℤ) fun q hq => h q (List.mem_cons_of_mem _ hq)
    · rw [if_neg (fun hh => hc hh.1), if_neg hc]

/-- C5: for every matrix `A` and tolerance `ε ≥ 0`, the output of
`A.rref(ε)` satisfies the exact test `isRREF(0)`, and the `U` of `A.PLU(ε)`
satisfies `isEchelon(0)`. -/
theorem rref_isRREF_and_plu_U_isEchelon (m n : ℕ) (A : Mat) (ε : ℚ) (hε : 0 ≤ ε) :
    isRREF m n 0 (rrefF m n ε A) = true ∧ isEchelon m n 0 (PLU m n ε A).U = true := by
  refine ⟨?_, U_isEchelon hε A⟩
  have hinv : PluInv A m n ε n (PLU m n ε A) := pluInv_final hε A
  have pf := pivFacts_of_pluInv hε hinv
  have rinv := rrefInv_final pf
  have hRdef : rrefF m n ε A
      = ((PLU m n ε A).pivots.foldr rrefStep ((PLU m n ε A).U, (PLU m n ε A).E)).1 := rfl
  have hle : leadingEntries m n 0 (rrefF m n ε A) = (PLU m n ε A).pivots := by
    rw [hRdef]
    refine leadingEntries_of_pivots (plu_pivots_rows hinv) pf.hrm ?_ ?_ ?_ ?_
    · intro pv hpv
      obtain ⟨idx, hidx, rfl⟩ := pivmem_decomp pf hpv
      exact pf.hcn idx hidx
    · intro pv hpv
      obtain ⟨idx, hidx, rfl⟩ := pivmem_decomp pf hpv
      rw [rinv.hc1 idx (Nat.zero_le idx) hidx]
      norm_num
    · intro pv hpv j hj
      obtain ⟨idx, hidx, rfl⟩ := pivmem_decomp pf hpv
      exact rinv.hc2 idx (Nat.zero_le idx) hidx j hj
    · exact rinv.ha
  unfold isRREF
  rw [hle, hRdef]
  rw [rrefWalk_eq_echWalk (PLU m n ε A).pivots (-1) (-1) ?_]
  · exact echWalk_of_pivlist (plu_pivots_rows hinv) hinv.hPivMono
  · intro pv hpv
    obtain ⟨idx, hidx, rfl⟩ := pivmem_decomp pf hpv
    refine ⟨rinv.hc1 idx (Nat.zero_le idx) hidx, ?_⟩
    intro kk hkk
    exact rinv.hd idx (Nat.zero_le idx) hidx kk (Finset.mem_range.mp hkk)

/-! ## Characterization of `Matrix#isEchelon` -/

/-- The converse reading of the walk of `Matrix#isEchelon`: a successful
walk starting at row sentinel `st - 1` forces the listed rows to be the
consecutive block `st, st+1, …` and the columns to increase strictly. -/
lemma echSpec_inv : ∀ (l : List (ℕ × ℕ)) (st : ℕ) (j0 : ℤ),
    echSpec l ((st : ℤ) - 1) j0 →
    l.map Prod.fst = List.range' st l.length ∧
    (l.Pairwise fun p q => p.2 < q.2) ∧
    (∀ p ∈ l, j0 < (p.2 : ℤ)) := by
  intro l
  induction l with
  | nil =>
    intro st j0 _
    exact ⟨rfl, List.Pairwise.nil, by simp⟩
  | cons p rest ih =>
    intro st j0 hs
    obtain ⟨i, j⟩ := p
    obtain ⟨hi, hj, hrest⟩ := hs
    have hist : i = st := by omega
    subst hist
    have hc : ((i + 1 : ℕ) : ℤ) - 1 = (i : ℤ) := by push_cast; ring
    have hrest' := ih (i + 1) (j : ℤ) (by rw [hc]; exact hrest)
    refine ⟨?_, ?_, ?_⟩
    · rw [List.length_cons, List.range'_succ, List.map_cons, hrest'.1]
    · refine List.pairwise_cons.mpr ⟨?_, hrest'.2.1⟩
      intro q hq
      have h1 := hrest'.2.2 q hq
      omega
    · intro q hq
      rcases List.mem_cons.mp hq with rfl | hq'
      · exact hj
      · have h1 := hrest'.2.2 q hq'
        omega

/-- C7 (amended): `isEchelon(ε)` holds iff the leading entries (first entry
of each row exceeding `ε` in absolute value, rows without one skipped) sit
in the consecutive rows `0, 1, 2, …` — not merely strictly increasing
rows — with strictly increasing columns.  The original "strictly increasing
row indices" reading is refuted by `isEchelon_row_gap_counterexample`. -/
theorem isEchelon_iff_consecutive_rows (m n : ℕ) (ε : ℚ) (A : Mat) :
    isEchelon m n ε A = true ↔
      ((leadingEntries m n ε A).map Prod.fst
          = List.range (leadingEntries m n ε A).length ∧
        (leadingEntries m n ε A).Pairwise fun p q => p.2 < q.2) := by
  constructor
  · intro h
    unfold isEchelon at h
    rw [echWalk_iff_echSpec] at h
    have h0 := echSpec_inv (leadingEntries m n ε A) 0 (-1) (by
      rw [show ((0 : ℕ) : ℤ) - 1 = -1 from by norm_num]
      exact h)
    refine ⟨?_, h0.2.1⟩
    rw [h0.1, List.range_eq_range']
  · intro h
    unfold isEchelon
    exact echWalk_of_pivlist h.1 h.2

/-- C7 counterexample: on the 2×1 matrix `[[0], [1]]` the leading-entry
list is `[(1, 0)]`, whose row and column indices are trivially strictly
increasing, yet `isEchelon(0)` is `false` — the walk demands row `0` first. -/
theorem isEchelon_row_gap_counterexample :
    leadingEntries 2 1 0 (matOfLists [[0], [1]]) = [(1, 0)] ∧
    ([((1 : ℕ), (0 : ℕ))].Pairwise fun p q => p.1 < q.1 ∧ p.2 < q.2) ∧
    isEchelon 2 1 0 (matOfLists [[0], [1]]) = false := by
  refine ⟨by decide, List.pairwise_singleton _ _, by decide⟩

/-! ## Solving: forward and back substitution (`Matrix#solve`) -/

/-- Unfolding of one step of the back substitution. -/
lemma bsubV_cons_apply (U : Mat) (y : Vec) (pv : ℕ × ℕ) (rest : List (ℕ × ℕ)) (j : ℕ) :
    bsubV U y (pv :: rest) j =
      if j = pv.2 then
        (y pv.1 - (rest.map fun q => U pv.1 q.2 * bsubV U y rest q.2).sum) / U pv.1 pv.2
      else bsubV U y rest j := rfl

/-- The back substitution leaves every non-pivot (free) variable at `0`. -/
lemma bsubV_support (U : Mat) (y : Vec) :
    ∀ l : List (ℕ × ℕ), ∀ j, j ∉ l.map Prod.snd → bsubV U y l j = 0 := by
  intro l
  induction l with
  | nil => intro j _; rfl
  | cons p rest ih =>
    intro j hj
    rw [List.map_cons, List.mem_cons] at hj
    push_neg at hj
    rw [bsubV_cons_apply, if_neg hj.1]
    exact ih j hj.2

/-- Back substitution solves each pivot row exactly: for every pivot `pv` of
the list, the dot product of row `pv.1` of `U` against the computed solution,
taken over the pivot columns, recovers `y pv.1`. -/
lemma bsubV_rows (U : Mat) (y : Vec) :
    ∀ l : List (ℕ × ℕ),
    (l.Pairwise fun p q => p.2 < q.2) →
    (∀ pv ∈ l, U pv.1 pv.2 ≠ 0) →
    (∀ pv ∈ l, ∀ j < pv.2, U pv.1 j = 0) →
    ∀ pv ∈ l, (l.map fun q => U pv.1 q.2 * bsubV U y l q.2).sum = y pv.1 := by
  intro l
  induction l with
  | nil => intro _ _ _ pv hpv; cases hpv
  | cons p rest ih =>
    intro hmono hne hleft pv hpv
    have hmono' := List.pairwise_cons.mp hmono
    rcases List.mem_cons.mp hpv with heq | hmem
    · subst heq
      rw [List.map_cons, List.sum_cons]
      have hrest : (rest.map fun q => U pv.1 q.2 * bsubV U y (pv :: rest) q.2)
          = rest.map fun q => U pv.1 q.2 * bsubV U y rest q.2 := by
        refine List.map_congr_left ?_
        intro q hq
        show U pv.1 q.2 * bsubV U y (pv :: rest) q.2
          = U pv.1 q.2 * bsubV U y rest q.2
        rw [bsubV_cons_apply, if_neg (by have := hmono'.1 q hq; omega)]
      rw [hrest, bsubV_cons_apply, if_pos rfl]
      have hne' := hne pv (List.mem_cons_self pv rest)
      field_simp
    · rw [List.map_cons, List.sum_cons]
      have hzero : U pv.1 p.2 = 0 :=
        hleft pv (List.mem_cons_of_mem _ hmem) p.2 (hmono'.1 pv hmem)
      rw [hzero, zero_mul, zero_add]
      have hrest : (rest.map fun q => U pv.1 q.2 * bsubV U y (p :: rest) q.2)
          = rest.map fun q => U pv.1 q.2 * bsubV U y rest q.2 := by
        refine List.map_congr_left ?_
        intro q hq
        show U pv.1 q.2 * bsubV U y (p :: rest) q.2
          = U pv.1 q.2 * bsubV U y rest q.2
        rw [bsubV_cons_apply, if_neg (by have := hmono'.1 q hq; omega)]
      rw [hrest]
      exact ih hmono'.2 (fun q hq => hne q (List.mem_cons_of_mem _ hq))
        (fun q hq => hleft q (List.mem_cons_of_mem _ hq)) pv hmem

/-- A row dot product against a vector supported on the listed (distinct,
in-range) columns collapses to the sum over the list. -/
lemma row_sum_eq_list_sum {n : ℕ} {f : ℕ → ℚ} {x : Vec} {l : List (ℕ × ℕ)}
    (hmono : l.Pairwise fun p q => p.2 < q.2)
    (hcn : ∀ pv ∈ l, pv.2 < n)
    (hsupp : ∀ j, j ∉ l.map Prod.snd → x j = 0) :
    (∑ j ∈ Finset.range n, f j * x j) = (l.map fun q => f q.2 * x q.2).sum := by
  have hpw : (l.map Prod.snd).Pairwise (· < ·) := List.pairwise_map.mpr hmono
  have hnd : (l.map Prod.snd).Nodup := hpw.imp ne_of_lt
  have hsub : (l.map Prod.snd).toFinset ⊆ Finset.range n := by
    intro c hc
    rw [List.mem_toFinset] at hc
    obtain ⟨pv, hpv, rfl⟩ := List.mem_map.mp hc
    exact Finset.mem_range.mpr (hcn pv hpv)
  rw [← Finset.sum_subset hsub ?_]
  · rw [List.sum_toFinset _ hnd, List.map_map]
    rfl
  · intro j _ hj
    rw [List.mem_toFinset] at hj
    rw [hsupp j hj, mul_zero]

/-- The forward substitution of `Matrix#solve` solves the unit-lower-
triangular system exactly. -/
lemma fsubV_spec {m : ℕ} (L : Mat) (b : Vec)
    (hdiag : ∀ i, L i i = 1) (hlow : ∀ i k, i < k → L i k = 0) :
    ∀ i < m, (∑ k ∈ Finset.range m, L i k * fsubV L b k) = b i := by
  intro i him
  rw [sum_split_at (by omega : i + 1 ≤ m) (fun k => L i k * fsubV L b k)]
  have h2 : (∑ k ∈ Finset.Ico (i + 1) m, L i k * fsubV L b k) = 0 := by
    refine Finset.sum_eq_zero fun k hk => ?_
    rw [hlow i k (Finset.mem_Ico.mp hk).1, zero_mul]
  rw [h2, add_zero, Finset.sum_range_succ, hdiag i, one_mul]
  have hexp : fsubV L b i
      = b i - ∑ k ∈ (Finset.range i).attach, L i k.1 * fsubV L b k.1 := by
    rw [fsubV]
  rw [hexp, Finset.sum_attach (Finset.range i) (fun k => L i k * fsubV L b k)]
  ring

/-- The permutation built by the elimination is onto `{0, …, m-1}`. -/
lemma P_surj {m : ℕ} (P : ℕ → ℕ) (hlt : ∀ i < m, P i < m)
    (hinj : ∀ i < m, ∀ j < m, P i = P j → i = j) :
    ∀ q < m, ∃ i < m, P i = q := by
  intro q hq
  have h := Finset.surj_on_of_inj_on_of_card_le (fun a _ => P a)
    (fun a ha => Finset.mem_range.mpr (hlt a (Finset.mem_range.mp ha)))
    (fun a b ha hb hab =>
      hinj a (Finset.mem_range.mp ha) b (Finset.mem_range.mp hb) hab)
    (le_refl (Finset.range m).card) q (Finset.mem_range.mpr hq)
  obtain ⟨i, hi, hqi⟩ := h
  exact ⟨i, Finset.mem_range.mp hi, hqi.symm⟩

/-- `Matrix#solve` returns its back-substitution result when every residual
past the rank is within tolerance. -/
lemma solveF_eq_some {m n : ℕ} {ε : ℚ} {A : Mat} {b : Vec}
    (h : ∀ i ∈ Finset.Ico (PLU m n ε A).pivots.length m,
      |fsubV (PLU m n ε A).L (fun i => b ((PLU m n ε A).P i)) i| ≤ ε) :
    solveF m n ε A b = some (bsubV (PLU m n ε A).U
      (fsubV (PLU m n ε A).L (fun i => b ((PLU m n ε A).P i)))
      (PLU m n ε A).pivots) := by
  show (if ∀ i ∈ Finset.Ico (PLU m n ε A).pivots.length m,
      |fsubV (PLU m n ε A).L (fun i => b ((PLU m n ε A).P i)) i| ≤ ε
    then some (bsubV (PLU m n ε A).U
      (fsubV (PLU m n ε A).L (fun i => b ((PLU m n ε A).P i)))
      (PLU m n ε A).pivots)
    else none) = _
  rw [if_pos h]

/-- `Matrix#solve` returns the no-solution sentinel when some residual past
the rank exceeds the tolerance. -/
lemma solveF_eq_none {m n : ℕ} {ε : ℚ} {A : Mat} {b : Vec}
    (h : ¬ ∀ i ∈ Finset.Ico (PLU m n ε A).pivots.length m,
      |fsubV (PLU m n ε A).L (fun i => b ((PLU m n ε A).P i)) i| ≤ ε) :
    solveF m n ε A b = none := by
  show (if ∀ i ∈ Finset.Ico (PLU m n ε A).pivots.length m,
      |fsubV (PLU m n ε A).L (fun i => b ((PLU m n ε A).P i)) i| ≤ ε
    then some (bsubV (PLU m n ε A).U
      (fsubV (PLU m n ε A).L (fun i => b ((PLU m n ε A).P i)))
      (PLU m n ε A).pivots)
    else none) = none
  rw [if_neg h]

/-- On a `1×1` matrix whose entry beats the tolerance, the elimination takes
the pivot branch at once. -/
lemma PLU_one {ε : ℚ} {A : Mat} (h : ε < |A 0 0|) :
    PLU 1 1 ε A = pluPivotStep 1 (pluInit A) 0 0 (A 0 0) := by
  show (if ε < |A 0 0| then pluPivotStep 1 (pluInit A) 0 0 (A 0 0)
      else pluClearStep 1 (pluInit A) 0) = pluPivotStep 1 (pluInit A) 0 0 (A 0 0)
  rw [if_pos h]

/-- On a `1×1` matrix whose entry is within the tolerance, the elimination
takes the clearing branch at once. -/
lemma PLU_one_clear {ε : ℚ} {A : Mat} (h : ¬ ε < |A 0 0|) :
    PLU 1 1 ε A = pluClearStep 1 (pluInit A) 0 := by
  show (if ε < |A 0 0| then pluPivotStep 1 (pluInit A) 0 0 (A 0 0)
      else pluClearStep 1 (pluInit A) 0) = pluClearStep 1 (pluInit A) 0
  rw [if_neg h]

lemma fsubV_zero (L : Mat) (b : Vec) : fsubV L b 0 = b 0 := by
  rw [fsubV]
  simp

/-- The core residual bound: when the residual test of `Matrix#solve`
passes, the returned vector solves the system within `m·ε` per entry. -/
lemma solve_core {A : Mat} {m n : ℕ} {ε : ℚ} {s : PLUState} {b : Vec}
    (hε : 0 ≤ ε) (hinv : PluInv A m n ε n s)
    (hres : ∀ i ∈ Finset.Ico s.pivots.length m,
      |fsubV s.L (fun i => b (s.P i)) i| ≤ ε) :
    ∀ q < m,
      |mulVec n A (bsubV s.U (fsubV s.L (fun i => b (s.P i))) s.pivots) q - b q|
        ≤ (m : ℚ) * ε := by
  set y := fsubV s.L (fun i => b (s.P i)) with hy
  set X := bsubV s.U y s.pivots with hX
  have hrm : s.pivots.length ≤ m := by
    rw [pivots_length_eq_curRow hinv.hPivRow]
    exact hinv.hrm
  have hfst : ∀ idx, idx < s.pivots.length → (s.pivots.getD idx (0, 0)).1 = idx := by
    intro idx h
    rw [List.getD_eq_getElem s.pivots (0, 0) h]
    have hc := congrArg (fun l => l[idx]?) hinv.hPivRow
    simp only [List.getElem?_map] at hc
    rw [List.getElem?_eq_getElem h, List.getElem?_range
      (by rw [← pivots_length_eq_curRow hinv.hPivRow]; exact h)] at hc
    simpa using hc
  have hne : ∀ pv ∈ s.pivots, s.U pv.1 pv.2 ≠ 0 := by
    intro pv hpv h0
    have hv := hinv.hPivVal pv hpv
    rw [h0, abs_zero] at hv
    exact absurd hv (not_lt.mpr hε)
  have hUX : ∀ k, k < m → (∑ j ∈ Finset.range n, s.U k j * X j)
      = if k < s.pivots.length then y k else 0 := by
    intro k hkm
    by_cases hk : k < s.pivots.length
    · rw [if_pos hk]
      have hmem : (k, colOf s k) ∈ s.pivots := by
        have h1 : s.pivots[k] = (k, colOf s k) := by
          refine Prod.ext ?_ ?_
          · have h2 := hfst k hk
            rwa [List.getD_eq_getElem s.pivots (0, 0) hk] at h2
          · unfold colOf
            rw [List.getD_eq_getElem s.pivots (0, 0) hk]
        rw [← h1]
        exact List.getElem_mem hk
      rw [hX, row_sum_eq_list_sum hinv.hPivMono hinv.hPivCn
        (bsubV_support s.U y s.pivots)]
      exact bsubV_rows s.U y s.pivots hinv.hPivMono hne hinv.hPivLeft
        (k, colOf s k) hmem
    · rw [if_neg hk]
      refine Finset.sum_eq_zero fun j hj => ?_
      rw [hinv.hBlock k (by rw [← pivots_length_eq_curRow hinv.hPivRow]; omega)
        hkm j (Finset.mem_range.mp hj), zero_mul]
  intro q hqm
  obtain ⟨i, him, hPi⟩ := P_surj s.P hinv.hPlt hinv.hPinj q hqm
  rw [← hPi]
  have hswap : (∑ k ∈ Finset.range m, s.L i k * ∑ j ∈ Finset.range n, s.U k j * X j)
      = ∑ j ∈ Finset.range n, (∑ k ∈ Finset.range m, s.L i k * s.U k j) * X j := by
    rw [Finset.sum_congr rfl fun k _ =>
      Finset.mul_sum (Finset.range n) (fun j => s.U k j * X j) (s.L i k)]
    rw [Finset.sum_comm]
    refine Finset.sum_congr rfl fun j _ => ?_
    rw [Finset.sum_mul]
    exact Finset.sum_congr rfl fun k _ => by ring
  have hAXj : (∑ j ∈ Finset.range n, (∑ k ∈ Finset.range m, s.L i k * s.U k j) * X j)
      = ∑ j ∈ Finset.range n, A (s.P i) j * X j := by
    refine Finset.sum_congr rfl fun j hj => ?_
    by_cases hjp : j ∈ pivCols s
    · rw [hinv.hDifSupp i him j (Finset.mem_range.mp hj) (Or.inr hjp)]
    · rw [hX, bsubV_support s.U y s.pivots j hjp, mul_zero, mul_zero]
  have hmulVec : mulVec n A X (s.P i)
      = ∑ k ∈ Finset.range m, s.L i k * (if k < s.pivots.length then y k else 0) := by
    have h1 : (∑ k ∈ Finset.range m,
          s.L i k * (if k < s.pivots.length then y k else 0))
        = ∑ k ∈ Finset.range m, s.L i k * ∑ j ∈ Finset.range n, s.U k j * X j := by
      refine Finset.sum_congr rfl fun k hk => ?_
      rw [hUX k (Finset.mem_range.mp hk)]
    rw [h1, hswap, hAXj]
    rfl
  have hsplit : (∑ k ∈ Finset.range m,
        s.L i k * (if k < s.pivots.length then y k else 0))
      = ∑ k ∈ Finset.range s.pivots.length, s.L i k * y k := by
    rw [sum_split_at hrm (fun k => s.L i k * (if k < s.pivots.length then y k else 0))]
    have h1 : (∑ k ∈ Finset.range s.pivots.length,
          s.L i k * (if k < s.pivots.length then y k else 0))
        = ∑ k ∈ Finset.range s.pivots.length, s.L i k * y k :=
      Finset.sum_congr rfl fun k hk => by rw [if_pos (Finset.mem_range.mp hk)]
    have h2 : (∑ k ∈ Finset.Ico s.pivots.length m,
          s.L i k * (if k < s.pivots.length then y k else 0)) = 0 :=
      Finset.sum_eq_zero fun k hk => by
        have hk' := Finset.mem_Ico.mp hk
        rw [if_neg (by omega), mul_zero]
    rw [h1, h2, add_zero]
  have hLy : (∑ k ∈ Finset.range m, s.L i k * y k) = b (s.P i) := by
    have h0 := fsubV_spec s.L (fun i0 => b (s.P i0)) hinv.hLdiag hinv.hLlow i him
    rw [← hy] at h0
    exact h0
  have hdiff : mulVec n A X (s.P i) - b (s.P i)
      = -(∑ k ∈ Finset.Ico s.pivots.length m, s.L i k * y k) := by
    rw [hmulVec, hsplit, ← hLy, sum_split_at hrm (fun k => s.L i k * y k)]
    ring
  rw [hdiff, abs_neg]
  calc |∑ k ∈ Finset.Ico s.pivots.length m, s.L i k * y k|
      ≤ ∑ k ∈ Finset.Ico s.pivots.length m, |s.L i k * y k| :=
        Finset.abs_sum_le_sum_abs _ _
    _ ≤ ∑ k ∈ Finset.Ico s.pivots.length m, ε := by
        refine Finset.sum_le_sum fun k hk => ?_
        rw [abs_mul]
        calc |s.L i k| * |y k| ≤ 1 * ε :=
              mul_le_mul (hinv.hLbnd i k) (hres k hk) (abs_nonneg _) zero_le_one
          _ = ε := one_mul ε
    _ = ((m - s.pivots.length : ℕ) : ℚ) * ε := by
        rw [Finset.sum_const, Nat.card_Ico, nsmul_eq_mul]
    _ ≤ (m : ℚ) * ε := by
        refine mul_le_mul_of_nonneg_right ?_ hε
        exact_mod_cast Nat.sub_le m s.pivots.length

/-- C2 (amended): whenever `Matrix#solve` returns a vector rather than the
no-solution sentinel, that vector solves the system within `m·ε` in every
entry.  (The original claim is refuted by `solve_solvable_returns_none`:
a solvable system can get the sentinel when its pivot falls below `ε`.) -/
theorem solve_some_residual_bound (m n : ℕ) (A : Mat) (b : Vec) (ε : ℚ)
    (hε : 0 ≤ ε) (x : Vec) (hx : solveF m n ε A b = some x) :
    ∀ q < m, |mulVec n A x q - b q| ≤ (m : ℚ) * ε := by
  have hinv := @pluInv_final m n ε hε A
  simp only [solveF] at hx
  split at hx
  · injection hx with hxe
    subst hxe
    rename_i hcond
    exact solve_core hε hinv hcond
  · exact Option.noConfusion hx

/-- C2 counterexample: the system `(1e-11)·x = 1` is solvable, but
`solve([1], 1e-10)` on the matrix `[[1e-11]]` returns the no-solution
sentinel, because the only pivot candidate is within the tolerance. -/
theorem solve_solvable_returns_none :
    (∃ x : Vec, ∀ i < 1, mulVec 1 (matOfLists [[1/10^11]]) x i = 1) ∧
    solveF 1 1 (1/10^10) (matOfLists [[1/10^11]]) (fun _ => 1) = none := by
  constructor
  · refine ⟨fun _ => 10^11, ?_⟩
    intro i hi
    interval_cases i
    show (∑ j ∈ Finset.range 1, matOfLists [[1/10^11]] 0 j * (10 : ℚ)^11) = 1
    rw [Finset.sum_range_one]
    show (1/10^11 : ℚ) * 10^11 = 1
    norm_num
  · have hlt : ¬ (1/10^10 : ℚ) < |matOfLists [[1/10^11]] 0 0| := by
      show ¬ (1/10^10 : ℚ) < |(1/10^11 : ℚ)|
      rw [abs_of_pos (by norm_num)]
      norm_num
    have hplu := PLU_one_clear hlt
    refine solveF_eq_none ?_
    intro hcond
    have hmem : (0 : ℕ) ∈ Finset.Ico
        (PLU 1 1 (1/10^10) (matOfLists [[1/10^11]])).pivots.length 1 := by
      rw [hplu]
      decide
    have h0 := hcond 0 hmem
    rw [hplu, fsubV_zero] at h0
    norm_num at h0

theorem solve_some_residual_bound_witness :
    |mulVec 1 (matOfLists [[2]])
      (bsubV (PLU 1 1 (1/10^10) (matOfLists [[2]])).U
        (fsubV (PLU 1 1 (1/10^10) (matOfLists [[2]])).L
          (fun i => (fun _ => (4 : ℚ)) ((PLU 1 1 (1/10^10) (matOfLists [[2]])).P i)))
        (PLU 1 1 (1/10^10) (matOfLists [[2]])).pivots) 0
      - (fun _ => (4 : ℚ)) 0| ≤ (1 : ℚ) * (1/10^10) :=
  solve_some_residual_bound 1 1 (matOfLists [[2]]) (fun _ => 4) (1/10^10)
    (by norm_num) _
    (solveF_eq_some (by
      intro i hi
      rw [PLU_one (show (1/10^10 : ℚ) < |matOfLists [[2]] 0 0| by
        show (1/10^10 : ℚ) < |(2 : ℚ)|
        rw [abs_of_pos (by norm_num)]
        norm_num)] at hi
      rw [show (pluPivotStep 1 (pluInit (matOfLists [[2]])) 0 0
        (matOfLists [[2]] 0 0)).pivots.length = 1 from rfl, Finset.Ico_self] at hi
      exact absurd hi (Finset.not_mem_empty i)))
    0 Nat.zero_lt_one

/-! ## The inverse (`Matrix#inverse`) -/

lemma colOf_ge {A : Mat} {m n : ℕ} {ε : ℚ} {s : PLUState}
    (pf : PivFacts A m n ε s) :
    ∀ idx, idx < s.pivots.length → idx ≤ colOf s idx := by
  intro idx
  induction idx with
  | zero => intro _; exact Nat.zero_le _
  | succ k ih =>
    intro h
    have h1 : colOf s k < colOf s (k + 1) := pf.hmono k (k + 1) (by omega) h
    have h2 := ih (by omega)
    omega

/-- With `n` pivots in `n` columns, the strictly increasing pivot columns are
forced to be `0, 1, …, n-1`. -/
lemma colOf_eq_self {A : Mat} {m n : ℕ} {ε : ℚ} {s : PLUState}
    (pf : PivFacts A m n ε s) (hlen : s.pivots.length = n) :
    ∀ idx, idx < n → colOf s idx = idx := by
  have hub : ∀ t idx, idx < n → n - 1 - t ≤ idx → colOf s idx ≤ idx := by
    intro t
    induction t with
    | zero =>
      intro idx hidx hge
      have hcn := pf.hcn idx (by omega)
      omega
    | succ k ih =>
      intro idx hidx hge
      by_cases hc : n - 1 - k ≤ idx
      · exact ih idx hidx hc
      · have h1 : colOf s idx < colOf s (idx + 1) :=
          pf.hmono idx (idx + 1) (by omega) (by omega)
        have h2 : colOf s (idx + 1) ≤ idx + 1 := ih (idx + 1) (by omega) (by omega)
        omega
  intro idx hidx
  have h1 := colOf_ge pf idx (by omega)
  have h2 := hub (n - 1) idx hidx (by omega)
  omega

/-- The `n×n` block of an embedded matrix as a Mathlib matrix. -/
def toMatrix (n : ℕ) (M : Mat) : Matrix (Fin n) (Fin n) ℚ :=
  fun i j => M i.1 j.1

lemma toMatrix_mul_apply (n : ℕ) (X Y : Mat) (i j : ℕ) (hi : i < n) (hj : j < n) :
    (toMatrix n X * toMatrix n Y) ⟨i, hi⟩ ⟨j, hj⟩ = mulMat n X Y i j := by
  rw [Matrix.mul_apply]
  unfold mulMat
  rw [← Fin.sum_univ_eq_sum_range (fun l => X i l * Y l j) n]
  rfl

/-- A one-sided identity on the `n×n` block is two-sided
(`Matrix.mul_eq_one_comm`, through the `Fin n` bridge). -/
lemma mulMat_block_comm (n : ℕ) (X Y : Mat)
    (h : ∀ i < n, ∀ j < n, mulMat n X Y i j = idMat 1 i j) :
    ∀ i < n, ∀ j < n, mulMat n Y X i j = idMat 1 i j := by
  have hXY : toMatrix n X * toMatrix n Y = 1 := by
    ext i j
    obtain ⟨i, hi⟩ := i
    obtain ⟨j, hj⟩ := j
    rw [toMatrix_mul_apply n X Y i j hi hj, h i hi j hj]
    simp [idMat, Matrix.one_apply, Fin.ext_iff]
  have hYX : toMatrix n Y * toMatrix n X = 1 := Matrix.mul_eq_one_comm.mp hXY
  intro i hi j hj
  have h2 : (toMatrix n Y * toMatrix n X) ⟨i, hi⟩ ⟨j, hj⟩
      = (1 : Matrix (Fin n) (Fin n) ℚ) ⟨i, hi⟩ ⟨j, hj⟩ := by rw [hYX]
  rw [toMatrix_mul_apply n Y X i j hi hj] at h2
  rw [h2]
  simp [idMat, Matrix.one_apply, Fin.ext_iff]

/-- When the elimination found a pivot in every one of the `n` columns, the
reduced row-echelon form is exactly the identity and `rowOps · A` is exactly
the identity on the `n×n` block. -/
lemma rref_id_of_full_rank {A : Mat} {n : ℕ} {ε : ℚ}
    (hε : 0 ≤ ε) (hrank : rankF n n ε A = n) :
    (∀ i < n, ∀ j < n, rrefF n n ε A i j = idMat 1 i j) ∧
    (∀ i < n, ∀ j < n, mulMat n (rowOpsF n n ε A) A i j = idMat 1 i j) := by
  have hinv : PluInv A n n ε n (PLU n n ε A) := pluInv_final hε A
  have pf := pivFacts_of_pluInv hε hinv
  have rinv := rrefInv_final pf
  have hlen : (PLU n n ε A).pivots.length = n := hrank
  have hcol := colOf_eq_self pf hlen
  have hid : ∀ i < n, ∀ j < n, rrefF n n ε A i j = idMat 1 i j := by
    intro i hi j hj
    unfold idMat
    rcases lt_trichotomy i j with hlt | heq | hgt
    · rw [if_neg (by omega)]
      have hd := rinv.hd j (Nat.zero_le _) (by omega) i hlt
      rw [hcol j hj] at hd
      exact hd
    · subst heq
      rw [if_pos rfl]
      have h1 := rinv.hc1 i (Nat.zero_le _) (by omega)
      rw [hcol i hi] at h1
      exact h1
    · rw [if_neg (by omega)]
      have h2 := rinv.hc2 i (Nat.zero_le _) (by omega) j
        (by rw [hcol i hi]; exact hgt)
      exact h2
  refine ⟨hid, ?_⟩
  intro i hi j hj
  have he := rinv.he i hi j (by omega)
  rw [hcol j hj] at he
  have hgoal : mulMat n (rowOpsF n n ε A) A i j
      = ∑ kk ∈ Finset.range n,
          ((PLU n n ε A).pivots.foldr rrefStep
            ((PLU n n ε A).U, (PLU n n ε A).E)).2 i kk * A kk j := rfl
  rw [hgoal, he]
  exact hid i hi j hj

/-- C3: `Matrix#inverse` on a square matrix that passes the library's
`isInvertible(ε)` test returns a matrix `B` with `B·A` and `A·B` both equal
to the identity within `1e-8` (indeed exactly on the `n×n` block); a
non-square matrix or one failing the invertibility test yields an error. -/
theorem inverse_mult_identity (n : ℕ) (A : Mat) (ε : ℚ) (hε : 0 ≤ ε) :
    (∀ B, inverseF n n ε A = Except.ok B →
      matEqApprox n n (mulMat n B A) (idMat 1) (1/10^8) ∧
      matEqApprox n n (mulMat n A B) (idMat 1) (1/10^8)) ∧
    (∀ m, m ≠ n → inverseF m n ε A = Except.error ()) ∧
    (isInvertibleF n n ε A = false → inverseF n n ε A = Except.error ()) := by
  refine ⟨?_, ?_, ?_⟩
  · intro B hB
    unfold inverseF at hB
    rw [if_neg (by simp : ¬ n ≠ n)] at hB
    by_cases hinvb : isInvertibleF n n ε A = true
    · rw [if_pos hinvb] at hB
      injection hB with hBeq
      subst hBeq
      have hrank : rankF n n ε A = n := by
        simp [isInvertibleF, isFullRowRankF, isFullColRankF] at hinvb
        omega
      obtain ⟨hid, hOA⟩ := rref_id_of_full_rank hε hrank
      refine ⟨?_, ?_⟩
      · intro i hi j hj
        rw [hOA i hi j hj, sub_self, abs_zero]
        norm_num
      · have hAB := mulMat_block_comm n (rowOpsF n n ε A) A hOA
        intro i hi j hj
        rw [hAB i hi j hj, sub_self, abs_zero]
        norm_num
    · rw [if_neg hinvb] at hB
      exact Except.noConfusion hB
  · intro m hm
    unfold inverseF
    rw [if_pos hm]
  · intro hfalse
    unfold inverseF
    rw [if_neg (by simp : ¬ n ≠ n), if_neg (by simp [hfalse])]

/-! ## The QR decomposition (`Matrix#QR`), over `ℝ` for the square roots -/

/-- A matrix with real entries (the source's one number type is modelled as
`ℚ` except where square roots occur). -/
abbrev MatR := ℕ → ℕ → ℝ

/-- `Vector#dot` with length `m`, over `ℝ`. -/
noncomputable def dotR (m : ℕ) (u v : ℕ → ℝ) : ℝ :=
  ∑ i ∈ Finset.range m, u i * v i

/-- The state of the column loop of `Matrix#QR`: the orthonormalized
columns `ui`, the triangular factor `R`, and the linearly-dependent column
list `LD`. -/
structure QRSt where
  ui : ℕ → ℕ → ℝ
  R : ℕ → ℕ → ℝ
  LD : List ℕ

/-- One step of the modified Gram–Schmidt inner loop of `Matrix#QR` on
column `j`: subtract the projection onto `ui[jj]` from the working vector
`u` and record the factor in `R[jj][j]`. -/
noncomputable def mgsStep (m : ℕ) (ui : ℕ → ℕ → ℝ) (j : ℕ) :
    ((ℕ → ℝ) × (ℕ → ℕ → ℝ)) → ℕ → ((ℕ → ℝ) × (ℕ → ℕ → ℝ))
  | (u, R), jj =>
    (fun i => u i - dotR m (ui jj) u * ui jj i,
     fun a b => if a = jj ∧ b = j then dotR m (ui jj) u else R a b)

/-- One iteration of the column loop of `Matrix#QR`: reduce column `j`
against the previous columns, then either normalize it (if its length
exceeds `ε`) or zero it out and record it in `LD`. -/
noncomputable def qrColStep (m : ℕ) (ε : ℝ) (A : MatR) (st : QRSt) (j : ℕ) : QRSt :=
  let p := (List.range j).foldl (mgsStep m st.ui j) (fun i => A i j, st.R)
  let l := Real.sqrt (dotR m p.1 p.1)
  if ε < l then
    { ui := fun k => if k = j then (fun i => p.1 i / l) else st.ui k,
      R := fun a b => if a = j ∧ b = j then l else p.2 a b,
      LD := st.LD }
  else
    { ui := fun k => if k = j then (fun _ => 0) else st.ui k,
      R := fun a b => if a = j ∧ b = j then 0 else p.2 a b,
      LD := st.LD ++ [j] }

/-- `Matrix#QR`: run the column loop over columns `0 … n-1` starting from
empty data. -/
noncomputable def QRF (m n : ℕ) (ε : ℝ) (A : MatR) : QRSt :=
  (List.range n).foldl (qrColStep m ε A)
    { ui := fun _ _ => 0, R := fun _ _ => 0, LD := [] }

/-- The matrix `Q` of `Matrix#QR`: `Matrix.from(ui).transpose`, i.e. the
matrix whose columns are the `ui`. -/
noncomputable def Qmat (st : QRSt) : MatR := fun i j => st.ui j i

/-- The real matrix product with inner dimension `k` (`Matrix#mult` over
`ℝ`). -/
noncomputable def mulMatR (k : ℕ) (A B : MatR) : MatR :=
  fun i j => ∑ l ∈ Finset.range k, A i l * B l j

lemma dotR_zero_left (m : ℕ) (v : ℕ → ℝ) : dotR m (fun _ => 0) v = 0 := by
  unfold dotR
  exact Finset.sum_eq_zero fun i _ => zero_mul (v i)

lemma dotR_zero_right (m : ℕ) (v : ℕ → ℝ) : dotR m v (fun _ => 0) = 0 := by
  unfold dotR
  exact Finset.sum_eq_zero fun i _ => mul_zero (v i)

lemma dotR_comm (m : ℕ) (u v : ℕ → ℝ) : dotR m u v = dotR m v u := by
  unfold dotR
  exact Finset.sum_congr rfl fun i _ => mul_comm (u i) (v i)

lemma dotR_sub_smul (m : ℕ) (v u w : ℕ → ℝ) (a : ℝ) :
    dotR m v (fun i => u i - a * w i) = dotR m v u - a * dotR m v w := by
  unfold dotR
  rw [Finset.mul_sum, ← Finset.sum_sub_distrib]
  exact Finset.sum_congr rfl fun i _ => by ring

lemma dotR_div_right (m : ℕ) (v u : ℕ → ℝ) (l : ℝ) :
    dotR m v (fun i => u i / l) = dotR m v u / l := by
  unfold dotR
  rw [Finset.sum_div]
  exact Finset.sum_congr rfl fun i _ => by ring

lemma dotR_div_left (m : ℕ) (v u : ℕ → ℝ) (l : ℝ) :
    dotR m (fun i => v i / l) u = dotR m v u / l := by
  unfold dotR
  rw [Finset.sum_div]
  exact Finset.sum_congr rfl fun i _ => by ring

lemma dotR_self_nonneg (m : ℕ) (u : ℕ → ℝ) : 0 ≤ dotR m u u :=
  Finset.sum_nonneg fun i _ => mul_self_nonneg (u i)

/-- Each entry of a vector is bounded by its norm: `|u i| ≤ √(u·u)`. -/
lemma abs_entry_le_sqrt_dot {m i : ℕ} (u : ℕ → ℝ) (hi : i < m) :
    |u i| ≤ Real.sqrt (dotR m u u) := by
  have h1 : u i * u i ≤ dotR m u u := by
    unfold dotR
    exact Finset.single_le_sum (fun k _ => mul_self_nonneg (u k))
      (Finset.mem_range.mpr hi)
  have h2 : Real.sqrt (u i * u i) ≤ Real.sqrt (dotR m u u) := Real.sqrt_le_sqrt h1
  rwa [show u i * u i = u i ^ 2 from by ring, Real.sqrt_sq_eq_abs] at h2

lemma mgsStep_apply (m : ℕ) (ui : ℕ → ℕ → ℝ) (j : ℕ)
    (p : (ℕ → ℝ) × (ℕ → ℕ → ℝ)) (jj : ℕ) :
    mgsStep m ui j p jj =
      (fun i => p.1 i - dotR m (ui jj) p.1 * ui jj i,
       fun a b => if a = jj ∧ b = j then dotR m (ui jj) p.1 else p.2 a b) := rfl

lemma qrColStep_pivot {m : ℕ} {ε : ℝ} {A : MatR} {st : QRSt} {c : ℕ}
    (hl : ε < Real.sqrt (dotR m
        ((List.range c).foldl (mgsStep m st.ui c) (fun i => A i c, st.R)).1
        ((List.range c).foldl (mgsStep m st.ui c) (fun i => A i c, st.R)).1)) :
    qrColStep m ε A st c =
      { ui := fun k => if k = c then
            (fun i => ((List.range c).foldl (mgsStep m st.ui c) (fun i => A i c, st.R)).1 i
              / Real.sqrt (dotR m
                  ((List.range c).foldl (mgsStep m st.ui c) (fun i => A i c, st.R)).1
                  ((List.range c).foldl (mgsStep m st.ui c) (fun i => A i c, st.R)).1))
          else st.ui k,
        R := fun a b => if a = c ∧ b = c
            then Real.sqrt (dotR m
                ((List.range c).foldl (mgsStep m st.ui c) (fun i => A i c, st.R)).1
                ((List.range c).foldl (mgsStep m st.ui c) (fun i => A i c, st.R)).1)
            else ((List.range c).foldl (mgsStep m st.ui c) (fun i => A i c, st.R)).2 a b,
        LD := st.LD } := by
  simp only [qrColStep]
  rw [if_pos hl]

lemma qrColStep_clear {m : ℕ} {ε : ℝ} {A : MatR} {st : QRSt} {c : ℕ}
    (hl : ¬ ε < Real.sqrt (dotR m
        ((List.range c).foldl (mgsStep m st.ui c) (fun i => A i c, st.R)).1
        ((List.range c).foldl (mgsStep m st.ui c) (fun i => A i c, st.R)).1)) :
    qrColStep m ε A st c =
      { ui := fun k => if k = c then (fun _ => 0) else st.ui k,
        R := fun a b => if a = c ∧ b = c then 0
            else ((List.range c).foldl (mgsStep m st.ui c) (fun i => A i c, st.R)).2 a b,
        LD := st.LD ++ [c] } := by
  simp only [qrColStep]
  rw [if_neg hl]

/-- The invariant of the column loop of `Matrix#QR` after the columns
`0 … c-1` have been processed: untouched columns are zero; processed
non-degenerate columns are exactly unit and pairwise exactly orthogonal;
degenerate columns are zero and listed in `LD` below `c`; `R` is upper
triangular with untouched columns zero; and each processed column of
`Q·R` matches the corresponding column of `A` within `ε` per entry. -/
structure QRInv (m n : ℕ) (ε : ℝ) (A : MatR) (c : ℕ) (st : QRSt) : Prop where
  hU0 : ∀ j, c ≤ j → st.ui j = fun _ => 0
  hNorm : ∀ j < c, j ∉ st.LD → dotR m (st.ui j) (st.ui j) = 1
  hOrtho : ∀ j1 < c, ∀ j2 < c, j1 ≠ j2 → dotR m (st.ui j1) (st.ui j2) = 0
  hLDz : ∀ j ∈ st.LD, st.ui j = fun _ => 0
  hLDlt : ∀ j ∈ st.LD, j < c
  hRz : ∀ a b, c ≤ b → st.R a b = 0
  hRlow : ∀ a b, b < a → st.R a b = 0
  hRcol : ∀ j < c, ∀ i < m,
    |(∑ k ∈ Finset.range n, st.ui k i * st.R k j) - A i j| ≤ ε

/-- The inner (modified Gram–Schmidt) fold of `Matrix#QR` on column `c`:
after `t` reduction steps, `R` is changed only in the first `t` rows of
column `c`, the working vector is the column minus the recorded
projections, and it is exactly orthogonal to the first `t` columns. -/
lemma mgs_fold {m n : ℕ} {ε : ℝ} {A : MatR} {c : ℕ} {st : QRSt}
    (inv : QRInv m n ε A c st) :
    ∀ t, t ≤ c →
      (∀ a b, ¬ (a < t ∧ b = c) →
        ((List.range t).foldl (mgsStep m st.ui c) (fun i => A i c, st.R)).2 a b
          = st.R a b) ∧
      (∀ i, ((List.range t).foldl (mgsStep m st.ui c) (fun i => A i c, st.R)).1 i
        = A i c - ∑ jj ∈ Finset.range t,
            ((List.range t).foldl (mgsStep m st.ui c) (fun i => A i c, st.R)).2 jj c
              * st.ui jj i) ∧
      (∀ jj, jj < t → dotR m (st.ui jj)
        ((List.range t).foldl (mgsStep m st.ui c) (fun i => A i c, st.R)).1 = 0) := by
  intro t
  induction t with
  | zero =>
    intro _
    refine ⟨fun a b _ => rfl, fun i => by simp, fun jj h => absurd h (Nat.not_lt_zero jj)⟩
  | succ t ih =>
    intro ht
    obtain ⟨ihR, ihU, ihO⟩ := ih (by omega)
    rw [List.range_succ, List.foldl_append, List.foldl_cons, List.foldl_nil,
      mgsStep_apply]
    refine ⟨?_, ?_, ?_⟩
    · intro a b hab
      show (if a = t ∧ b = c
          then dotR m (st.ui t)
            ((List.range t).foldl (mgsStep m st.ui c) (fun i => A i c, st.R)).1
          else ((List.range t).foldl (mgsStep m st.ui c) (fun i => A i c, st.R)).2 a b)
        = st.R a b
      rw [if_neg (by omega)]
      exact ihR a b (by omega)
    · intro i
      show ((List.range t).foldl (mgsStep m st.ui c) (fun i => A i c, st.R)).1 i
          - dotR m (st.ui t)
              ((List.range t).foldl (mgsStep m st.ui c) (fun i => A i c, st.R)).1
            * st.ui t i
        = A i c - ∑ jj ∈ Finset.range (t + 1),
            (if jj = t ∧ c = c
              then dotR m (st.ui t)
                ((List.range t).foldl (mgsStep m st.ui c) (fun i => A i c, st.R)).1
              else ((List.range t).foldl (mgsStep m st.ui c) (fun i => A i c, st.R)).2 jj c)
              * st.ui jj i
      rw [Finset.sum_range_succ,
        Finset.sum_congr rfl (fun jj hjj => by
          rw [if_neg (by have := Finset.mem_range.mp hjj; omega)]),
        if_pos ⟨rfl, rfl⟩, ihU i]
      ring
    · intro jj hjj
      show dotR m (st.ui jj)
          (fun i => ((List.range t).foldl (mgsStep m st.ui c) (fun i => A i c, st.R)).1 i
            - dotR m (st.ui t)
                ((List.range t).foldl (mgsStep m st.ui c) (fun i => A i c, st.R)).1
              * st.ui t i)
        = 0
      rw [dotR_sub_smul]
      rcases Nat.lt_or_ge jj t with h | h
      · rw [ihO jj h, inv.hOrtho jj (by omega) t (by omega) (by omega), mul_zero,
          sub_zero]
      · have hjt : jj = t := by omega
        subst hjt
        by_cases hLD : jj ∈ st.LD
        · rw [inv.hLDz jj hLD, dotR_zero_left, dotR_zero_left]
          ring
        · rw [inv.hNorm jj (by omega) hLD, mul_one, sub_self]

lemma qrInv_init (m n : ℕ) (ε : ℝ) (A : MatR) :
    QRInv m n ε A 0 { ui := fun _ _ => 0, R := fun _ _ => 0, LD := [] } := by
  refine ⟨fun j _ => rfl, ?_, ?_, ?_, ?_, fun a b _ => rfl, fun a b _ => rfl, ?_⟩
  · intro j hj
    exact absurd hj (Nat.not_lt_zero j)
  · intro j1 hj1
    exact absurd hj1 (Nat.not_lt_zero j1)
  · intro j hmem
    cases hmem
  · intro j hmem
    cases hmem
  · intro j hj
    exact absurd hj (Nat.not_lt_zero j)

lemma qrInv_step {m n : ℕ} {ε : ℝ} {A : MatR} {c : ℕ} {st : QRSt}
    (hε : 0 ≤ ε) (hc : c < n) (inv : QRInv m n ε A c st) :
    QRInv m n ε A (c + 1) (qrColStep m ε A st c) := by
  obtain ⟨hR, hu, hperp⟩ := mgs_fold inv c (le_refl c)
  by_cases hl : ε < Real.sqrt (dotR m
      ((List.range c).foldl (mgsStep m st.ui c) (fun i => A i c, st.R)).1
      ((List.range c).foldl (mgsStep m st.ui c) (fun i => A i c, st.R)).1)
  · rw [qrColStep_pivot hl]
    set F := (List.range c).foldl (mgsStep m st.ui c) (fun i => A i c, st.R) with hF
    set l := Real.sqrt (dotR m F.1 F.1) with hldef
    have hlpos : 0 < l := lt_of_le_of_lt hε hl
    have hlne : l ≠ 0 := ne_of_gt hlpos
    have hself : dotR m F.1 F.1 = l * l := by
      rw [hldef]
      exact (Real.mul_self_sqrt (dotR_self_nonneg m F.1)).symm
    refine ⟨?_, ?_, ?_, ?_, ?_, ?_, ?_, ?_⟩
    · intro j hj
      show (if j = c then (fun i => F.1 i / l) else st.ui j) = fun _ => 0
      rw [if_neg (by omega)]
      exact inv.hU0 j (by omega)
    · intro j hj hjLD
      show dotR m (if j = c then (fun i => F.1 i / l) else st.ui j)
          (if j = c then (fun i => F.1 i / l) else st.ui j) = 1
      by_cases hjc : j = c
      · rw [if_pos hjc, dotR_div_right, dotR_div_left, div_div, hself]
        exact div_self (mul_ne_zero hlne hlne)
      · rw [if_neg hjc]
        exact inv.hNorm j (by omega) hjLD
    · intro j1 hj1 j2 hj2 hne
      show dotR m (if j1 = c then (fun i => F.1 i / l) else st.ui j1)
          (if j2 = c then (fun i => F.1 i / l) else st.ui j2) = 0
      by_cases h1 : j1 = c
      · rw [if_pos h1, if_neg (by omega), dotR_div_left,
          dotR_comm m F.1 (st.ui j2), hperp j2 (by omega), zero_div]
      · rw [if_neg h1]
        by_cases h2 : j2 = c
        · rw [if_pos h2, dotR_div_right, hperp j1 (by omega), zero_div]
        · rw [if_neg h2]
          exact inv.hOrtho j1 (by omega) j2 (by omega) hne
    · intro j hjmem
      show (if j = c then (fun i => F.1 i / l) else st.ui j) = fun _ => 0
      rw [if_neg (by have := inv.hLDlt j hjmem; omega)]
      exact inv.hLDz j hjmem
    · intro j hjmem
      have := inv.hLDlt j hjmem
      omega
    · intro a b hb
      show (if a = c ∧ b = c then l else F.2 a b) = 0
      rw [if_neg (by omega), hR a b (by omega)]
      exact inv.hRz a b (by omega)
    · intro a b hba
      show (if a = c ∧ b = c then l else F.2 a b) = 0
      rw [if_neg (by omega), hR a b (by omega)]
      exact inv.hRlow a b hba
    · intro j hj i him
      show |(∑ k ∈ Finset.range n,
          (if k = c then (fun i => F.1 i / l) else st.ui k) i
            * (if k = c ∧ j = c then l else F.2 k j)) - A i j| ≤ ε
      by_cases hjc : j = c
      · subst hjc
        have hico : (∑ k ∈ Finset.Ico (j + 1) n,
            (if k = j then (fun i => F.1 i / l) else st.ui k) i
              * (if k = j ∧ j = j then l else F.2 k j)) = 0 := by
          refine Finset.sum_eq_zero fun k hk => ?_
          have hk' := Finset.mem_Ico.mp hk
          rw [if_neg (by omega),
            show st.ui k = fun _ => 0 from inv.hU0 k (by omega)]
          exact zero_mul _
        have hhead : (∑ k ∈ Finset.range (j + 1),
            (if k = j then (fun i => F.1 i / l) else st.ui k) i
              * (if k = j ∧ j = j then l else F.2 k j))
            = (∑ k ∈ Finset.range j, st.ui k i * F.2 k j) + F.1 i := by
          rw [Finset.sum_range_succ, if_pos rfl, if_pos ⟨rfl, rfl⟩,
            div_mul_cancel₀ (F.1 i) hlne]
          congr 1
          refine Finset.sum_congr rfl fun k hk => ?_
          have hk' := Finset.mem_range.mp hk
          rw [if_neg (by omega), if_neg (by omega)]
        rw [← Finset.sum_range_add_sum_Ico (fun k =>
            (if k = j then (fun i => F.1 i / l) else st.ui k) i
              * (if k = j ∧ j = j then l else F.2 k j)) (by omega : j + 1 ≤ n),
          hico, add_zero, hhead, hu i]
        rw [Finset.sum_congr rfl fun k _ =>
          mul_comm (st.ui k i) (F.2 k j)]
        rw [show (∑ k ∈ Finset.range j, F.2 k j * st.ui k i)
            + (A i j - ∑ jj ∈ Finset.range j, F.2 jj j * st.ui jj i) - A i j
            = 0 from by ring, abs_zero]
        exact hε
      · have hsum : (∑ k ∈ Finset.range n,
            (if k = c then (fun i => F.1 i / l) else st.ui k) i
              * (if k = c ∧ j = c then l else F.2 k j))
            = ∑ k ∈ Finset.range n, st.ui k i * st.R k j := by
          refine Finset.sum_congr rfl fun k hk => ?_
          rw [if_neg (by omega : ¬ (k = c ∧ j = c)),
            hR k j (by omega : ¬ (k < c ∧ j = c))]
          by_cases hkc : k = c
          · rw [if_pos hkc, hkc,
              show st.R c j = 0 from inv.hRlow c j (by omega)]
            simp
          · rw [if_neg hkc]
        rw [hsum]
        exact inv.hRcol j (by omega) i him
  · rw [qrColStep_clear hl]
    set F := (List.range c).foldl (mgsStep m st.ui c) (fun i => A i c, st.R) with hF
    have hle : Real.sqrt (dotR m F.1 F.1) ≤ ε := not_lt.mp hl
    refine ⟨?_, ?_, ?_, ?_, ?_, ?_, ?_, ?_⟩
    · intro j hj
      show (if j = c then (fun _ => (0:ℝ)) else st.ui j) = fun _ => 0
      rw [if_neg (by omega)]
      exact inv.hU0 j (by omega)
    · intro j hj hjLD
      have hjc : j ≠ c := fun h =>
        hjLD (h ▸ List.mem_append_right st.LD (List.mem_singleton.mpr rfl))
      show dotR m (if j = c then (fun _ => (0:ℝ)) else st.ui j)
          (if j = c then (fun _ => (0:ℝ)) else st.ui j) = 1
      rw [if_neg hjc]
      exact inv.hNorm j (by omega)
        (fun hmem => hjLD (List.mem_append_left _ hmem))
    · intro j1 hj1 j2 hj2 hne
      show dotR m (if j1 = c then (fun _ => (0:ℝ)) else st.ui j1)
          (if j2 = c then (fun _ => (0:ℝ)) else st.ui j2) = 0
      by_cases h1 : j1 = c
      · rw [if_pos h1, dotR_zero_left]
      · rw [if_neg h1]
        by_cases h2 : j2 = c
        · rw [if_pos h2, dotR_zero_right]
        · rw [if_neg h2]
          exact inv.hOrtho j1 (by omega) j2 (by omega) hne
    · intro j hjmem
      show (if j = c then (fun _ => (0:ℝ)) else st.ui j) = fun _ => 0
      by_cases hjc : j = c
      · rw [if_pos hjc]
      · rw [if_neg hjc]
        rcases List.mem_append.mp hjmem with h | h
        · exact inv.hLDz j h
        · exact absurd (List.mem_singleton.mp h) hjc
    · intro j hjmem
      rcases List.mem_append.mp hjmem with h | h
      · have := inv.hLDlt j h
        omega
      · rw [List.mem_singleton.mp h]
        omega
    · intro a b hb
      show (if a = c ∧ b = c then (0:ℝ) else F.2 a b) = 0
      rw [if_neg (by omega), hR a b (by omega)]
      exact inv.hRz a b (by omega)
    · intro a b hba
      show (if a = c ∧ b = c then (0:ℝ) else F.2 a b) = 0
      rw [if_neg (by omega), hR a b (by omega)]
      exact inv.hRlow a b hba
    · intro j hj i him
      show |(∑ k ∈ Finset.range n,
          (if k = c then (fun _ => (0:ℝ)) else st.ui k) i
            * (if k = c ∧ j = c then 0 else F.2 k j)) - A i j| ≤ ε
      by_cases hjc : j = c
      · subst hjc
        have hico : (∑ k ∈ Finset.Ico (j + 1) n,
            (if k = j then (fun _ => (0:ℝ)) else st.ui k) i
              * (if k = j ∧ j = j then 0 else F.2 k j)) = 0 := by
          refine Finset.sum_eq_zero fun k hk => ?_
          have hk' := Finset.mem_Ico.mp hk
          rw [if_neg (by omega),
            show st.ui k = fun _ => 0 from inv.hU0 k (by omega)]
          exact zero_mul _
        have hhead : (∑ k ∈ Finset.range (j + 1),
            (if k = j then (fun _ => (0:ℝ)) else st.ui k) i
              * (if k = j ∧ j = j then 0 else F.2 k j))
            = ∑ k ∈ Finset.range j, st.ui k i * F.2 k j := by
          rw [Finset.sum_range_succ, if_pos rfl, if_pos ⟨rfl, rfl⟩, mul_zero,
            add_zero]
          refine Finset.sum_congr rfl fun k hk => ?_
          have hk' := Finset.mem_range.mp hk
          rw [if_neg (by omega), if_neg (by omega)]
        rw [← Finset.sum_range_add_sum_Ico (fun k =>
            (if k = j then (fun _ => (0:ℝ)) else st.ui k) i
              * (if k = j ∧ j = j then 0 else F.2 k j)) (by omega : j + 1 ≤ n),
          hico, add_zero, hhead]
        have hS : (∑ k ∈ Finset.range j, st.ui k i * F.2 k j) = A i j - F.1 i := by
          rw [Finset.sum_congr rfl fun k _ => mul_comm (st.ui k i) (F.2 k j)]
          have h0 := hu i
          linarith
        rw [hS, show A i j - F.1 i - A i j = -(F.1 i) from by ring, abs_neg]
        exact le_trans (abs_entry_le_sqrt_dot F.1 him) hle
      · have hsum : (∑ k ∈ Finset.range n,
            (if k = c then (fun _ => (0:ℝ)) else st.ui k) i
              * (if k = c ∧ j = c then 0 else F.2 k j))
            = ∑ k ∈ Finset.range n, st.ui k i * st.R k j := by
          refine Finset.sum_congr rfl fun k hk => ?_
          rw [if_neg (by omega : ¬ (k = c ∧ j = c)),
            hR k j (by omega : ¬ (k < c ∧ j = c))]
          by_cases hkc : k = c
          · rw [if_pos hkc, hkc,
              show st.R c j = 0 from inv.hRlow c j (by omega)]
            simp
          · rw [if_neg hkc]
        rw [hsum]
        exact inv.hRcol j (by omega) i him

lemma qrInv_final {m n : ℕ} {ε : ℝ} (hε : 0 ≤ ε) (A : MatR) :
    QRInv m n ε A n (QRF m n ε A) := by
  suffices h : ∀ c, c ≤ n → QRInv m n ε A c
      ((List.range c).foldl (qrColStep m ε A)
        { ui := fun _ _ => 0, R := fun _ _ => 0, LD := [] }) by
    exact h n (le_refl n)
  intro c
  induction c with
  | zero =>
    intro _
    exact qrInv_init m n ε A
  | succ c ih =>
    intro hcn
    rw [List.range_succ, List.foldl_append, List.foldl_cons, List.foldl_nil]
    exact qrInv_step hε (by omega) (ih (by omega))

/-- C4: for every matrix `A`, with `{Q, R}` the result of `A.QR()` at the
default `ε = 1e-10`, `Q.mult(R)` equals `A` within `1e-8` entrywise, and
the nonzero columns of `Q` (those not listed in `LD`) are mutually
orthonormal within `1e-8` (indeed exactly): unit norm and pairwise zero
dot products. -/
theorem QR_mult_eq_and_orthonormal (m n : ℕ) (A : MatR) :
    (∀ i < m, ∀ j < n,
      |mulMatR n (Qmat (QRF m n (1/10^10) A)) (QRF m n (1/10^10) A).R i j - A i j|
        ≤ 1/10^8) ∧
    (∀ j < n, j ∉ (QRF m n (1/10^10) A).LD →
      |dotR m ((QRF m n (1/10^10) A).ui j) ((QRF m n (1/10^10) A).ui j) - 1|
        ≤ 1/10^8) ∧
    (∀ j1 < n, ∀ j2 < n, j1 ≠ j2 →
      |dotR m ((QRF m n (1/10^10) A).ui j1) ((QRF m n (1/10^10) A).ui j2)|
        ≤ 1/10^8) := by
  have inv := @qrInv_final m n (1/10^10) (by norm_num) A
  refine ⟨?_, ?_, ?_⟩
  · intro i hi j hj
    have h := inv.hRcol j hj i hi
    have hconv : mulMatR n (Qmat (QRF m n (1/10^10) A)) (QRF m n (1/10^10) A).R i j
        = ∑ k ∈ Finset.range n,
            (QRF m n (1/10^10) A).ui k i * (QRF m n (1/10^10) A).R k j := rfl
    rw [hconv]
    exact le_trans h (by norm_num)
  · intro j hj hLD
    rw [inv.hNorm j hj hLD, sub_self, abs_zero]
    norm_num
  · intro j1 hj1 j2 hj2 hne
    rw [inv.hOrtho j1 hj1 j2 hj2 hne, abs_zero]
    norm_num

/-! ## The object lifecycle: the `_cache`, its accessors and the mutators -/

/-- A `Matrix` object: its dimensions and entries together with the cached
derived quantities of `_cache` that this development models
(`transpose`, `PLU`, `rank`, `rref`, `rowOps`, `QR`). -/
structure MState where
  m : ℕ
  n : ℕ
  entries : Mat
  cTranspose : Option Mat
  cPLU : Option PLUState
  cRank : Option ℕ
  cRref : Option Mat
  cRowOps : Option Mat
  cQR : Option QRSt

/-- Construction from row data: no cache is populated. -/
def mkMState (m n : ℕ) (A : Mat) : MState :=
  { m := m, n := n, entries := A, cTranspose := none, cPLU := none,
    cRank := none, cRref := none, cRowOps := none, cQR := none }

/-- `Matrix#transpose`: return the cached transpose if present, else
compute it from the entries and cache it. -/
def transposeOp (s : MState) : Mat × MState :=
  match s.cTranspose with
  | some v => (v, s)
  | none =>
    ((fun i j => s.entries j i),
     { s with cTranspose := some (fun i j => s.entries j i) })

/-- `Matrix#PLU(ε)`: unconditionally memoized. -/
def pluOp (ε : ℚ) (s : MState) : PLUState × MState :=
  match s.cPLU with
  | some v => (v, s)
  | none =>
    (PLU s.m s.n ε s.entries,
     { s with cPLU := some (PLU s.m s.n ε s.entries) })

/-- `Matrix#rank(ε)`: memoized; computed as the pivot count of `PLU(ε)`
(which itself populates the PLU cache). -/
def rankOp (ε : ℚ) (s : MState) : ℕ × MState :=
  match s.cRank with
  | some v => (v, s)
  | none =>
    ((pluOp ε s).1.pivots.length,
     { (pluOp ε s).2 with cRank := some (pluOp ε s).1.pivots.length })

/-- `Matrix#rref(ε)`: memoized; computed from `PLU(ε)` and caching the
row-operation matrix alongside. -/
def rrefOp (ε : ℚ) (s : MState) : Mat × MState :=
  match s.cRref with
  | some v => (v, s)
  | none =>
    (((pluOp ε s).1.pivots.foldr rrefStep ((pluOp ε s).1.U, (pluOp ε s).1.E)).1,
     { (pluOp ε s).2 with
        cRref := some ((pluOp ε s).1.pivots.foldr rrefStep
          ((pluOp ε s).1.U, (pluOp ε s).1.E)).1
        cRowOps := some ((pluOp ε s).1.pivots.foldr rrefStep
          ((pluOp ε s).1.U, (pluOp ε s).1.E)).2 })

/-- `Matrix#QR(ε)`: memoized; also stores `rank = n - LD.length` in the
rank cache. -/
noncomputable def qrOp (ε : ℚ) (s : MState) : QRSt × MState :=
  match s.cQR with
  | some v => (v, s)
  | none =>
    (QRF s.m s.n (ε : ℝ) (fun i j => (s.entries i j : ℝ)),
     { s with
        cQR := some (QRF s.m s.n (ε : ℝ) (fun i j => (s.entries i j : ℝ)))
        cRank := some (s.n
          - (QRF s.m s.n (ε : ℝ) (fun i j => (s.entries i j : ℝ))).LD.length) })

/-- `Matrix#rowSwap`: exchanges two rows in place; does not touch the
cache. -/
def rowSwapOp (i1 i2 : ℕ) (s : MState) : MState :=
  { s with entries := rowSwapF s.entries i1 i2 }

/-- `Matrix#insertSubmatrix(i, j, M)` for an `mm×nn` submatrix `M`:
overwrites the block at `(i, j)` in place; does not touch the cache. -/
def insertSubmatrixOp (i j mm nn : ℕ) (M : Mat) (s : MState) : MState :=
  { s with entries := fun r c =>
      if i ≤ r ∧ r < i + mm ∧ j ≤ c ∧ c < j + nn then M (r - i) (c - j)
      else s.entries r c }

/-- `Matrix#invalidate`: deletes the entire cache. -/
def invalidateOp (s : MState) : MState :=
  { s with
      cTranspose := none
      cPLU := none
      cRank := none
      cRref := none
      cRowOps := none
      cQR := none }

/-- C10: once `PLU`, `rank`, `rref` or `QR` has been computed with `ε1`,
calling the same accessor again with any `ε2` returns the value memoized
at `ε1` — the tolerance of every call after the first is ignored. -/
theorem cached_ops_ignore_later_tolerance (s : MState) (ε1 ε2 : ℚ) :
    (pluOp ε2 (pluOp ε1 s).2).1 = (pluOp ε1 s).1 ∧
    (rankOp ε2 (rankOp ε1 s).2).1 = (rankOp ε1 s).1 ∧
    (rrefOp ε2 (rrefOp ε1 s).2).1 = (rrefOp ε1 s).1 ∧
    (qrOp ε2 (qrOp ε1 s).2).1 = (qrOp ε1 s).1 := by
  refine ⟨?_, ?_, ?_, ?_⟩
  · cases h : s.cPLU <;> simp [pluOp, h]
  · cases h : s.cRank <;> cases h2 : s.cPLU <;> simp [rankOp, pluOp, h, h2]
  · cases h : s.cRref <;> cases h2 : s.cPLU <;> simp [rrefOp, pluOp, h, h2]
  · cases h : s.cQR <;> simp [qrOp, h]

/-- C9 counterexample: cache a transpose, mutate the entries through
`insertSubmatrix`, and read the transpose again: the stale value `1` is
returned although the entry is now `5`. -/
theorem stale_cache_after_insert_counterexample :
    (transposeOp (insertSubmatrixOp 0 0 1 1 (matOfLists [[5]])
        (transposeOp (mkMState 1 1 (matOfLists [[1]]))).2)).1 0 0 = 1 ∧
    (insertSubmatrixOp 0 0 1 1 (matOfLists [[5]])
        (transposeOp (mkMState 1 1 (matOfLists [[1]]))).2).entries 0 0 = 5 ∧
    (1 : ℚ) ≠ 5 := by
  refine ⟨rfl, rfl, by norm_num⟩

/-- C9 (amended): the in-place mutators (`rowSwap`, `insertSubmatrix`) do
NOT invalidate any cached quantity — the caller must invoke
`invalidate()`, which deletes the whole cache, after which each accessor
recomputes from the current entries. -/
theorem mutators_keep_cache_invalidate_clears
    (s : MState) (ε : ℚ) (i1 i2 r c mm nn : ℕ) (M : Mat) :
    ((rowSwapOp i1 i2 s).cTranspose = s.cTranspose ∧
      (rowSwapOp i1 i2 s).cPLU = s.cPLU ∧
      (rowSwapOp i1 i2 s).cRank = s.cRank ∧
      (rowSwapOp i1 i2 s).cRref = s.cRref ∧
      (rowSwapOp i1 i2 s).cQR = s.cQR) ∧
    ((insertSubmatrixOp r c mm nn M s).cTranspose = s.cTranspose ∧
      (insertSubmatrixOp r c mm nn M s).cPLU = s.cPLU ∧
      (insertSubmatrixOp r c mm nn M s).cRank = s.cRank ∧
      (insertSubmatrixOp r c mm nn M s).cRref = s.cRref ∧
      (insertSubmatrixOp r c mm nn M s).cQR = s.cQR) ∧
    ((transposeOp (invalidateOp s)).1 = (fun i j => s.entries j i) ∧
      (pluOp ε (invalidateOp s)).1 = PLU s.m s.n ε s.entries ∧
      (rankOp ε (invalidateOp s)).1 = (PLU s.m s.n ε s.entries).pivots.length ∧
      (rrefOp ε (invalidateOp s)).1
        = ((PLU s.m s.n ε s.entries).pivots.foldr rrefStep
            ((PLU s.m s.n ε s.entries).U, (PLU s.m s.n ε s.entries).E)).1) := by
  refine ⟨⟨rfl, rfl, rfl, rfl, rfl⟩, ⟨rfl, rfl, rfl, rfl, rfl⟩,
    ?_, ?_, ?_, ?_⟩
  · simp [transposeOp, invalidateOp]
  · simp [pluOp, invalidateOp]
  · simp [rankOp, pluOp, invalidateOp]
  · simp [rrefOp, pluOp, invalidateOp]

/-! ## Eigenspaces and diagonalization (`Matrix#nullBasis`,
`Matrix#_realEigenspace`, `Matrix#_complexEigenspace`,
`Matrix#diagonalize`) -/

/-- One basis vector built by `Matrix#nullBasis` for free column `j`:
`1` in slot `j`, minus the `rref` entry of column `j` at each previous
pivot's column, `0` elsewhere. -/
def mkFreeVec (R : Mat) (previous : List (ℕ × ℕ)) (j : ℕ) : Vec :=
  fun k => if k = j then 1
    else ((previous.find? (fun pc => pc.2 == k)).map (fun pc => -R pc.1 j)).getD 0

/-- One iteration of the column loop of `Matrix#nullBasis`: shift a pivot
whose column is `j` into `previous`, or emit a basis vector for the free
column `j`. -/
def nbStep (R : Mat) (s : List (ℕ × ℕ) × List (ℕ × ℕ) × List Vec) (j : ℕ) :
    List (ℕ × ℕ) × List (ℕ × ℕ) × List Vec :=
  match s with
  | (pv :: rest, previous, basis) =>
    if pv.2 = j then (rest, previous ++ [pv], basis)
    else (pv :: rest, previous, basis ++ [mkFreeVec R previous j])
  | ([], previous, basis) => ([], previous, basis ++ [mkFreeVec R previous j])

/-- `Matrix#nullBasis`: walk the columns of the reduced row-echelon form
against the pivot list. -/
def nullBasisF (m n : ℕ) (ε : ℚ) (A : Mat) : List Vec :=
  ((List.range n).foldl (nbStep (rrefF m n ε A)) ((PLU m n ε A).pivots, [], [])).2.2

/-- Eigenvalue entries as consumed by `Matrix#diagonalize` from
`Matrix#eigenvalues` / `Matrix#hintEigenvalues`.  Modelled from the spec:
a `Root` is a JS number or a `Complex` instance (a tagged real/imaginary
pair) with an algebraic multiplicity. -/
structure EV where
  cplx : Bool
  re : ℚ
  im : ℚ
  mult : ℕ

/-- The null-space basis of `A - λI` computed by `Matrix#_realEigenspace`
(the `Subspace` collaborator is modelled from the spec as its basis list;
its `dim` is the basis length). -/
def realEigCompute (n : ℕ) (ε lam : ℚ) (A : Mat) : List Vec :=
  nullBasisF n n ε (fun i j => A i j - (if i = j then lam else 0))

/-- The cache lookup of `Matrix#_realEigenspace`: scan the cached
eigenspaces in insertion order, keeping the strictly closest key within
`ε` of `λ`. -/
def esBest (ε lam : ℚ) (cache : List (ℚ × List Vec)) : Option (ℚ × List Vec) :=
  cache.foldl (fun acc e =>
    match acc with
    | none => if |e.1 - lam| ≤ ε then some (|e.1 - lam|, e.2) else none
    | some cv => if |e.1 - lam| < cv.1 ∧ |e.1 - lam| ≤ ε
        then some (|e.1 - lam|, e.2) else some cv) none

/-- `Matrix#_realEigenspace`: return a close-enough cached eigenspace if
one exists, else compute the null space of `A - λI`, failing (`.error`,
a thrown exception) when it is zero-dimensional, and cache it. -/
def realEigenspaceOp (n : ℕ) (ε lam : ℚ) (A : Mat)
    (cache : List (ℚ × List Vec)) :
    Except Unit (List Vec × List (ℚ × List Vec)) :=
  match esBest ε lam cache with
  | some cv => .ok (cv.2, cache)
  | none =>
    if (realEigCompute n ε lam A).length = 0 then .error ()
    else .ok (realEigCompute n ε lam A, cache ++ [(lam, realEigCompute n ε lam A)])

/-- Complex numbers, modelled from the spec's `Complex` collaborator as
real/imaginary pairs of rationals. -/
abbrev CQ := ℚ × ℚ

/-- Modelled from the spec: complex addition. -/
def cAdd (a b : CQ) : CQ := (a.1 + b.1, a.2 + b.2)

/-- Modelled from the spec: complex subtraction. -/
def cSub (a b : CQ) : CQ := (a.1 - b.1, a.2 - b.2)

/-- Modelled from the spec: complex multiplication. -/
def cMul (a b : CQ) : CQ := (a.1 * b.1 - a.2 * b.2, a.1 * b.2 + a.2 * b.1)

/-- Modelled from the spec: `Complex#sizesq`, the squared modulus. -/
def cSizesq (a : CQ) : ℚ := a.1 * a.1 + a.2 * a.2

/-- Modelled from the spec: complex division. -/
def cDiv (a b : CQ) : CQ :=
  ((a.1 * b.1 + a.2 * b.2) / cSizesq b, (a.2 * b.1 - a.1 * b.2) / cSizesq b)

/-- Modelled from the spec: `Complex#recip`. -/
def cRecip (b : CQ) : CQ := (b.1 / cSizesq b, -(b.2 / cSizesq b))

/-- The state of the simplified complex row reduction of
`Matrix#_complexEigenspace`. -/
structure CElim where
  U : ℕ → ℕ → CQ
  pivots : List (ℕ × ℕ)
  curRow : ℕ

/-- The maximal-modulus pivot search of `Matrix#_complexEigenspace`. -/
def cFindPivot (U : ℕ → ℕ → CQ) (c cr m : ℕ) : CQ × ℕ :=
  (List.range' (cr + 1) (m - (cr + 1))).foldl
    (fun best i => if cSizesq best.1 < cSizesq (U i c) then (U i c, i) else best)
    (U cr c, cr)

/-- One column of the forward elimination of
`Matrix#_complexEigenspace`: swap the maximal pivot up and eliminate
below it, or clear a column whose candidates are all within `ε`. -/
def cElimStep (m : ℕ) (ε : ℚ) (s : CElim) (c : ℕ) : CElim :=
  if s.curRow < m then
    let fp := cFindPivot s.U c s.curRow m
    if ε * ε < cSizesq fp.1 then
      let U1 := fun i j => if i = fp.2 then s.U s.curRow j
        else if i = s.curRow then s.U fp.2 j else s.U i j
      { U := fun i j =>
          if s.curRow < i ∧ i < m then
            if j = c then ((0 : ℚ), (0 : ℚ))
            else if c < j then
              cAdd (U1 i j) (cMul (U1 s.curRow j)
                (cMul (cDiv (U1 i c) fp.1) (-1, 0)))
            else U1 i j
          else U1 i j
        pivots := s.pivots ++ [(s.curRow, c)]
        curRow := s.curRow + 1 }
    else
      { s with U := fun i j =>
          if j = c ∧ s.curRow ≤ i ∧ i < m then ((0 : ℚ), (0 : ℚ)) else s.U i j }
  else s

/-- One step of the backward (rref) pass of
`Matrix#_complexEigenspace`. -/
def cRrefStep (pv : ℕ × ℕ) (U : ℕ → ℕ → CQ) : ℕ → ℕ → CQ :=
  fun i j =>
    if i < pv.1 then
      if j = pv.2 then ((0 : ℚ), (0 : ℚ))
      else if pv.2 < j then
        cAdd (U i j) (cMul (U pv.1 j)
          (cMul (cDiv (U i pv.2) (U pv.1 pv.2)) (-1, 0)))
      else U i j
    else if i = pv.1 then
      if j = pv.2 then ((1 : ℚ), (0 : ℚ))
      else if pv.2 < j then cMul (U i j) (cRecip (U pv.1 pv.2))
      else U i j
    else U i j

/-- One basis pair (real part, imaginary part) built by
`Matrix#_complexEigenspace` for a free column `j`. -/
def cMkFree (U : ℕ → ℕ → CQ) (previous : List (ℕ × ℕ)) (j : ℕ) : Vec × Vec :=
  (fun k => if k = j then 1
    else ((previous.find? (fun pc => pc.2 == k)).map
      (fun pc => -(U pc.1 j).1)).getD 0,
   fun k => ((previous.find? (fun pc => pc.2 == k)).map
      (fun pc => -(U pc.1 j).2)).getD 0)

/-- The basis-extraction column walk of `Matrix#_complexEigenspace`. -/
def cbStep (U : ℕ → ℕ → CQ)
    (s : List (ℕ × ℕ) × List (ℕ × ℕ) × List (Vec × Vec)) (j : ℕ) :
    List (ℕ × ℕ) × List (ℕ × ℕ) × List (Vec × Vec) :=
  match s with
  | (pv :: rest, previous, basis) =>
    if pv.2 = j then (rest, previous ++ [pv], basis)
    else (pv :: rest, previous, basis ++ [cMkFree U previous j])
  | ([], previous, basis) => ([], previous, basis ++ [cMkFree U previous j])

/-- The cache lookup of `Matrix#_complexEigenspace` (squared distance
within `ε²`). -/
def cesBest (ε : ℚ) (lam : CQ) (cache : List (CQ × List (Vec × Vec))) :
    Option (ℚ × List (Vec × Vec)) :=
  cache.foldl (fun acc e =>
    match acc with
    | none => if cSizesq (cSub e.1 lam) ≤ ε * ε
        then some (cSizesq (cSub e.1 lam), e.2) else none
    | some cv => if cSizesq (cSub e.1 lam) < cv.1 ∧ cSizesq (cSub e.1 lam) ≤ ε * ε
        then some (cSizesq (cSub e.1 lam), e.2) else some cv) none

/-- `Matrix#_complexEigenspace`: cached lookup, else complex row
reduction of `A - λI`, failing (`.error`, a thrown exception) when `λ`
is not an eigenvalue (`n` pivots), else the basis pairs of the null
space. -/
def complexEigenspaceOp (n : ℕ) (ε : ℚ) (lam : CQ) (A : Mat)
    (cache : List (CQ × List (Vec × Vec))) :
    Except Unit (List (Vec × Vec) × List (CQ × List (Vec × Vec))) :=
  match cesBest ε lam cache with
  | some cv => .ok (cv.2, cache)
  | none =>
    let fin := (List.range n).foldl (cElimStep n ε)
      { U := fun i j => if i = j then cSub (A i j, 0) lam else (A i j, 0),
        pivots := [], curRow := 0 }
    if fin.pivots.length = n then .error ()
    else
      .ok ((((List.range n).foldl (cbStep (fin.pivots.foldr cRrefStep fin.U))
          (fin.pivots, [], []))).2.2,
        cache ++ [(lam,
          (((List.range n).foldl (cbStep (fin.pivots.foldr cRrefStep fin.U))
            (fin.pivots, [], []))).2.2)])

/-- The state threaded through the eigenvalue loop of
`Matrix#diagonalize`: the next column index, the accumulated eigenbasis
columns, the matrix `D`, and the two eigenspace caches. -/
structure DiagSt where
  i : ℕ
  basis : List Vec
  D : Mat
  resC : List (ℚ × List Vec)
  cesC : List (CQ × List (Vec × Vec))

/-- A freshly constructed matrix object: empty caches, `D = 0`. -/
def diagInit : DiagSt :=
  { i := 0, basis := [], D := fun _ _ => 0, resC := [], cesC := [] }

/-- The eigenvalue loop of `Matrix#diagonalize` (default `ortho = false`):
`.error ()` models a thrown exception, `.ok none` the `null` result,
`.ok (some st)` success. -/
def diagLoop (n : ℕ) (ε : ℚ) (A : Mat) (block : Bool) :
    List EV → DiagSt → Except Unit (Option DiagSt)
  | [], st => .ok (some st)
  | e :: rest, st =>
    if e.cplx then
      if !block then .ok none
      else
        match complexEigenspaceOp n ε (e.re, e.im) A st.cesC with
        | .error _ => .error ()
        | .ok Bcc =>
          if Bcc.1.length < e.mult then .ok none
          else diagLoop n ε A block rest
            { i := st.i + 2 * e.mult
              basis := st.basis ++ (List.range e.mult).flatMap (fun j =>
                [(Bcc.1.getD j (fun _ => 0, fun _ => 0)).1,
                 (Bcc.1.getD j (fun _ => 0, fun _ => 0)).2])
              D := (List.range e.mult).foldl (fun Dacc j => fun a b =>
                if a = st.i + 2 * j ∧ b = st.i + 2 * j then e.re
                else if a = st.i + 2 * j ∧ b = st.i + 2 * j + 1 then e.im
                else if a = st.i + 2 * j + 1 ∧ b = st.i + 2 * j then -e.im
                else if a = st.i + 2 * j + 1 ∧ b = st.i + 2 * j + 1 then e.re
                else Dacc a b) st.D
              resC := st.resC
              cesC := Bcc.2 }
    else
      match realEigenspaceOp n ε e.re A st.resC with
      | .error _ => .error ()
      | .ok Vrc =>
        if Vrc.1.length < e.mult then .ok none
        else diagLoop n ε A block rest
          { i := st.i + e.mult
            basis := st.basis ++ (List.range e.mult).map
              (fun j => Vrc.1.getD j (fun _ => 0))
            D := fun a b =>
              if a = b ∧ st.i ≤ a ∧ a < st.i + e.mult then e.re else st.D a b
            resC := Vrc.2
            cesC := st.cesC }

/-- `Matrix#diagonalize`, with the eigenvalue list as cached or hinted
(`Matrix#hintEigenvalues`): keep one of each conjugate pair, run the
eigenvalue loop, and assemble `C` from the eigenbasis columns. -/
def diagonalizeF (n : ℕ) (ε : ℚ) (A : Mat) (evs : List EV) (block : Bool) :
    Except Unit (Option (Mat × Mat)) :=
  match diagLoop n ε A block
      (evs.filter (fun e => !e.cplx || decide (0 ≤ e.im))) diagInit with
  | .error _ => .error ()
  | .ok none => .ok none
  | .ok (some st) =>
    .ok (some ((fun a b => (st.basis.getD b (fun _ => 0)) a), st.D))

lemma diagLoop_cplx_noblock {n : ℕ} {ε : ℚ} {A : Mat} {block : Bool} {e : EV}
    {rest : List EV} {st : DiagSt} (hc : e.cplx = true) (hb : block = false) :
    diagLoop n ε A block (e :: rest) st = .ok none := by
  simp [diagLoop, hc, hb]

lemma diagLoop_real_deficient {n : ℕ} {ε : ℚ} {A : Mat} {block : Bool} {e : EV}
    {rest : List EV} {st : DiagSt} {V : List Vec} {rc : List (ℚ × List Vec)}
    (hc : e.cplx = false)
    (hre : realEigenspaceOp n ε e.re A st.resC = .ok (V, rc))
    (hlen : V.length < e.mult) :
    diagLoop n ε A block (e :: rest) st = .ok none := by
  simp [diagLoop, hc, hre, hlen]

lemma diagLoop_cplx_deficient {n : ℕ} {ε : ℚ} {A : Mat} {block : Bool} {e : EV}
    {rest : List EV} {st : DiagSt} {B : List (Vec × Vec)}
    {cc : List (CQ × List (Vec × Vec))}
    (hc : e.cplx = true) (hb : block = true)
    (hce : complexEigenspaceOp n ε (e.re, e.im) A st.cesC = .ok (B, cc))
    (hlen : B.length < e.mult) :
    diagLoop n ε A block (e :: rest) st = .ok none := by
  simp [diagLoop, hc, hb, hce, hlen]

lemma diagLoop_real_ok {n : ℕ} {ε : ℚ} {A : Mat} {block : Bool} {e : EV}
    {rest : List EV} {st : DiagSt} {V : List Vec} {rc : List (ℚ × List Vec)}
    (hc : e.cplx = false)
    (hre : realEigenspaceOp n ε e.re A st.resC = .ok (V, rc))
    (hlen : ¬ V.length < e.mult) :
    diagLoop n ε A block (e :: rest) st = diagLoop n ε A block rest
      { i := st.i + e.mult
        basis := st.basis ++ (List.range e.mult).map
          (fun j => V.getD j (fun _ => 0))
        D := fun a b =>
          if a = b ∧ st.i ≤ a ∧ a < st.i + e.mult then e.re else st.D a b
        resC := rc
        cesC := st.cesC } := by
  simp [diagLoop, hc, hre, hlen]

/-- C8 (amended): each failure condition of `Matrix#diagonalize` yields
the `null` sentinel rather than an exception: a nonreal eigenvalue when
block mode is off; a real eigenspace of dimension below the algebraic
multiplicity; a complex eigenspace basis shorter than the multiplicity.
(The success clause of the original claim is refuted by
`diagonalize_duplicate_columns_counterexample`: two distinct eigenvalues
within `ε` of each other share one cached eigenspace, so `C` gets
duplicate columns and is not invertible.) -/
theorem diagonalize_failure_conditions (n : ℕ) (ε : ℚ) (A : Mat)
    (block : Bool) (st : DiagSt) :
    (∀ e : EV, ∀ rest : List EV, e.cplx = true → 0 ≤ e.im → block = false →
      diagLoop n ε A block (e :: rest) st = .ok none) ∧
    (∀ e : EV, ∀ rest : List EV, ∀ V rc, e.cplx = false →
      realEigenspaceOp n ε e.re A st.resC = .ok (V, rc) →
      V.length < e.mult →
      diagLoop n ε A block (e :: rest) st = .ok none) ∧
    (∀ e : EV, ∀ rest : List EV, ∀ B cc, e.cplx = true → 0 ≤ e.im →
      block = true →
      complexEigenspaceOp n ε (e.re, e.im) A st.cesC = .ok (B, cc) →
      B.length < e.mult →
      diagLoop n ε A block (e :: rest) st = .ok none) := by
  refine ⟨?_, ?_, ?_⟩
  · intro e rest hc _ hb
    exact diagLoop_cplx_noblock hc hb
  · intro e rest V rc hc hre hlen
    exact diagLoop_real_deficient hc hre hlen
  · intro e rest B cc hc _ hb hce hlen
    exact diagLoop_cplx_deficient hc hb hce hlen

theorem diagonalize_failure_conditions_witness :
    diagLoop 1 (1/10^10) (matOfLists [[0]]) false [⟨true, 0, 1, 1⟩] diagInit
      = Except.ok none :=
  (diagonalize_failure_conditions 1 (1/10^10) (matOfLists [[0]]) false
    diagInit).1 ⟨true, 0, 1, 1⟩ [] rfl (by norm_num) rfl

/-- When every entry of the block is within the tolerance, every column
is cleared and the elimination finds no pivot at all. -/
lemma PLU_all_small {m n : ℕ} {ε : ℚ} {A : Mat}
    (h : ∀ i < m, ∀ j < n, |A i j| ≤ ε) :
    (PLU m n ε A).pivots = [] := by
  suffices hs : ∀ c, c ≤ n →
      ((List.range c).foldl (pluStep m ε) (pluInit A)).pivots = [] ∧
      ((List.range c).foldl (pluStep m ε) (pluInit A)).curRow = 0 ∧
      (∀ i < m, ∀ j < n,
        |((List.range c).foldl (pluStep m ε) (pluInit A)).U i j| ≤ ε) by
    exact (hs n (le_refl n)).1
  intro c
  induction c with
  | zero =>
    intro _
    exact ⟨rfl, rfl, h⟩
  | succ c ih =>
    intro hc
    obtain ⟨h1, h2, h3⟩ := ih (by omega)
    rw [List.range_succ, List.foldl_append, List.foldl_cons, List.foldl_nil]
    set s := (List.range c).foldl (pluStep m ε) (pluInit A) with hsdef
    by_cases hm : s.curRow < m
    · have hfp := findPivot_spec s.U c s.curRow m hm
      have hsmall : ¬ ε < |(findPivot s.U c s.curRow m).2| := by
        rw [not_lt, hfp.1]
        exact h3 (findPivot s.U c s.curRow m).1 hfp.2.1.2 c (by omega)
      have hstep : pluStep m ε s c = pluClearStep m s c := by
        unfold pluStep
        rw [if_pos hm]
        show (if ε < |(findPivot s.U c s.curRow m).2|
            then pluPivotStep m s c (findPivot s.U c s.curRow m).1
              (findPivot s.U c s.curRow m).2
            else pluClearStep m s c) = pluClearStep m s c
        rw [if_neg hsmall]
      rw [hstep]
      refine ⟨h1, h2, ?_⟩
      intro i hi j hj
      show |(if j = c ∧ s.curRow ≤ i ∧ i < m then 0 else s.U i j)| ≤ ε
      by_cases hcond : j = c ∧ s.curRow ≤ i ∧ i < m
      · rw [if_pos hcond, abs_zero]
        exact le_trans (abs_nonneg (A i j)) (h i hi j hj)
      · rw [if_neg hcond]
        exact h3 i hi j hj
    · rw [show pluStep m ε s c = s from by unfold pluStep; rw [if_neg hm]]
      exact ⟨h1, h2, h3⟩

lemma nbStep_no_pivots (R : Mat) :
    ∀ (l : List ℕ) (prev : List (ℕ × ℕ)) (acc : List Vec),
      l.foldl (nbStep R) ([], prev, acc)
        = ([], prev, acc ++ l.map (fun j => mkFreeVec R prev j)) := by
  intro l
  induction l with
  | nil =>
    intro prev acc
    simp
  | cons j rest ih =>
    intro prev acc
    rw [List.foldl_cons,
      show nbStep R ([], prev, acc) j = ([], prev, acc ++ [mkFreeVec R prev j])
        from rfl,
      ih, List.map_cons]
    simp

/-- With no pivots, `Matrix#nullBasis` returns the standard basis
vectors, one per column. -/
lemma nullBasisF_of_no_pivots {m n : ℕ} {ε : ℚ} {A : Mat}
    (h : (PLU m n ε A).pivots = []) :
    nullBasisF m n ε A
      = (List.range n).map (fun j => fun k => if k = j then (1 : ℚ) else 0) := by
  unfold nullBasisF
  rw [h, nbStep_no_pivots]
  show [] ++ (List.range n).map (fun j => mkFreeVec (rrefF m n ε A) [] j) = _
  rw [List.nil_append]
  refine List.map_congr_left fun j _ => ?_
  funext k
  show (if k = j then 1
      else ((([] : List (ℕ × ℕ)).find? (fun pc => pc.2 == k)).map
        (fun pc => -(rrefF m n ε A) pc.1 j)).getD 0)
    = if k = j then (1 : ℚ) else 0
  by_cases hk : k = j
  · rw [if_pos hk, if_pos hk]
  · rw [if_neg hk, if_neg hk]
    rfl

/-- C8 counterexample: on `A = diag(1, 1 + 1e-11)` — diagonalizable with
the two distinct hinted eigenvalues `1` and `1 + 1e-11` — `diagonalize`
succeeds, but because the second eigenvalue is within `ε` of the first,
the cached eigenspace of `1` is reused and `C` gets two equal columns, so
`C` is not invertible and `A = C·D·C⁻¹` is impossible. -/
theorem diagonalize_duplicate_columns_counterexample :
    ∃ C D : Mat,
      diagonalizeF 2 (1/10^10) (matOfLists [[1, 0], [0, 1 + 1/10^11]])
          [⟨false, 1, 0, 1⟩, ⟨false, 1 + 1/10^11, 0, 1⟩] false
        = Except.ok (some (C, D)) ∧
      (∀ i, C i 0 = C i 1) ∧
      ¬ (∃ Ci : Mat, ∀ i < 2, ∀ j < 2, mulMat 2 C Ci i j = idMat 1 i j) := by
  have hsmall : ∀ i < 2, ∀ j < 2,
      |matOfLists [[1, 0], [0, 1 + 1/10^11]] i j
        - (if i = j then (1 : ℚ) else 0)| ≤ 1/10^10 := by
    intro i hi j hj
    interval_cases i <;> interval_cases j
    · show |(1 : ℚ) - 1| ≤ 1/10^10
      norm_num
    · show |(0 : ℚ) - 0| ≤ 1/10^10
      norm_num
    · show |(0 : ℚ) - 0| ≤ 1/10^10
      norm_num
    · show |(1 + 1/10^11 : ℚ) - 1| ≤ 1/10^10
      rw [show (1 + 1/10^11 : ℚ) - 1 = 1/10^11 from by ring,
        abs_of_pos (by norm_num)]
      norm_num
  have hV : realEigCompute 2 (1/10^10) 1 (matOfLists [[1, 0], [0, 1 + 1/10^11]])
      = [fun k => if k = 0 then (1 : ℚ) else 0,
         fun k => if k = 1 then (1 : ℚ) else 0] := by
    unfold realEigCompute
    rw [nullBasisF_of_no_pivots (PLU_all_small hsmall)]
    rfl
  have hre1 : realEigenspaceOp 2 (1/10^10) 1 (matOfLists [[1, 0], [0, 1 + 1/10^11]]) []
      = .ok ([fun k => if k = 0 then (1 : ℚ) else 0,
              fun k => if k = 1 then (1 : ℚ) else 0],
             [(1, [fun k => if k = 0 then (1 : ℚ) else 0,
                   fun k => if k = 1 then (1 : ℚ) else 0])]) := by
    unfold realEigenspaceOp
    rw [show esBest (1/10^10) 1 [] = none from rfl]
    rw [hV]
    rfl
  have hes2 : esBest (1/10^10) (1 + 1/10^11)
      [(1, [fun k => if k = 0 then (1 : ℚ) else 0,
            fun k => if k = 1 then (1 : ℚ) else 0])]
      = some (|(1 : ℚ) - (1 + 1/10^11)|,
          [fun k => if k = 0 then (1 : ℚ) else 0,
           fun k => if k = 1 then (1 : ℚ) else 0]) := by
    unfold esBest
    rw [List.foldl_cons, List.foldl_nil]
    show (if |(1 : ℚ) - (1 + 1/10^11)| ≤ 1/10^10 then _ else none) = _
    rw [if_pos (by
      rw [show (1 : ℚ) - (1 + 1/10^11) = -(1/10^11) from by ring, abs_neg,
        abs_of_pos (by norm_num)]
      norm_num)]
  have hre2 : realEigenspaceOp 2 (1/10^10) (1 + 1/10^11)
      (matOfLists [[1, 0], [0, 1 + 1/10^11]])
      [(1, [fun k => if k = 0 then (1 : ℚ) else 0,
            fun k => if k = 1 then (1 : ℚ) else 0])]
      = .ok ([fun k => if k = 0 then (1 : ℚ) else 0,
              fun k => if k = 1 then (1 : ℚ) else 0],
             [(1, [fun k => if k = 0 then (1 : ℚ) else 0,
                   fun k => if k = 1 then (1 : ℚ) else 0])]) := by
    unfold realEigenspaceOp
    rw [hes2]
  have hstep1 : diagLoop 2 (1/10^10) (matOfLists [[1, 0], [0, 1 + 1/10^11]]) false
      [⟨false, 1, 0, 1⟩, ⟨false, 1 + 1/10^11, 0, 1⟩] diagInit
      = diagLoop 2 (1/10^10) (matOfLists [[1, 0], [0, 1 + 1/10^11]]) false
        [⟨false, 1 + 1/10^11, 0, 1⟩]
        { i := 1
          basis := [fun k => if k = 0 then (1 : ℚ) else 0]
          D := fun a b => if a = b ∧ 0 ≤ a ∧ a < 1 then (1 : ℚ) else 0
          resC := [(1, [fun k => if k = 0 then (1 : ℚ) else 0,
              fun k => if k = 1 then (1 : ℚ) else 0])]
          cesC := [] } :=
    @diagLoop_real_ok 2 (1/10^10) (matOfLists [[1, 0], [0, 1 + 1/10^11]]) false
      ⟨false, 1, 0, 1⟩ [⟨false, 1 + 1/10^11, 0, 1⟩] diagInit
      [fun k => if k = 0 then (1 : ℚ) else 0,
        fun k => if k = 1 then (1 : ℚ) else 0]
      [(1, [fun k => if k = 0 then (1 : ℚ) else 0,
        fun k => if k = 1 then (1 : ℚ) else 0])]
      rfl hre1 (by decide)
  have hstep2 : diagLoop 2 (1/10^10) (matOfLists [[1, 0], [0, 1 + 1/10^11]]) false
      [⟨false, 1 + 1/10^11, 0, 1⟩]
      { i := 1
        basis := [fun k => if k = 0 then (1 : ℚ) else 0]
        D := fun a b => if a = b ∧ 0 ≤ a ∧ a < 1 then (1 : ℚ) else 0
        resC := [(1, [fun k => if k = 0 then (1 : ℚ) else 0,
            fun k => if k = 1 then (1 : ℚ) else 0])]
        cesC := [] }
      = diagLoop 2 (1/10^10) (matOfLists [[1, 0], [0, 1 + 1/10^11]]) false []
        { i := 2
          basis := [fun k => if k = 0 then (1 : ℚ) else 0,
            fun k => if k = 0 then (1 : ℚ) else 0]
          D := fun a b => if a = b ∧ 1 ≤ a ∧ a < 2 then (1 + 1/10^11 : ℚ)
            else if a = b ∧ 0 ≤ a ∧ a < 1 then (1 : ℚ) else 0
          resC := [(1, [fun k => if k = 0 then (1 : ℚ) else 0,
              fun k => if k = 1 then (1 : ℚ) else 0])]
          cesC := [] } :=
    @diagLoop_real_ok 2 (1/10^10) (matOfLists [[1, 0], [0, 1 + 1/10^11]]) false
      ⟨false, 1 + 1/10^11, 0, 1⟩ []
      { i := 1
        basis := [fun k => if k = 0 then (1 : ℚ) else 0]
        D := fun a b => if a = b ∧ 0 ≤ a ∧ a < 1 then (1 : ℚ) else 0
        resC := [(1, [fun k => if k = 0 then (1 : ℚ) else 0,
            fun k => if k = 1 then (1 : ℚ) else 0])]
        cesC := [] }
      [fun k => if k = 0 then (1 : ℚ) else 0,
        fun k => if k = 1 then (1 : ℚ) else 0]
      [(1, [fun k => if k = 0 then (1 : ℚ) else 0,
        fun k => if k = 1 then (1 : ℚ) else 0])]
      rfl hre2 (by decide)
  refine ⟨fun a b => (([fun k => if k = 0 then (1 : ℚ) else 0,
      fun k => if k = 0 then (1 : ℚ) else 0] : List Vec).getD b (fun _ => 0)) a,
    fun a b => if a = b ∧ 1 ≤ a ∧ a < 2 then (1 + 1/10^11 : ℚ)
      else if a = b ∧ 0 ≤ a ∧ a < 1 then (1 : ℚ) else 0,
    ?_, ?_, ?_⟩
  · unfold diagonalizeF
    rw [show ([⟨false, 1, 0, 1⟩, ⟨false, 1 + 1/10^11, 0, 1⟩] : List EV).filter
        (fun e => !e.cplx || decide (0 ≤ e.im))
        = [⟨false, 1, 0, 1⟩, ⟨false, 1 + 1/10^11, 0, 1⟩] from rfl]
    rw [hstep1, hstep2]
    rfl
  · intro i
    rfl
  · rintro ⟨Ci, hCi⟩
    have h11 := hCi 1 (by norm_num) 1 (by norm_num)
    have hz : mulMat 2 (fun a b => (([fun k => if k = 0 then (1 : ℚ) else 0,
        fun k => if k = 0 then (1 : ℚ) else 0] : List Vec).getD b (fun _ => 0)) a)
        Ci 1 1 = 0 := by
      show (∑ l ∈ Finset.range 2,
        (([fun k => if k = 0 then (1 : ℚ) else 0,
           fun k => if k = 0 then (1 : ℚ) else 0] : List Vec).getD l (fun _ => 0)) 1
          * Ci l 1) = 0
      refine Finset.sum_eq_zero fun l hl => ?_
      have hl2 := Finset.mem_range.mp hl
      interval_cases l
      · show (0 : ℚ) * Ci 0 1 = 0
        exact zero_mul _
      · show (0 : ℚ) * Ci 1 1 = 0
        exact zero_mul _
    rw [hz, show idMat 1 1 1 = 1 from rfl] at h11
    exact absurd h11 (by norm_num)

/-- `Matrix#trace`: the sum of the diagonal entries. -/
def traceF (n : ℕ) (M : Mat) : ℚ := ∑ i ∈ Finset.range n, M i i

/-- The running `power` of the loop of `Matrix#charpoly`: `matPow n A k` is
`A^(k+1)` (the loop starts from `power = this` and multiplies by `this`
after each use). -/
def matPow (n : ℕ) (A : Mat) : ℕ → Mat
  | 0 => A
  | k + 1 => mulMat n (matPow n A k) A

/-- The `ret` array after `i` iterations of the loop of `Matrix#charpoly`:
`ret[i] = -(traces[i] + Σ_{j<i} ret[j]·traces[i-j-1]) / (i+1)`, where
`traces[k] = trace(A^(k+1))`. -/
def cpAux (n : ℕ) (A : Mat) : ℕ → List ℚ
  | 0 => []
  | i + 1 =>
    cpAux n A i ++ [-(traceF n (matPow n A i)
      + ∑ j ∈ Finset.range i, (cpAux n A i).getD j 0
        * traceF n (matPow n A (i - j - 1))) / ((i : ℚ) + 1)]

/-- `Matrix#charpoly`, as its coefficient list, leading coefficient first
(`Polynomial.create(1, ...ret)`, negated entrywise when `n` is odd; the
`Polynomial` collaborator is modelled from the spec as its coefficient
list). -/
def charpolyF (n : ℕ) (A : Mat) : List ℚ :=
  if n % 2 == 1 then ((1 : ℚ) :: cpAux n A n).map (fun c => -c)
  else (1 : ℚ) :: cpAux n A n

/-- Modelled from the spec: the coefficient recursion exactly as C6 words
it, `c_i = -(trace(Aⁱ) + Σ_{j<i} c_j·trace(A^(i-j))) / (i+1)` in the
1-based index `i` (with `c_0 = 0`, so the `j = 0` summand vanishes). -/
def cLit (t : ℕ → ℚ) : ℕ → ℚ
  | 0 => 0
  | i + 1 =>
    -(t (i + 1) + ∑ j ∈ (Finset.range (i + 1)).attach, cLit t j.1 * t (i + 1 - j.1))
      / ((i : ℚ) + 2)
termination_by i => i
decreasing_by exact Finset.mem_range.mp j.2

/-- Modelled from the spec (amended): the same recursion with the divisor
`i` — the code divides `ret[i-1]` by the 1-based position `i`. -/
def cCode (t : ℕ → ℚ) : ℕ → ℚ
  | 0 => 0
  | i + 1 =>
    -(t (i + 1) + ∑ j ∈ (Finset.range (i + 1)).attach, cCode t j.1 * t (i + 1 - j.1))
      / ((i : ℚ) + 1)
termination_by i => i
decreasing_by exact Finset.mem_range.mp j.2

/-- Modelled from the spec: the assembled polynomial of C6 verbatim, with
its stated divisor `(i+1)` and the `(-1)ⁿ` factor. -/
def charpolyLit (n : ℕ) (A : Mat) : List ℚ :=
  ((1 : ℚ) :: (List.range n).map fun i0 =>
      cLit (fun k => traceF n (matPow n A (k - 1))) (i0 + 1)).map
    (fun c => (-1) ^ n * c)

/-- Modelled from the spec (amended): the assembled polynomial with the
corrected divisor `i`. -/
def charpolyAmended (n : ℕ) (A : Mat) : List ℚ :=
  ((1 : ℚ) :: (List.range n).map fun i0 =>
      cCode (fun k => traceF n (matPow n A (k - 1))) (i0 + 1)).map
    (fun c => (-1) ^ n * c)

lemma cpAux_eq (n : ℕ) (A : Mat) :
    ∀ i, cpAux n A i = (List.range i).map fun i0 =>
      cCode (fun k => traceF n (matPow n A (k - 1))) (i0 + 1) := by
  intro i
  induction i with
  | zero => rfl
  | succ i ih =>
    have hgetD : ∀ j, j < i → ((List.range i).map fun i0 =>
        cCode (fun k => traceF n (matPow n A (k - 1))) (i0 + 1)).getD j 0
          = cCode (fun k => traceF n (matPow n A (k - 1))) (j + 1) := by
      intro j hj
      have hlen : j < ((List.range i).map fun i0 =>
          cCode (fun k => traceF n (matPow n A (k - 1))) (i0 + 1)).length := by
        simpa using hj
      rw [List.getD_eq_getElem _ 0 hlen]
      simp
    rw [show cpAux n A (i + 1) = cpAux n A i ++ [-(traceF n (matPow n A i)
        + ∑ j ∈ Finset.range i, (cpAux n A i).getD j 0
          * traceF n (matPow n A (i - j - 1))) / ((i : ℚ) + 1)] from rfl]
    rw [List.range_succ, List.map_append, ih]
    congr 1
    rw [List.map_singleton]
    congr 1
    have hc : cCode (fun k => traceF n (matPow n A (k - 1))) (i + 1)
        = -(traceF n (matPow n A i)
            + ∑ j ∈ (Finset.range (i + 1)).attach,
                cCode (fun k => traceF n (matPow n A (k - 1))) j.1
                  * traceF n (matPow n A (i + 1 - j.1 - 1))) / ((i : ℚ) + 1) := by
      rw [cCode]
      simp only [Nat.add_sub_cancel]
    rw [hc, Finset.sum_attach (Finset.range (i + 1))
      (fun j => cCode (fun k => traceF n (matPow n A (k - 1))) j
        * traceF n (matPow n A (i + 1 - j - 1))),
      Finset.sum_range_succ',
      show cCode (fun k => traceF n (matPow n A (k - 1))) 0 = 0 from by rw [cCode],
      zero_mul, add_zero]
    have hsum : (∑ j ∈ Finset.range i,
          cCode (fun k => traceF n (matPow n A (k - 1))) (j + 1)
            * traceF n (matPow n A (i + 1 - (j + 1) - 1)))
        = ∑ j ∈ Finset.range i, ((List.range i).map fun i0 =>
            cCode (fun k => traceF n (matPow n A (k - 1))) (i0 + 1)).getD j 0
              * traceF n (matPow n A (i - j - 1)) := by
      refine Finset.sum_congr rfl fun j hj => ?_
      rw [hgetD j (Finset.mem_range.mp hj),
        show i + 1 - (j + 1) - 1 = i - j - 1 from by omega]
    rw [hsum]

/-- C6 (amended): `Matrix#charpoly` computes the coefficient list
`(-1)ⁿ·(λⁿ + c_1λ^(n-1) + … + c_n)` where the `c_i` satisfy the trace
recursion with divisor `i` (not `i+1` as the spec words it):
`c_i = -(trace(Aⁱ) + Σ_{j<i} c_j·trace(A^(i-j))) / i`. -/
theorem charpoly_trace_recursion (n : ℕ) (A : Mat) :
    charpolyF n A = charpolyAmended n A := by
  unfold charpolyF charpolyAmended
  rw [cpAux_eq n A n]
  by_cases h : n % 2 = 1
  · rw [if_pos (by simpa using h)]
    rw [show ((-1 : ℚ)) ^ n = -1 from Odd.neg_one_pow (Nat.odd_iff.mpr h)]
    refine List.map_congr_left fun a _ => ?_
    ring
  · rw [if_neg (by simpa using h)]
    rw [show ((-1 : ℚ)) ^ n = 1 from Even.neg_one_pow (Nat.even_iff.mpr (by omega))]
    have h1 : (((1 : ℚ) :: (List.range n).map fun i0 =>
        cCode (fun k => traceF n (matPow n A (k - 1))) (i0 + 1)).map (fun c => 1 * c))
        = ((1 : ℚ) :: (List.range n).map fun i0 =>
        cCode (fun k => traceF n (matPow n A (k - 1))) (i0 + 1)).map (fun c => c) :=
      List.map_congr_left fun a _ => one_mul a
    rw [h1, List.map_id']

lemma cLit_one (t : ℕ → ℚ) : cLit t 1 = -(t 1) / 2 := by
  rw [cLit]
  rw [Finset.sum_attach (Finset.range 1) (fun j => cLit t j * t (1 - j)),
    Finset.sum_range_one, show cLit t 0 = 0 from by rw [cLit], zero_mul, add_zero]
  norm_num

/-- C6 counterexample: on `A = [[2]]`, the code gives `charpoly = -λ + 2`
(coefficients `[-1, 2]`), but the spec's formula — divisor `(i+1)`, so
`c_1 = -trace(A)/2` — assembles `-λ + 1` (coefficients `[-1, 1]`). -/
theorem charpoly_divisor_counterexample :
    charpolyF 1 (matOfLists [[2]]) = [-1, 2] ∧
    charpolyLit 1 (matOfLists [[2]]) = [-1, 1] ∧
    charpolyF 1 (matOfLists [[2]]) ≠ charpolyLit 1 (matOfLists [[2]]) := by
  have htr : traceF 1 (matOfLists [[2]]) = 2 := by
    unfold traceF
    rw [Finset.sum_range_one]
    rfl
  have hcp : cpAux 1 (matOfLists [[2]]) 1 = [-2] := by
    show [-(traceF 1 (matOfLists [[2]])
        + ∑ j ∈ Finset.range 0, ([] : List ℚ).getD j 0
          * traceF 1 (matPow 1 (matOfLists [[2]]) (0 - j - 1))) / ((0 : ℚ) + 1)]
      = [-2]
    rw [Finset.sum_range_zero, htr]
    norm_num
  have h1 : charpolyF 1 (matOfLists [[2]]) = [-1, 2] := by
    unfold charpolyF
    rw [if_pos (by decide : ((1 % 2 == 1) = true)), hcp]
    norm_num
  have h2 : charpolyLit 1 (matOfLists [[2]]) = [-1, 1] := by
    unfold charpolyLit
    rw [show List.range 1 = [0] from rfl, List.map_singleton,
      show (0 : ℕ) + 1 = 1 from rfl, cLit_one,
      show traceF 1 (matPow 1 (matOfLists [[2]]) (1 - 1)) = 2 from htr]
    norm_num
  refine ⟨h1, h2, ?_⟩
  rw [h1, h2]
  norm_num

theorem rref_isRREF_and_plu_U_isEchelon_witness :
    isRREF 2 2 0 (rrefF 2 2 (1/10^10) (matOfLists [[1, 2], [3, 4]])) = true ∧
    isEchelon 2 2 0 (PLU 2 2 (1/10^10) (matOfLists [[1, 2], [3, 4]])).U = true :=
  rref_isRREF_and_plu_U_isEchelon 2 2 (matOfLists [[1, 2], [3, 4]]) (1/10^10) (by norm_num)

theorem inverse_mult_identity_witness :
    (∀ B, inverseF 1 1 (1/10^10) (matOfLists [[2]]) = Except.ok B →
      matEqApprox 1 1 (mulMat 1 B (matOfLists [[2]])) (idMat 1) (1/10^8) ∧
      matEqApprox 1 1 (mulMat 1 (matOfLists [[2]]) B) (idMat 1) (1/10^8)) ∧
    (∀ m, m ≠ 1 → inverseF m 1 (1/10^10) (matOfLists [[2]]) = Except.error ()) ∧
    (isInvertibleF 1 1 (1/10^10) (matOfLists [[2]]) = false →
      inverseF 1 1 (1/10^10) (matOfLists [[2]]) = Except.error ()) :=
  inverse_mult_identity 1 (matOfLists [[2]]) (1/10^10) (by norm_num)

end ILA
